import Mathlib

/-!
# The SQS queue consumer of `aws/sqs`, and the SQL helpers of `db` and `db/sqly`

A shallow embedding of `consumer.go`, `lock.go` and `error.go` (namespace `Sqs`),
of `db/sort.go` (namespace `Db`) and of `sort.go`, `exec.go` and `prepare.go` of
`db/sqly` (namespace `Sqly`).

* The SQS client (`sqsiface.SQSAPI`), the message handler and the context are
  external collaborators.  They are gathered in a `World`: a record of
  state-passing transition functions over an arbitrary world state `σ`.
* Every `MessageLock` owns a goroutine running `MessageLock.loop`.  The loop is a
  `for { select { ... } }`; it is driven here by the sequence of `select` cases
  that fire, which the world chooses.  The calls a lock issues are attributed to
  the moment `Release` is called on it, so the model is faithful for everything
  that concerns one lock, and for the order of the consumer's own actions.
* `ConsumeMessages` is an unbounded `for` loop; it is bounded here by a fuel that
  counts receive calls.  `none` means that the call has not returned.
* Besides the values the Go code returns, the embedding returns a log of the
  actions performed, on which the properties are stated.
* Go strings are taken as sequences of characters; the bytes that the SQL helpers
  test (`-`, `+`, `:`) are characters of one byte.  A Go map used as a set is the
  list of its keys.  The query builder, the database and the statement preparer
  are records of the functions that the code calls.
-/

namespace Sqs

/-! ## Durations and errors -/

/-- A `time.Duration`: a signed number of nanoseconds. -/
abbrev Duration := Int

/-- The constant `time.Second`. -/
def Second : Duration := 1000000000

/-- Go `error` values, as far as the consumer can tell them apart: a
`RetriableError`, an error that wraps another one, or any other error. -/
inductive GoError where
  | retriable (Delay : Duration)
  | wrapped (text : String) (cause : GoError)
  | plain (text : String)
deriving DecidableEq

/-- `NewRetriableError` creates a `RetriableError` with the given delay. -/
def NewRetriableError (delay : Duration) : GoError := GoError.retriable delay

/-- `xerrors.As(err, &retriableError)`: the delay of the first `RetriableError`
found along the unwrap chain of `err`, if there is one. -/
def asRetriableError : GoError → Option Duration
  | GoError.retriable d => some d
  | GoError.wrapped _ c => asRetriableError c
  | GoError.plain _ => none

/-- `var noDelay = time.Duration(0)`. -/
def noDelay : Duration := 0

/-- `extractDelay`: `nil` for a `nil` error, the delay of a `RetriableError`, and
`&noDelay` for any other error. -/
def extractDelay : Option GoError → Option Duration
  | none => none
  | some err =>
    match asRetriableError err with
    | some d => some d
    | none => some noDelay

/-! ## Messages and requests -/

/-- The fields of `sqs.Message` that the package reads (all `*string`). -/
structure Message where
  MessageId : Option String
  ReceiptHandle : Option String
  Body : Option String
deriving DecidableEq

/-- `aws.StringValue`: the pointed string, or the empty string for `nil`. -/
def StringValue : Option String → String
  | some s => s
  | none => ""

/-- `sqs.ReceiveMessageInput` as filled in by `ConsumeMessages`. -/
structure ReceiveMessageInput where
  AttributeNames : List String
  MessageAttributeNames : List String
  QueueUrl : String
  MaxNumberOfMessages : Int
  VisibilityTimeout : Int
  WaitTimeSeconds : Int
deriving DecidableEq

/-- `sqs.DeleteMessageInput` as filled in by `deleteMessage`. -/
structure DeleteMessageInput where
  QueueUrl : String
  ReceiptHandle : Option String
deriving DecidableEq

/-- `sqs.ChangeMessageVisibilityInput` as filled in by `changeMessageVisibility`. -/
structure ChangeMessageVisibilityInput where
  QueueUrl : String
  ReceiptHandle : Option String
  VisibilityTimeout : Int
deriving DecidableEq

/-- The three cases of the `select` in `MessageLock.loop`. -/
inductive SelectCase where
  | release
  | done
  | timeAfter
deriving DecidableEq

/-- The state of a `MessageLock` that the model needs: the channels are
represented by the arguments and the result of `MessageLock.loop`. -/
structure MessageLock where
  queue : String
  visibilityTimeout : Duration
  heartbeatInterval : Duration
  message : Message
deriving DecidableEq

/-- The collaborators of the consumer over a world state `σ`: the SQS client, the
message handler, the scheduler of the `select` of each lock, and the error
reported by the context once it is done. -/
structure World (σ : Type) where
  ReceiveMessageWithContext : ReceiveMessageInput → σ → (List Message × Option GoError) × σ
  DeleteMessage : DeleteMessageInput → σ → Option GoError × σ
  ChangeMessageVisibility : ChangeMessageVisibilityInput → σ → Option GoError × σ
  handler : String → σ → Option GoError × σ
  schedule : MessageLock → σ → List SelectCase
  ctxErr : GoError

/-! ## The message lock (`lock.go`) -/

/-- A call of the SQS client issued by the loop of a lock. -/
inductive QueueCall where
  | DeleteMessage (input : DeleteMessageInput)
  | ChangeMessageVisibility (input : ChangeMessageVisibilityInput)
deriving DecidableEq

/-- A logged call of a lock: the `select` case that issued it, the call and the
error it returned. -/
structure LockCall where
  via : SelectCase
  call : QueueCall
  err : Option GoError
deriving DecidableEq

/-- The value sent on the `release` channel. -/
structure releaseRequest where
  retryDelay : Option Duration
deriving DecidableEq

/-- What `Release` yields: the error read from the `err` channel, the world
after the calls of the loop, and the log of these calls. -/
structure Released (σ : Type) where
  err : Option GoError
  world : σ
  calls : List LockCall

variable {σ : Type}

/-- `NewMessageLock` (the goroutine it starts is run by `MessageLock.Release`). -/
def NewMessageLock (queue : String) (visibilityTimeout heartbeatInterval : Duration)
    (message : Message) : MessageLock :=
  { queue := queue, visibilityTimeout := visibilityTimeout,
    heartbeatInterval := heartbeatInterval, message := message }

/-- The request built by `deleteMessage`. -/
def MessageLock.deleteMessageInput (l : MessageLock) : DeleteMessageInput :=
  { QueueUrl := l.queue, ReceiptHandle := l.message.ReceiptHandle }

/-- The request built by `changeMessageVisibility`: the timeout is sent as
`int64(visibilityTimeout / time.Second)`, a division that truncates. -/
def MessageLock.changeMessageVisibilityInput (l : MessageLock) (visibilityTimeout : Duration) :
    ChangeMessageVisibilityInput :=
  { QueueUrl := l.queue, ReceiptHandle := l.message.ReceiptHandle,
    VisibilityTimeout := Int.tdiv visibilityTimeout Second }

/-- `MessageLock.deleteMessage`: returns the error of the `DeleteMessage` call. -/
def MessageLock.deleteMessage (w : World σ) (l : MessageLock) (s : σ) : Option GoError × σ :=
  w.DeleteMessage l.deleteMessageInput s

/-- `MessageLock.changeMessageVisibility`: returns the error of the call. -/
def MessageLock.changeMessageVisibility (w : World σ) (l : MessageLock)
    (visibilityTimeout : Duration) (s : σ) : Option GoError × σ :=
  w.ChangeMessageVisibility (l.changeMessageVisibilityInput visibilityTimeout) s

/-- `MessageLock.loop`, driven by the `select` cases that fire, in order.
`release` is the content of the `release` channel.  The result is the value sent
on the `err` channel; `none` means that the loop has sent nothing (the cases are
exhausted, or the `release` case is chosen while the channel is empty). -/
def MessageLock.loop (w : World σ) (l : MessageLock) (release : Option releaseRequest) :
    List SelectCase → σ → Option (Released σ)
  | [], _ => none
  | SelectCase.release :: _, s =>
    match release with
    | none => none
    | some req =>
      match req.retryDelay with
      | none =>
        let r := l.deleteMessage w s
        some ⟨r.1, r.2, [⟨SelectCase.release, QueueCall.DeleteMessage l.deleteMessageInput, r.1⟩]⟩
      | some d =>
        let r := l.changeMessageVisibility w d s
        some ⟨r.1, r.2, [⟨SelectCase.release,
          QueueCall.ChangeMessageVisibility (l.changeMessageVisibilityInput d), r.1⟩]⟩
  | SelectCase.done :: _, s =>
    let r := l.changeMessageVisibility w 0 s
    some ⟨some w.ctxErr, r.2, [⟨SelectCase.done,
      QueueCall.ChangeMessageVisibility (l.changeMessageVisibilityInput 0), r.1⟩]⟩
  | SelectCase.timeAfter :: rest, s =>
    let r := l.changeMessageVisibility w l.visibilityTimeout s
    match MessageLock.loop w l release rest r.2 with
    | none => none
    | some out => some ⟨out.err, out.world, ⟨SelectCase.timeAfter,
        QueueCall.ChangeMessageVisibility (l.changeMessageVisibilityInput l.visibilityTimeout),
        r.1⟩ :: out.calls⟩

/-- `MessageLock.Release`: sends the request, closes the channel and waits for
the error sent by the loop, whose `select` cases are drawn from the world. -/
def MessageLock.Release (w : World σ) (l : MessageLock) (retryDelay : Option Duration)
    (s : σ) : Option (Released σ) :=
  l.loop w (some ⟨retryDelay⟩) (w.schedule l s) s

/-! ## The consumer (`consumer.go`) -/

/-- The configuration held by a `QueueConsumer`. -/
structure QueueConsumer where
  queue : String
  maxNumberOfMessages : Int
  visibilityTimeout : Duration
  heartbeatInterval : Duration
  waitTime : Duration
  forever : Bool
deriving DecidableEq

/-- The actions of `ConsumeMessages`.  `index` is the position of the message in
its batch: the creation of its lock, the call of the handler with its result, the
call of `Release` with its argument, the calls issued by the loop of the lock, the
return of `Release` with its result, and the execution of `consumed++`. -/
inductive Event where
  | receive (input : ReceiveMessageInput) (messages : List Message) (err : Option GoError)
  | lock (index : Nat) (l : MessageLock)
  | handler (index : Nat) (message : String) (err : Option GoError)
  | release (index : Nat) (retryDelay : Option Duration)
  | queue (index : Nat) (c : LockCall)
  | released (index : Nat) (err : Option GoError)
  | counted (index : Nat)
deriving DecidableEq

/-- The state of the loop over the locks of a batch, with the events of each
iteration performed so far (one list per lock, in order). -/
structure Progress (σ : Type) where
  firstErr : Option GoError
  consumed : Nat
  world : σ
  steps : List (List Event)

/-- The events of one release: the call of `Release`, the calls of the loop of
the lock, and the return of `Release`. -/
def releaseEvents (index : Nat) (retryDelay : Option Duration) (r : Released σ) : List Event :=
  Event.release index retryDelay :: (r.calls.map (Event.queue index) ++ [Event.released index r.err])

/-- One iteration of `for _, lock := range locks`. -/
def processLock (w : World σ) (index : Nat) (lock : MessageLock) (firstErr : Option GoError)
    (consumed : Nat) (s : σ) : Option (Progress σ) :=
  match firstErr with
  | some e =>
    match lock.Release w (some noDelay) s with
    | none => none
    | some r => some ⟨some e, consumed, r.world, [releaseEvents index (some noDelay) r]⟩
  | none =>
    let h := w.handler (StringValue lock.message.Body) s
    let err := h.1
    let retryDelay := extractDelay err
    let firstErr1 : Option GoError :=
      match retryDelay with
      | none => none
      | some d => if d ≠ 0 then none else err
    match lock.Release w retryDelay h.2 with
    | none => none
    | some r =>
      let step := Event.handler index (StringValue lock.message.Body) err ::
        releaseEvents index retryDelay r
      match firstErr1 with
      | some e => some ⟨some e, consumed, r.world, [step]⟩
      | none =>
        match r.err with
        | some e => some ⟨some e, consumed, r.world, [step]⟩
        | none =>
          match retryDelay with
          | none => some ⟨none, consumed + 1, r.world, [step ++ [Event.counted index]]⟩
          | some _ => some ⟨none, consumed, r.world, [step]⟩

/-- The loop `for _, lock := range locks`, from the lock of position `index`. -/
def processLocks (w : World σ) : Nat → List MessageLock → Option GoError → Nat → σ →
    Option (Progress σ)
  | _, [], firstErr, consumed, s => some ⟨firstErr, consumed, s, []⟩
  | index, lock :: locks, firstErr, consumed, s =>
    match processLock w index lock firstErr consumed s with
    | none => none
    | some p =>
      match processLocks w (index + 1) locks p.firstErr p.consumed p.world with
      | none => none
      | some q => some ⟨q.firstErr, q.consumed, q.world, p.steps ++ q.steps⟩

/-- The log of one iteration of the outer loop: the receive call and its result,
the locks created, and the events of the processing of each lock. -/
structure BatchLog where
  input : ReceiveMessageInput
  messages : List Message
  err : Option GoError
  locks : List MessageLock
  steps : List (List Event)
deriving DecidableEq

/-- The events of a batch in the order they happen: the receive call, the
creations of the locks, and the events of the processing of each lock.  This is
the trace that `QueueConsumer.processBatch` computes for the batch. -/
def BatchLog.events (b : BatchLog) : List Event :=
  Event.receive b.input b.messages b.err ::
    ((b.locks.enum.map fun p => Event.lock p.1 p.2) ++ b.steps.flatten)

/-- What `ConsumeMessages` returns, with the final world and the log. -/
structure Outcome (σ : Type) where
  consumed : Nat
  err : Option GoError
  world : σ
  log : List BatchLog

/-- The request sent by `ConsumeMessages` to receive messages. -/
def QueueConsumer.receiveMessageInput (m : QueueConsumer) : ReceiveMessageInput :=
  { AttributeNames := ["SentTimestamp"],
    MessageAttributeNames := ["All"],
    QueueUrl := m.queue,
    MaxNumberOfMessages := m.maxNumberOfMessages,
    VisibilityTimeout := Int.tdiv m.visibilityTimeout Second,
    WaitTimeSeconds := Int.tdiv m.waitTime Second }

/-- The `for` loop of `ConsumeMessages`, with the count consumed so far.  The
first argument bounds the number of receive calls. -/
def QueueConsumer.consumeLoop (w : World σ) (m : QueueConsumer) : Nat → Nat → σ →
    Option (Outcome σ)
  | 0, _, _ => none
  | fuel + 1, consumed, s =>
    let input := m.receiveMessageInput
    let r := w.ReceiveMessageWithContext input s
    match r.1.2 with
    | some err => some ⟨consumed, some err, r.2, [⟨input, r.1.1, some err, [], []⟩]⟩
    | none =>
      match r.1.1 with
      | [] =>
        if m.forever then
          match QueueConsumer.consumeLoop w m fuel consumed r.2 with
          | none => none
          | some out => some ⟨out.consumed, out.err, out.world, ⟨input, [], none, [], []⟩ :: out.log⟩
        else
          some ⟨consumed, none, r.2, [⟨input, [], none, [], []⟩]⟩
      | msg :: msgs =>
        let locks := (msg :: msgs).map
          (NewMessageLock m.queue m.visibilityTimeout m.heartbeatInterval)
        match processLocks w 0 locks none consumed r.2 with
        | none => none
        | some p =>
          let b : BatchLog := ⟨input, msg :: msgs, none, locks, p.steps⟩
          match p.firstErr with
          | some e => some ⟨p.consumed, some e, p.world, [b]⟩
          | none =>
            match QueueConsumer.consumeLoop w m fuel p.consumed p.world with
            | none => none
            | some out => some ⟨out.consumed, out.err, out.world, b :: out.log⟩

/-- `QueueConsumer.ConsumeMessages`: the loop started with `consumed := 0`. -/
def QueueConsumer.ConsumeMessages (w : World σ) (m : QueueConsumer) (fuel : Nat) (s : σ) :
    Option (Outcome σ) :=
  m.consumeLoop w fuel 0 s

/-! ## Reading the log -/

/-- The call is a `DeleteMessage`. -/
def LockCall.isDelete (c : LockCall) : Bool :=
  match c.call with
  | QueueCall.DeleteMessage _ => true
  | QueueCall.ChangeMessageVisibility _ => false

/-- The event is a `DeleteMessage` call. -/
def Event.isDelete : Event → Bool
  | Event.queue _ c => c.isDelete
  | _ => false

/-- The event is a `DeleteMessage` call that returned no error. -/
def Event.isDeleted : Event → Bool
  | Event.queue _ c => c.isDelete && c.err.isNone
  | _ => false

/-- The event is a call of the handler. -/
def Event.isHandler : Event → Bool
  | Event.handler _ _ _ => true
  | _ => false

/-- The event is a call of the handler that returned `nil`. -/
def Event.isHandled : Event → Bool
  | Event.handler _ _ none => true
  | _ => false

/-- The event is a return of `Release` without error. -/
def Event.isReleased : Event → Bool
  | Event.released _ none => true
  | _ => false

/-- The event is an execution of `consumed++`. -/
def Event.isCounted : Event → Bool
  | Event.counted _ => true
  | _ => false

/-- The result of the handler, when the event is a call of the handler. -/
def Event.handlerResult : Event → Option (Option GoError)
  | Event.handler _ _ err => some err
  | _ => none

/-- The error returned by `Release`, when the event is a failed release. -/
def Event.releaseError : Event → Option GoError
  | Event.released _ err => err
  | _ => none

/-- The handler of the message of this step returned `nil`. -/
def stepHandled (step : List Event) : Bool := step.any Event.isHandled

/-- The handler of the message of this step returned `nil` and the release of its
lock returned no error. -/
def stepSucceeded (step : List Event) : Bool :=
  step.any Event.isHandled && step.any Event.isReleased

/-- A `DeleteMessage` call was issued in this step and returned no error. -/
def stepDeleted (step : List Event) : Bool := step.any Event.isDeleted

/-- The number of steps of a log, over all its batches, that satisfy `f`. -/
def countSteps (f : List Event → Bool) (log : List BatchLog) : Nat :=
  (log.map fun b => b.steps.countP f).sum

/-- The fatal outcome that a handler result records by itself: the error, when it
is not `nil` and the delay extracted from it is zero. -/
def handlerFatal (err : Option GoError) : Option GoError :=
  match extractDelay err with
  | none => none
  | some d => if d ≠ 0 then none else err

/-- The fatal cause of one step, in the words of the specification: for a message
whose handler was called, the fatal error of the handler, or else the error of
the release of its lock; nothing for a message that was skipped. -/
def fatalCause (step : List Event) : Option GoError :=
  match step.findSome? Event.handlerResult with
  | none => none
  | some err =>
    match handlerFatal err with
    | some e => some e
    | none => step.findSome? Event.releaseError

/-- The first fatal cause of a batch in processing order. -/
def firstFatalCause (steps : List (List Event)) : Option GoError :=
  steps.findSome? fatalCause

/-- The events of the processing of one lock, as the loop over the locks produces
them: either the lock is released at once with no delay (a fatal outcome was
recorded before), or the handler is called and the lock released as the handler
result asks, and the message counted when both return `nil`. -/
def IsStep (w : World σ) (index : Nat) (lock : MessageLock) (step : List Event) : Prop :=
  (∃ s r, lock.Release w (some noDelay) s = some r ∧
      step = releaseEvents index (some noDelay) r) ∨
  (∃ s err r, lock.Release w (extractDelay err) s = some r ∧
      step = Event.handler index (StringValue lock.message.Body) err ::
        releaseEvents index (extractDelay err) r ++
          (if err = none ∧ r.err = none then [Event.counted index] else []))

/-- The step of a lock that is released at once with no delay: no handler call,
a call of `Release` with a delay of zero, and a last call of the loop that sets
the visibility timeout of the message to zero. -/
def IsSkip (index : Nat) (lock : MessageLock) (step : List Event) : Prop :=
  (∀ e ∈ step, e.isHandler = false) ∧ (∀ e ∈ step, e.isCounted = false) ∧
  step.head? = some (Event.release index (some 0)) ∧
  ∃ c, Event.queue index c ∈ step ∧ c.via ≠ SelectCase.timeAfter ∧
    c.call = QueueCall.ChangeMessageVisibility ⟨lock.queue, lock.message.ReceiptHandle, 0⟩

/-! ## Scripted worlds, for examples -/

/-- The state of a scripted world: the results still to be returned by the
receive calls, by the handler, by `DeleteMessage` and by `ChangeMessageVisibility`.
When a list is exhausted the call returns no message, or no error. -/
structure Script where
  receives : List (List Message × Option GoError)
  handlers : List (Option GoError)
  deletes : List (Option GoError)
  changes : List (Option GoError)
deriving DecidableEq

/-- The scripted world: every call returns the next result of its list; the
`select` cases of a lock are given by `sched`. -/
def Script.world (sched : MessageLock → List SelectCase) : World Script :=
  { ReceiveMessageWithContext := fun _ s =>
      (s.receives.headD ([], none), ⟨s.receives.tail, s.handlers, s.deletes, s.changes⟩)
    DeleteMessage := fun _ s =>
      (s.deletes.headD none, ⟨s.receives, s.handlers, s.deletes.tail, s.changes⟩)
    ChangeMessageVisibility := fun _ s =>
      (s.changes.headD none, ⟨s.receives, s.handlers, s.deletes, s.changes.tail⟩)
    handler := fun _ s =>
      (s.handlers.headD none, ⟨s.receives, s.handlers.tail, s.deletes, s.changes⟩)
    schedule := fun l _ => sched l
    ctxErr := GoError.plain "context canceled" }

/-- The scheduler under which every lock fires one heartbeat and then takes the
release request. -/
def releaseAfterHeartbeat (_ : MessageLock) : List SelectCase :=
  [SelectCase.timeAfter, SelectCase.release]

/-- The messages of the tests of the consumer. -/
def testMessage (n : Nat) : Message :=
  ⟨some ("bar" ++ toString n), some ("baz" ++ toString n), some ("qux" ++ toString n)⟩

/-- The configuration of the tests of the consumer, in one-shot mode. -/
def testConsumer : QueueConsumer :=
  ⟨"foo", 10, 150 * Second, 60 * Second, 20 * Second, false⟩

/-- The outcome of a run in a scripted world (an empty outcome if the run does
not return). -/
def Script.run (m : QueueConsumer) (sched : MessageLock → List SelectCase) (fuel : Nat)
    (sc : Script) : Outcome Script :=
  (m.ConsumeMessages (Script.world sched) fuel sc).getD ⟨0, none, sc, []⟩

/-- The first batch of a log (an empty batch if there is none). -/
def firstBatch (log : List BatchLog) : BatchLog :=
  log.headD ⟨testConsumer.receiveMessageInput, [], none, [], []⟩

/-- The step of position `j` of a batch (no event if there is none). -/
def BatchLog.step (b : BatchLog) (j : Nat) : List Event :=
  (b.steps[j]?).getD []

/-- A script: two messages are received; the handler succeeds for the first one
and asks to retry the second one after 2520 seconds; the next receive is empty. -/
def scriptRetry : Script :=
  ⟨[([testMessage 1, testMessage 2], none)], [none, some (NewRetriableError (2520 * Second))],
    [], []⟩

/-- A script: two messages are received and the handler fails for the first one
with an error that is not a `RetriableError`. -/
def scriptFatal : Script :=
  ⟨[([testMessage 3, testMessage 4], none)], [some (GoError.plain "fatal error")], [], []⟩

/-- A script: one message is received, its handler succeeds and the
`DeleteMessage` call of its release fails. -/
def scriptDeleteFails : Script :=
  ⟨[([testMessage 1], none)], [none], [some (GoError.plain "delete failed")], []⟩

/-- A script: two messages are received and the handler returns for the first
one a `RetriableError` whose delay is zero. -/
def scriptRetryZero : Script :=
  ⟨[([testMessage 1, testMessage 2], none)], [some (NewRetriableError 0), none], [], []⟩

/-- A script: two messages are received, the handler asks to retry the first one
after 2520 seconds, and the `ChangeMessageVisibility` call of its release (the
second call, after one heartbeat) fails. -/
def scriptRetryReleaseFails : Script :=
  ⟨[([testMessage 1, testMessage 2], none)], [some (NewRetriableError (2520 * Second)), none],
    [], [none, some (GoError.plain "change failed")]⟩

/-- A script: two messages are received, the handler asks to retry the first one
after 2520 seconds and succeeds for the second one. -/
def scriptRetryFirst : Script :=
  ⟨[([testMessage 1, testMessage 2], none)], [some (NewRetriableError (2520 * Second)), none],
    [], []⟩

/-- The batch of the run of `scriptRetryFirst`. -/
def retryFirstBatch : BatchLog :=
  firstBatch (Script.run testConsumer releaseAfterHeartbeat 3 scriptRetryFirst).log

/-- A script: two messages are received; the handler fails for the first one, and
the `ChangeMessageVisibility` calls of both releases (the second and the fourth
call, each after one heartbeat) fail too. -/
def scriptFatalThenReleaseErrors : Script :=
  ⟨[([testMessage 3, testMessage 4], none)], [some (GoError.plain "fatal error")], [],
    [none, some (GoError.plain "first release failed"), none,
      some (GoError.plain "second release failed")]⟩

/-- A script: one message is received, the handler returns a `RetriableError`
whose delay is zero, and every call of the queue succeeds. -/
def scriptOnlyRetryZero : Script :=
  ⟨[([testMessage 1], none)], [some (NewRetriableError 0)], [], []⟩

/-- The configuration of the tests of the consumer, in forever mode. -/
def foreverConsumer : QueueConsumer :=
  ⟨"foo", 10, 150 * Second, 60 * Second, 20 * Second, true⟩

/-- A script: an empty receive, then one message, which is handled. -/
def scriptEmptyFirst : Script :=
  ⟨[([], none), ([testMessage 0], none)], [none], [], []⟩

/-- The result of the loop over the locks of the messages `msgs` in a scripted
world, from the count `c` (nothing done if it does not return). -/
def Script.batch (m : QueueConsumer) (sched : MessageLock → List SelectCase) (c : Nat)
    (msgs : List Message) (sc : Script) : Progress Script :=
  (processLocks (Script.world sched) 0
    (msgs.map (NewMessageLock m.queue m.visibilityTimeout m.heartbeatInterval)) none c sc).getD
    ⟨none, c, sc, []⟩

/-- A script: an empty receive, then a receive call that fails. -/
def scriptEmptyThenFails : Script :=
  ⟨[([], none), ([], some (GoError.plain "receive failed"))], [], [], []⟩

/-- The scheduler under which the context is cancelled and every lock takes the
`done` case at once. -/
def cancelledAtOnce (_ : MessageLock) : List SelectCase :=
  [SelectCase.done]

/-- A script: one message is received and its handler succeeds. -/
def scriptOneSuccess : Script :=
  ⟨[([testMessage 0], none)], [none], [], []⟩

/-- The message passed to the handler, when the event is a call of the handler. -/
def Event.handlerBody : Event → Option String
  | Event.handler _ body _ => some body
  | _ => none

/-- The event is a call of `Release`. -/
def Event.isRelease : Event → Bool
  | Event.release _ _ => true
  | _ => false

/-- The event is a return of `Release`, with or without error. -/
def Event.isReturn : Event → Bool
  | Event.released _ _ => true
  | _ => false

/-- The event is the creation of a lock. -/
def Event.isLock : Event → Bool
  | Event.lock _ _ => true
  | _ => false

/-- The event is a receive call. -/
def Event.isReceive : Event → Bool
  | Event.receive _ _ _ => true
  | _ => false

/-- The events of a run in the order they happen. -/
def logEvents (log : List BatchLog) : List Event :=
  (log.map BatchLog.events).flatten

/-- The call is not a heartbeat: it is issued by the `release` case or by the
`done` case of the `select`. -/
def LockCall.isTerminal (c : LockCall) : Bool :=
  match c.via with
  | SelectCase.timeAfter => false
  | _ => true

/-- The lock of the first message of the tests of the consumer. -/
def testLock : MessageLock :=
  NewMessageLock "foo" (150 * Second) (60 * Second) (testMessage 1)

/-- The cases of the `select` of `MessageLock.loop` that can proceed: the
`release` case when a request is pending in the channel, the `done` case when
the context is cancelled, and the timer case (once the interval has elapsed).
The `select` of Go takes any one of the cases that can proceed. -/
def SelectCase.ready (cancelled pending : Bool) : SelectCase → Bool
  | SelectCase.release => pending
  | SelectCase.done => cancelled
  | SelectCase.timeAfter => true

/-- The `release` channel of a lock, as a call of `Release` finds it: closed by
an earlier call, or not. -/
structure ReleaseChan where
  closed : Bool
deriving DecidableEq

/-- The channel that `NewMessageLock` makes: `make(chan releaseRequest, 1)`. -/
def ReleaseChan.make : ReleaseChan := ⟨false⟩

/-- How a call of `Release` ends: it returns the error sent by the loop, or it
panics before any call of the queue, the world being left as it is, or it waits
for ever for the loop. -/
inductive Attempt (σ : Type) where
  | returned (r : Released σ)
  | panicked (world : σ)
  | blocked

/-- `MessageLock.Release` on a lock whose `release` channel is in the state `ch`:
the send `l.release <- ...` panics on a closed channel; otherwise the request is
sent, the channel is closed by `close(l.release)`, and the call waits for the
error that the loop sends. -/
def MessageLock.ReleaseOn (w : World σ) (l : MessageLock) (ch : ReleaseChan)
    (retryDelay : Option Duration) (s : σ) : Attempt σ × ReleaseChan :=
  if ch.closed then
    (Attempt.panicked s, ch)
  else
    match l.Release w retryDelay s with
    | some r => (Attempt.returned r, ⟨true⟩)
    | none => (Attempt.blocked, ⟨true⟩)

/-- The result of the release of `testLock` with `nil` after one heartbeat, when
both calls succeed. -/
def releasedOnce : Released Script :=
  ⟨none, ⟨[], [], [], []⟩,
    [⟨SelectCase.timeAfter, QueueCall.ChangeMessageVisibility ⟨"foo", some "baz1", 150⟩, none⟩,
      ⟨SelectCase.release, QueueCall.DeleteMessage ⟨"foo", some "baz1"⟩, none⟩]⟩

/-- The state of the world after the first `n` heartbeats of the loop of a lock:
each one is a call `_ = l.changeMessageVisibility(l.visibilityTimeout)`, whose
error is dropped. -/
def MessageLock.heartbeats (w : World σ) (l : MessageLock) : Nat → σ → σ
  | 0, s => s
  | n + 1, s => MessageLock.heartbeats w l n (l.changeMessageVisibility w l.visibilityTimeout s).2

/-- The call recorded for the heartbeat of position `j`, with its error. -/
def MessageLock.heartbeatCall (w : World σ) (l : MessageLock) (s : σ) (j : Nat) : LockCall :=
  ⟨SelectCase.timeAfter,
    QueueCall.ChangeMessageVisibility (l.changeMessageVisibilityInput l.visibilityTimeout),
    (l.changeMessageVisibility w l.visibilityTimeout (l.heartbeats w j s)).1⟩

/-- The scheduler under which every lock fires two heartbeats and then takes the
release request. -/
def releaseAfterTwoHeartbeats (_ : MessageLock) : List SelectCase :=
  [SelectCase.timeAfter, SelectCase.timeAfter, SelectCase.release]

/-- A script: two messages are received; the handler asks to retry the first one
after half a second and succeeds for the second one; the next receive is empty. -/
def scriptRetrySubsecond : Script :=
  ⟨[([testMessage 1, testMessage 2], none)], [some (NewRetriableError 500000000), none],
    [], []⟩

/-- The batch of the run of `scriptRetrySubsecond`. -/
def retrySubsecondBatch : BatchLog :=
  firstBatch (Script.run testConsumer releaseAfterHeartbeat 3 scriptRetrySubsecond).log

/-- The batch of the run of `scriptRetry`. -/
def retryBatch : BatchLog :=
  firstBatch (Script.run testConsumer releaseAfterHeartbeat 3 scriptRetry).log

/-- The method `Unwrap` of an error: the error it wraps, if it wraps one. -/
def GoError.Unwrap : GoError → Option GoError
  | GoError.wrapped _ c => some c
  | _ => none

/-- The unwrap chain of an error: the error itself, then the error it wraps, and
so on, which is the sequence that `xerrors.As` walks. -/
def GoError.chain : GoError → List GoError
  | GoError.retriable d => [GoError.retriable d]
  | GoError.wrapped t c => GoError.wrapped t c :: GoError.chain c
  | GoError.plain t => [GoError.plain t]

/-- The world that differs from `w` by the error that its handler returns: always
`e`, in the state that the handler of `w` leaves. -/
def World.withHandlerError (w : World σ) (e : GoError) : World σ :=
  { w with handler := fun b s => (some e, (w.handler b s).2) }

/-- A script: two messages are received, the handler asks to retry the first one
after one second and a half and succeeds for the second one. -/
def scriptRetryFraction : Script :=
  ⟨[([testMessage 1, testMessage 2], none)], [some (NewRetriableError 1500000000), none],
    [], []⟩

/-- A script: two messages are received, the handler asks to retry the first one
after half a second, and the `ChangeMessageVisibility` call of its release (the
second call, after one heartbeat) fails. -/
def scriptRetrySubsecondReleaseFails : Script :=
  ⟨[([testMessage 1, testMessage 2], none)], [some (NewRetriableError 500000000), none],
    [], [none, some (GoError.plain "change failed")]⟩

/-- The loop `for index, message := range result.Messages` of `ConsumeMessages`
(`locks[index] = NewMessageLock(...)`), from the message of position `index`: the
locks created, in order, with the trace of the calls of `NewMessageLock`, each of
which creates a lock and starts its goroutine. -/
def QueueConsumer.lockMessages (m : QueueConsumer) :
    Nat → List Message → List MessageLock × List Event
  | _, [] => ([], [])
  | index, message :: messages =>
    let lock := NewMessageLock m.queue m.visibilityTimeout m.heartbeatInterval message
    let rest := QueueConsumer.lockMessages m (index + 1) messages
    (lock :: rest.1, Event.lock index lock :: rest.2)

/-- The body of the loop of `ConsumeMessages` for the messages received: the loop
that locks all the messages, then the loop that processes each lock.  It returns
the state of the second loop with the trace of the actions in program order: the
events of the first loop, then the events of each iteration of the second one. -/
def QueueConsumer.processBatch (w : World σ) (m : QueueConsumer) (messages : List Message)
    (consumed : Nat) (s : σ) : Option (Progress σ × List Event) :=
  let created := m.lockMessages 0 messages
  match processLocks w 0 created.1 none consumed s with
  | none => none
  | some p => some (p, created.2 ++ p.steps.flatten)

end Sqs

/-! ## Sort parameters (package `db`, `sort.go`) -/

namespace Db

/-- `SortDirection` is an `int`. -/
abbrev SortDirection := Int

/-- `Ascending SortDirection = iota + 1`. -/
def Ascending : SortDirection := 1

/-- `Descending`, the next constant of the block. -/
def Descending : SortDirection := 2

/-- The table `sortDirections`. -/
def sortDirections : List String := ["asc", "desc"]

/-- `SortDirection.String`: `sortDirections[m-1]`; `none` where the index is out
of range and the Go code panics. -/
def SortDirection.String (m : SortDirection) : Option String :=
  if 0 ≤ m - 1 then sortDirections[(m - 1).toNat]? else none

/-- `SortParameter`: a field name with a sort direction. -/
structure SortParameter where
  FieldName : String
  Direction : SortDirection
deriving DecidableEq

/-- `SortParameters`: a list of sort parameters. -/
abbrev SortParameters := List SortParameter

/-- `unicode.IsSpace`: the white space of Latin-1, and the code points of the
`White_Space` property above it. -/
def IsSpace (r : Char) : Bool :=
  if r.toNat ≤ 0xFF then
    r.toNat = 0x09 || r.toNat = 0x0A || r.toNat = 0x0B || r.toNat = 0x0C || r.toNat = 0x0D ||
      r.toNat = 0x20 || r.toNat = 0x85 || r.toNat = 0xA0
  else
    r.toNat = 0x1680 || (0x2000 ≤ r.toNat && r.toNat ≤ 0x200A) || r.toNat = 0x2028 ||
      r.toNat = 0x2029 || r.toNat = 0x202F || r.toNat = 0x205F || r.toNat = 0x3000

/-- `strings.TrimSpace`: the string without its leading and trailing white
space. -/
def TrimSpace (s : String) : String :=
  ⟨(s.data.dropWhile IsSpace).rdropWhile IsSpace⟩

/-- The body of the loop of `SortConverter` for one entry: the entry is trimmed;
when it is not empty, `cond[0]` selects the direction, and the field name is
`cond[1:]` after a sign and `cond` otherwise. -/
def SortConverter.iteration (params : SortParameters) (cond : String) : SortParameters :=
  match (TrimSpace cond).data with
  | [] => params
  | c :: rest =>
    if c = '-' then params ++ [⟨⟨rest⟩, Descending⟩]
    else if c = '+' then params ++ [⟨⟨rest⟩, Ascending⟩]
    else params ++ [⟨TrimSpace cond, Ascending⟩]

/-- `SortConverter` converts a list of strings to sort parameters. -/
def SortConverter (sorts : List String) : SortParameters :=
  sorts.foldl SortConverter.iteration []

/-- The conversion of one entry, in the words of the specification: nothing for an entry
that is blank; for the others, `Descending` and the rest after a leading `-`,
`Ascending` and the rest after a leading `+`, and `Ascending` with the whole
trimmed entry otherwise. -/
def sortParameterOfEntry (entry : String) : Option SortParameter :=
  match (TrimSpace entry).data with
  | [] => none
  | '-' :: rest => some ⟨⟨rest⟩, Descending⟩
  | '+' :: rest => some ⟨⟨rest⟩, Ascending⟩
  | _ => some ⟨TrimSpace entry, Ascending⟩

end Db

/-! ## ORDER BY lists, statements and queries (package `sqly`) -/

namespace Sqly

/-- `columnSet`, a `map[string]nothing` used as a set: the keys it holds. -/
abbrev columnSet := List String

/-- The test `_, ok := set[name]`. -/
def columnSet.has (set : columnSet) (name : String) : Bool := set.contains name

/-- The assignment `set[name] = nothing{}`. -/
def columnSet.add (set : columnSet) (name : String) : columnSet := name :: set

/-- `OrderByBuilder` converts sort parameters to ORDER BYs. -/
structure OrderByBuilder where
  defaultSort : Db.SortParameters
  allowedColumns : columnSet

/-- The errors of `toOrderBy`, with the value that their message shows:
`sqly: invalid sort column: %s` and `sqly: invalid sort direction: %v`. -/
inductive OrderByError where
  | invalidSortColumn (FieldName : String)
  | invalidSortDirection (Direction : Db.SortDirection)
deriving DecidableEq

/-- `OrderByBuilder.toOrderBy`: the ORDER BY of one sort parameter. -/
def OrderByBuilder.toOrderBy (b : OrderByBuilder) (param : Db.SortParameter) :
    Except OrderByError String :=
  if ¬ b.allowedColumns.has param.FieldName then
    Except.error (OrderByError.invalidSortColumn param.FieldName)
  else if param.Direction = Db.Ascending then
    Except.ok (param.FieldName ++ " asc")
  else if param.Direction = Db.Descending then
    Except.ok (param.FieldName ++ " desc")
  else
    Except.error (OrderByError.invalidSortDirection param.Direction)

/-- `OrderByBuilder.appendOrderBys`: appends the ORDER BYs of the parameters
whose column is not sorted yet.  The map `sortedColumns` is updated in place by
the Go code, so it is returned with the list. -/
def OrderByBuilder.appendOrderBys (b : OrderByBuilder) :
    List String → columnSet → Db.SortParameters → Except OrderByError (List String × columnSet)
  | orderBys, sortedColumns, [] => Except.ok (orderBys, sortedColumns)
  | orderBys, sortedColumns, param :: params =>
    if sortedColumns.has param.FieldName then
      OrderByBuilder.appendOrderBys b orderBys sortedColumns params
    else
      match b.toOrderBy param with
      | Except.error err => Except.error err
      | Except.ok orderBy =>
        OrderByBuilder.appendOrderBys b (orderBys ++ [orderBy])
          (sortedColumns.add param.FieldName) params

/-- `NewOrderByBuilder` creates a builder with a default sort and the allowed
columns. -/
def NewOrderByBuilder (defaultSort : Db.SortParameters) (columns : List String) :
    OrderByBuilder :=
  { defaultSort := defaultSort
    allowedColumns := columns.foldl columnSet.add [] }

/-- `OrderByBuilder.Build`: the ORDER BYs of the given parameters, then those of
the default sort, with the same set of sorted columns. -/
def OrderByBuilder.Build (b : OrderByBuilder) (params : Db.SortParameters) :
    Except OrderByError (List String) :=
  match b.appendOrderBys [] [] params with
  | Except.error err => Except.error err
  | Except.ok r =>
    match b.appendOrderBys r.1 r.2 b.defaultSort with
    | Except.error err => Except.error err
    | Except.ok r2 => Except.ok r2.1

/-- The text is the ORDER BY of the parameter: its column, then `asc` or `desc`
as its direction says. -/
def IsOrderByOf (param : Db.SortParameter) (text : String) : Prop :=
  (param.Direction = Db.Ascending ∧ text = param.FieldName ++ " asc") ∨
  (param.Direction = Db.Descending ∧ text = param.FieldName ++ " desc")

/-- The arguments of a query (`interface{}` values), as far as `PrepareNamed`
can tell them apart. -/
inductive Value where
  | string (s : String)
  | int (n : Int)
  | bool (b : Bool)
  | null
deriving DecidableEq

/-- The name of the type of a value, as `%T` shows it. -/
def Value.typeName : Value → String
  | Value.string _ => "string"
  | Value.int _ => "int64"
  | Value.bool _ => "bool"
  | Value.null => "<nil>"

/-- A `squirrel.Sqlizer`: what its method `ToSql` returns. -/
structure Sqlizer where
  ToSql : String × List Value × Option Sqs.GoError

/-- A `sql.Result`, of which only `RowsAffected` is used. -/
structure SqlResult where
  RowsAffected : Int × Option Sqs.GoError

/-- A `sqlx.ExecerContext`. -/
structure ExecerContext where
  ExecContext : String → List Value → SqlResult × Option Sqs.GoError

/-- `Mutate` executes the query and checks that a row has been affected.  The
error `pkgdb.ErrNoModification` is a parameter. -/
def Mutate (ErrNoModification : Sqs.GoError) (db : ExecerContext) (sqlizer : Sqlizer) :
    Option Sqs.GoError :=
  match sqlizer.ToSql with
  | (query, args, err) =>
    match err with
    | some err => some (Sqs.GoError.wrapped "sqly: unable to build query" err)
    | none =>
      match db.ExecContext query args with
      | (res, err) =>
        match err with
        | some err => some (Sqs.GoError.wrapped "sqly: unable to execute query" err)
        | none =>
          match res.RowsAffected with
          | (count, err) =>
            match err with
            | some err =>
              some (Sqs.GoError.wrapped "sqly: unable to retrieve query result" err)
            | none => if count = 0 then some ErrNoModification else none

/-- A `*sqlx.Stmt`, as a handle. -/
structure Stmt where
  handle : Nat
deriving DecidableEq

/-- The fields of `sqlx.NamedStmt` that `PrepareNamed` sets. -/
structure NamedStmt where
  Params : List String
  QueryString : String
  Stmt : Stmt
deriving DecidableEq

/-- A `sqlx.Preparer`, through `sqlx.Preparex`: the statement prepared for a
query, or an error, and the new state of the database. -/
structure Preparer (σ : Type) where
  Preparex : String → σ → (Stmt × Option Sqs.GoError) × σ

/-- The body of the loop of `PrepareNamed`: the argument must be a string that
starts with a colon, and the name of the parameter is `name[1:]`. -/
def paramName : Value → Except Sqs.GoError String
  | Value.string name =>
    match name.data with
    | ':' :: rest => Except.ok ⟨rest⟩
    | _ => Except.error (Sqs.GoError.plain
        ("sqly: invalid param name: should start with a colon but got " ++ name))
  | arg => Except.error (Sqs.GoError.plain
      ("sqly: invalid arg type: expected string but got " ++ arg.typeName))

/-- The loop of `PrepareNamed` over the arguments: it returns at the first
argument that is refused. -/
def paramNames : List Value → Except Sqs.GoError (List String)
  | [] => Except.ok []
  | arg :: args =>
    match paramName arg with
    | Except.error err => Except.error err
    | Except.ok name =>
      match paramNames args with
      | Except.error err => Except.error err
      | Except.ok names => Except.ok (name :: names)

/-- What `PrepareNamed` returns, with the final state of the database and the
queries passed to `sqlx.Preparex`. -/
structure Prepared (σ : Type) where
  stmt : Option NamedStmt
  err : Option Sqs.GoError
  world : σ
  prepared : List String

/-- `PrepareNamed` prepares a named statement. -/
def PrepareNamed {σ : Type} (db : Preparer σ) (sqlizer : Sqlizer) (s : σ) : Prepared σ :=
  match sqlizer.ToSql with
  | (queryString, args, err) =>
    match err with
    | some err => ⟨none, some err, s, []⟩
    | none =>
      match paramNames args with
      | Except.error err => ⟨none, some err, s, []⟩
      | Except.ok params =>
        match db.Preparex queryString s with
        | ((stmt, err), s1) =>
          match err with
          | some err => ⟨none, some err, s1, [queryString]⟩
          | none => ⟨some ⟨params, queryString, stmt⟩, none, s1, [queryString]⟩

end Sqly

/-! ## Examples for the package `sqly` -/

namespace Sqly

/-- The query of the example of `PrepareNamed`: one argument, the name `:id`. -/
def licenseQuery : Sqlizer :=
  ⟨("SELECT * FROM licenses WHERE license_id = $1", [Value.string ":id"], none)⟩

/-- A database that prepares every statement; its state is the number of the
statements prepared so far. -/
def countingPreparer : Preparer Nat :=
  ⟨fun _ n => ((⟨n⟩, none), n + 1)⟩

/-- An update with one argument. -/
def licenseUpdate : Sqlizer :=
  ⟨("UPDATE licenses SET owner = $1", [Value.string "bob"], none)⟩

/-- A database whose queries affect the given number of rows. -/
def affecting (count : Int) : ExecerContext :=
  ⟨fun _ _ => (⟨(count, none)⟩, none)⟩

end Sqly

/-! # Theorems -/

namespace Sqs

variable {σ : Type}


/-! ## The loop of a lock -/

/-- The calls of the loop of a lock on which `Release` is called: heartbeats, then
one last call, issued by the `release` case or by the `done` case. -/
theorem loop_shape (w : World σ) (l : MessageLock) (rd : Option Duration) :
    ∀ (sched : List SelectCase) (s : σ) (r : Released σ),
      l.loop w (some ⟨rd⟩) sched s = some r →
      ∃ beats last, r.calls = beats ++ [last] ∧
        (∀ c ∈ beats, c.via = SelectCase.timeAfter ∧ c.call =
          QueueCall.ChangeMessageVisibility (l.changeMessageVisibilityInput l.visibilityTimeout)) ∧
        ((last.via = SelectCase.release ∧ last.err = r.err ∧ last.call =
            (match rd with
              | none => QueueCall.DeleteMessage l.deleteMessageInput
              | some d => QueueCall.ChangeMessageVisibility (l.changeMessageVisibilityInput d))) ∨
          (last.via = SelectCase.done ∧ r.err = some w.ctxErr ∧ last.call =
            QueueCall.ChangeMessageVisibility (l.changeMessageVisibilityInput 0))) := by
  intro sched
  induction sched with
  | nil => intro s r h; simp [MessageLock.loop] at h
  | cons sc rest ih =>
    intro s r h
    cases sc with
    | release =>
      cases rd with
      | none =>
        simp only [MessageLock.loop, Option.some.injEq] at h
        subst h
        exact ⟨[], _, rfl, by simp, Or.inl ⟨rfl, rfl, rfl⟩⟩
      | some d =>
        simp only [MessageLock.loop, Option.some.injEq] at h
        subst h
        exact ⟨[], _, rfl, by simp, Or.inl ⟨rfl, rfl, rfl⟩⟩
    | done =>
      simp only [MessageLock.loop, Option.some.injEq] at h
      subst h
      exact ⟨[], _, rfl, by simp, Or.inr ⟨rfl, rfl, rfl⟩⟩
    | timeAfter =>
      simp only [MessageLock.loop] at h
      split at h
      · simp at h
      · rename_i out hout
        simp only [Option.some.injEq] at h
        subst h
        obtain ⟨beats, last, hc, hb, hl⟩ := ih _ _ hout
        refine ⟨⟨SelectCase.timeAfter, QueueCall.ChangeMessageVisibility
          (l.changeMessageVisibilityInput l.visibilityTimeout),
          (l.changeMessageVisibility w l.visibilityTimeout s).1⟩ :: beats, last,
          by simp [hc], ?_, hl⟩
        intro c hcm
        simp only [List.mem_cons] at hcm
        rcases hcm with hcm | hcm
        · subst hcm; exact ⟨rfl, rfl⟩
        · exact hb c hcm

/-- The `DeleteMessage` calls of the loop of a lock: at most one, only when the
lock is released with `nil`, issued by the `release` case for the message of the
lock, and its error is the error that `Release` returns. -/
theorem loop_delete (w : World σ) (l : MessageLock) (rd : Option Duration)
    (sched : List SelectCase) (s : σ) (r : Released σ)
    (h : l.loop w (some ⟨rd⟩) sched s = some r) :
    r.calls.countP LockCall.isDelete ≤ 1 ∧
    (∀ c ∈ r.calls, c.isDelete = true → rd = none ∧
      c = ⟨SelectCase.release, QueueCall.DeleteMessage l.deleteMessageInput, r.err⟩) ∧
    (r.err = none → rd = none →
      (⟨SelectCase.release, QueueCall.DeleteMessage l.deleteMessageInput, none⟩ : LockCall)
        ∈ r.calls) := by
  obtain ⟨beats, last, hc, hb, hl⟩ := loop_shape w l rd sched s r h
  have hbeats : ∀ c ∈ beats, c.isDelete = false := by
    intro c hcm
    simp [LockCall.isDelete, (hb c hcm).2]
  have hcount : beats.countP LockCall.isDelete = 0 := by
    rw [List.countP_eq_zero]
    intro c hcm
    simp [hbeats c hcm]
  refine ⟨?_, ?_, ?_⟩
  · rw [hc, List.countP_append, hcount]
    simp only [zero_add]
    exact List.countP_le_length _ |>.trans (by simp)
  · intro c hcm hd
    rw [hc] at hcm
    simp only [List.mem_append, List.mem_singleton] at hcm
    rcases hcm with hcm | hcm
    · rw [hbeats c hcm] at hd; cases hd
    · subst hcm
      rcases hl with ⟨hv, he, hcall⟩ | ⟨_, _, hcall⟩
      · cases rd with
        | none =>
          refine ⟨rfl, ?_⟩
          obtain ⟨via, call, err⟩ := c
          simp only at hv he hcall
          subst hv he hcall
          rfl
        | some d => simp [LockCall.isDelete, hcall] at hd
      · simp [LockCall.isDelete, hcall] at hd
  · intro he hr
    subst hr
    rcases hl with ⟨hv, hle, hcall⟩ | ⟨_, hle, _⟩
    · rw [hc]
      simp only [List.mem_append, List.mem_singleton]
      right
      obtain ⟨via, call, err⟩ := last
      simp only at hv hle hcall
      subst hv hcall
      rw [hle, he]
    · rw [he] at hle; cases hle

/-! ## The events of a release -/

theorem mem_releaseEvents (i : Nat) (rd : Option Duration) (r : Released σ) (e : Event) :
    e ∈ releaseEvents i rd r ↔
      e = Event.release i rd ∨ (∃ c ∈ r.calls, e = Event.queue i c) ∨
        e = Event.released i r.err := by
  simp only [releaseEvents, List.mem_cons, List.mem_append, List.mem_map, List.mem_singleton,
    List.not_mem_nil, or_false]
  constructor
  · rintro (h | ⟨c, hc, rfl⟩ | h)
    · exact Or.inl h
    · exact Or.inr (Or.inl ⟨c, hc, rfl⟩)
    · exact Or.inr (Or.inr h)
  · rintro (h | ⟨c, hc, rfl⟩ | h)
    · exact Or.inl h
    · exact Or.inr (Or.inl ⟨c, hc, rfl⟩)
    · exact Or.inr (Or.inr h)

theorem countP_isDelete_releaseEvents (i : Nat) (rd : Option Duration) (r : Released σ) :
    (releaseEvents i rd r).countP Event.isDelete = r.calls.countP LockCall.isDelete := by
  simp only [releaseEvents, List.countP_cons, List.countP_append, List.countP_map,
    List.countP_nil, Event.isDelete]
  simp
  congr 1

/-! ## One iteration of the loop over the locks -/

theorem extractDelay_eq_none {err : Option GoError} : extractDelay err = none ↔ err = none := by
  cases err with
  | none => simp [extractDelay]
  | some e =>
    simp only [extractDelay]
    split <;> simp

theorem processLock_skip (w : World σ) (i : Nat) (lock : MessageLock) (e : GoError) (c : Nat)
    (s : σ) (q : Progress σ) (h : processLock w i lock (some e) c s = some q) :
    ∃ r, lock.Release w (some noDelay) s = some r ∧
      q = ⟨some e, c, r.world, [releaseEvents i (some noDelay) r]⟩ := by
  simp only [processLock] at h
  split at h
  · simp at h
  · rename_i r hr
    simp only [Option.some.injEq] at h
    exact ⟨r, hr, h.symm⟩

/-- The four outcomes of the processing of a lock whose handler is called. -/
theorem processLock_handle (w : World σ) (i : Nat) (lock : MessageLock) (c : Nat)
    (s : σ) (q : Progress σ) (h : processLock w i lock none c s = some q) :
    ∃ r, lock.Release w (extractDelay (w.handler (StringValue lock.message.Body) s).1)
        (w.handler (StringValue lock.message.Body) s).2 = some r ∧
      q.world = r.world ∧
      q.firstErr = (handlerFatal (w.handler (StringValue lock.message.Body) s).1).orElse
        (fun _ => r.err) ∧
      ((w.handler (StringValue lock.message.Body) s).1 = none ∧ r.err = none ∧
          q.consumed = c + 1 ∧
          q.steps = [Event.handler i (StringValue lock.message.Body) none ::
            releaseEvents i none r ++ [Event.counted i]] ∨
        ((w.handler (StringValue lock.message.Body) s).1 ≠ none ∨ r.err ≠ none) ∧
          q.consumed = c ∧
          q.steps = [Event.handler i (StringValue lock.message.Body)
            (w.handler (StringValue lock.message.Body) s).1 ::
            releaseEvents i (extractDelay (w.handler (StringValue lock.message.Body) s).1) r]) := by
  simp only [processLock] at h
  generalize w.handler (StringValue lock.message.Body) s = hr at h ⊢
  obtain ⟨err, s1⟩ := hr
  simp only at h ⊢
  split at h
  · simp at h
  · rename_i r hrel
    refine ⟨r, hrel, ?_⟩
    cases err with
    | none =>
      simp only [extractDelay] at h ⊢
      cases hre : r.err with
      | none =>
        simp only [hre] at h
        simp only [Option.some.injEq] at h
        subst h
        simp [handlerFatal, extractDelay]
      | some e =>
        simp only [hre] at h
        simp only [Option.some.injEq] at h
        subst h
        simp [handlerFatal, extractDelay]
    | some e =>
      cases hd : extractDelay (some e) with
      | none => simp [extractDelay_eq_none] at hd
      | some d =>
        simp only [hd] at h
        by_cases hz : d = 0
        · simp only [hz, ne_eq, not_true_eq_false, ite_false] at h
          simp only [Option.some.injEq] at h
          subst h
          simp [handlerFatal, hd, hz]
        · simp only [hz, ne_eq, not_false_eq_true, ite_true] at h
          cases hre : r.err with
          | none =>
            simp only [hre] at h
            simp only [Option.some.injEq] at h
            subst h
            simp [handlerFatal, hd, hz]
          | some e2 =>
            simp only [hre] at h
            simp only [Option.some.injEq] at h
            subst h
            simp [handlerFatal, hd, hz]

/-! ## The loops -/

theorem processLocks_nil (w : World σ) (i : Nat) (fe : Option GoError) (c : Nat) (s : σ) :
    processLocks w i [] fe c s = some ⟨fe, c, s, []⟩ := by
  simp [processLocks]

theorem processLocks_cons (w : World σ) (i : Nat) (lock : MessageLock) (locks : List MessageLock)
    (fe : Option GoError) (c : Nat) (s : σ) (p : Progress σ)
    (h : processLocks w i (lock :: locks) fe c s = some p) :
    ∃ q p1, processLock w i lock fe c s = some q ∧
      processLocks w (i + 1) locks q.firstErr q.consumed q.world = some p1 ∧
      p.firstErr = p1.firstErr ∧ p.consumed = p1.consumed ∧ p.world = p1.world ∧
      p.steps = q.steps ++ p1.steps := by
  simp only [processLocks] at h
  split at h
  · simp at h
  · rename_i q hq
    split at h
    · simp at h
    · rename_i p1 hp1
      simp only [Option.some.injEq] at h
      subst h
      exact ⟨q, p1, hq, hp1, rfl, rfl, rfl, rfl⟩

/-- The batches that the outer loop of `ConsumeMessages` logs, by induction on
the run: a failed receive, an empty receive that ends the loop, an empty receive
that is ignored, a batch with a fatal outcome, and a batch without one. -/
theorem consumeLoop_induction (w : World σ) (m : QueueConsumer)
    (P : Nat → σ → Outcome σ → Prop)
    (hfail : ∀ c s e, (w.ReceiveMessageWithContext m.receiveMessageInput s).1.2 = some e →
      P c s ⟨c, some e, (w.ReceiveMessageWithContext m.receiveMessageInput s).2,
        [⟨m.receiveMessageInput, (w.ReceiveMessageWithContext m.receiveMessageInput s).1.1,
          some e, [], []⟩]⟩)
    (hstop : ∀ c s, (w.ReceiveMessageWithContext m.receiveMessageInput s).1 = ([], none) →
      m.forever = false →
      P c s ⟨c, none, (w.ReceiveMessageWithContext m.receiveMessageInput s).2,
        [⟨m.receiveMessageInput, [], none, [], []⟩]⟩)
    (hskip : ∀ c s fuel out,
      (w.ReceiveMessageWithContext m.receiveMessageInput s).1 = ([], none) →
      m.forever = true →
      m.consumeLoop w fuel c (w.ReceiveMessageWithContext m.receiveMessageInput s).2 = some out →
      P c (w.ReceiveMessageWithContext m.receiveMessageInput s).2 out →
      P c s ⟨out.consumed, out.err, out.world, ⟨m.receiveMessageInput, [], none, [], []⟩ :: out.log⟩)
    (hfatal : ∀ c s msgs p e,
      (w.ReceiveMessageWithContext m.receiveMessageInput s).1 = (msgs, none) → msgs ≠ [] →
      processLocks w 0 (msgs.map (NewMessageLock m.queue m.visibilityTimeout m.heartbeatInterval))
        none c (w.ReceiveMessageWithContext m.receiveMessageInput s).2 = some p →
      p.firstErr = some e →
      P c s ⟨p.consumed, some e, p.world, [⟨m.receiveMessageInput, msgs, none,
        msgs.map (NewMessageLock m.queue m.visibilityTimeout m.heartbeatInterval), p.steps⟩]⟩)
    (hnext : ∀ c s msgs p fuel out,
      (w.ReceiveMessageWithContext m.receiveMessageInput s).1 = (msgs, none) → msgs ≠ [] →
      processLocks w 0 (msgs.map (NewMessageLock m.queue m.visibilityTimeout m.heartbeatInterval))
        none c (w.ReceiveMessageWithContext m.receiveMessageInput s).2 = some p →
      p.firstErr = none →
      m.consumeLoop w fuel p.consumed p.world = some out →
      P p.consumed p.world out →
      P c s ⟨out.consumed, out.err, out.world, ⟨m.receiveMessageInput, msgs, none,
        msgs.map (NewMessageLock m.queue m.visibilityTimeout m.heartbeatInterval), p.steps⟩ ::
          out.log⟩) :
    ∀ (fuel c : Nat) (s : σ) (r : Outcome σ), m.consumeLoop w fuel c s = some r → P c s r := by
  intro fuel
  induction fuel with
  | zero => intro c s r h; simp [QueueConsumer.consumeLoop] at h
  | succ fuel ih =>
    intro c s r h
    simp only [QueueConsumer.consumeLoop] at h
    split at h
    · rename_i e he
      simp only [Option.some.injEq] at h
      subst h
      exact hfail c s e he
    · rename_i he
      split at h
      · rename_i hm
        have hrecv : (w.ReceiveMessageWithContext m.receiveMessageInput s).1 = ([], none) :=
          Prod.ext hm he
        split at h
        · rename_i hf
          split at h
          · simp at h
          · rename_i out hout
            simp only [Option.some.injEq] at h
            subst h
            exact hskip c s fuel out hrecv hf hout (ih _ _ _ hout)
        · rename_i hf
          simp only [Option.some.injEq] at h
          subst h
          exact hstop c s hrecv (by simpa using hf)
      · rename_i msg msgs hm
        have hrecv : (w.ReceiveMessageWithContext m.receiveMessageInput s).1 = (msg :: msgs, none) :=
          Prod.ext hm he
        split at h
        · simp at h
        · rename_i p hp
          split at h
          · rename_i e hpe
            simp only [Option.some.injEq] at h
            subst h
            exact hfatal c s (msg :: msgs) p e hrecv (by simp) hp hpe
          · rename_i hpe
            split at h
            · simp at h
            · rename_i out hout
              simp only [Option.some.injEq] at h
              subst h
              exact hnext c s (msg :: msgs) p fuel out hrecv (by simp) hp hpe hout (ih _ _ _ hout)

theorem processLock_isStep (w : World σ) (i : Nat) (lock : MessageLock) (fe : Option GoError)
    (c : Nat) (s : σ) (q : Progress σ) (h : processLock w i lock fe c s = some q) :
    ∃ step, q.steps = [step] ∧ IsStep w i lock step := by
  cases fe with
  | some e =>
    obtain ⟨r, hr, hq⟩ := processLock_skip w i lock e c s q h
    subst hq
    exact ⟨_, rfl, Or.inl ⟨s, r, hr, rfl⟩⟩
  | none =>
    obtain ⟨r, hr, _, _, hcase⟩ := processLock_handle w i lock c s q h
    rcases hcase with ⟨he, hre, _, hst⟩ | ⟨hne, _, hst⟩
    · refine ⟨_, hst, Or.inr ⟨(w.handler (StringValue lock.message.Body) s).2, none, r, ?_, ?_⟩⟩
      · rw [he] at hr; exact hr
      · simp [hre, extractDelay]
    · refine ⟨_, hst, Or.inr ⟨(w.handler (StringValue lock.message.Body) s).2,
        (w.handler (StringValue lock.message.Body) s).1, r, hr, ?_⟩⟩
      have : ¬ ((w.handler (StringValue lock.message.Body) s).1 = none ∧ r.err = none) := by
        rintro ⟨h1, h2⟩
        rcases hne with hne | hne
        · exact hne h1
        · exact hne h2
      simp [this]

/-- Every lock of a batch gets one step, the step of its position. -/
theorem processLocks_isStep (w : World σ) :
    ∀ (locks : List MessageLock) (i : Nat) (fe : Option GoError) (c : Nat) (s : σ)
      (p : Progress σ), processLocks w i locks fe c s = some p →
      p.steps.length = locks.length ∧
      ∀ j lock, locks[j]? = some lock → ∃ step, p.steps[j]? = some step ∧
        IsStep w (i + j) lock step := by
  intro locks
  induction locks with
  | nil =>
    intro i fe c s p h
    rw [processLocks_nil] at h
    simp only [Option.some.injEq] at h
    subst h
    simp
  | cons lock locks ih =>
    intro i fe c s p h
    obtain ⟨q, p1, hq, hp1, _, _, _, hst⟩ := processLocks_cons w i lock locks fe c s p h
    obtain ⟨step, hqs, hstep⟩ := processLock_isStep w i lock fe c s q hq
    obtain ⟨hlen, hrest⟩ := ih _ _ _ _ _ hp1
    rw [hst, hqs]
    refine ⟨by simp [hlen], ?_⟩
    intro j lk hj
    cases j with
    | zero =>
      simp only [List.getElem?_cons_zero, Option.some.injEq] at hj
      subst hj
      exact ⟨step, by simp, by simpa using hstep⟩
    | succ j =>
      simp only [List.getElem?_cons_succ] at hj
      obtain ⟨st, hs1, hs2⟩ := hrest j lk hj
      refine ⟨st, by simpa using hs1, ?_⟩
      have : i + (j + 1) = i + 1 + j := by omega
      rw [this]
      exact hs2

/-- Every batch of the log of a run is the result of the loop over its locks,
which are the locks of the messages received. -/
theorem consumeLoop_batch (w : World σ) (m : QueueConsumer) :
    ∀ (fuel c : Nat) (s : σ) (r : Outcome σ), m.consumeLoop w fuel c s = some r →
      ∀ b ∈ r.log, b.input = m.receiveMessageInput ∧
        ((b.err ≠ none ∨ b.messages = []) ∧ b.locks = [] ∧ b.steps = [] ∨
          b.err = none ∧ b.messages ≠ [] ∧
            b.locks = b.messages.map
              (NewMessageLock m.queue m.visibilityTimeout m.heartbeatInterval) ∧
            ∃ c0 s0 p, processLocks w 0 b.locks none c0 s0 = some p ∧ p.steps = b.steps) := by
  apply consumeLoop_induction w m
    (fun _ _ r => ∀ b ∈ r.log, b.input = m.receiveMessageInput ∧
        ((b.err ≠ none ∨ b.messages = []) ∧ b.locks = [] ∧ b.steps = [] ∨
          b.err = none ∧ b.messages ≠ [] ∧
            b.locks = b.messages.map
              (NewMessageLock m.queue m.visibilityTimeout m.heartbeatInterval) ∧
            ∃ c0 s0 p, processLocks w 0 b.locks none c0 s0 = some p ∧ p.steps = b.steps))
  · intro c s e _ b hb
    simp only [List.mem_singleton] at hb
    subst hb
    exact ⟨rfl, Or.inl ⟨Or.inl (by simp), rfl, rfl⟩⟩
  · intro c s _ _ b hb
    simp only [List.mem_singleton] at hb
    subst hb
    exact ⟨rfl, Or.inl ⟨Or.inr rfl, rfl, rfl⟩⟩
  · intro c s fuel out _ _ _ ih b hb
    simp only [List.mem_cons] at hb
    rcases hb with hb | hb
    · subst hb
      exact ⟨rfl, Or.inl ⟨Or.inr rfl, rfl, rfl⟩⟩
    · exact ih b hb
  · intro c s msgs p e _ hne hp _ b hb
    simp only [List.mem_singleton] at hb
    subst hb
    exact ⟨rfl, Or.inr ⟨rfl, hne, rfl, c, _, p, hp, rfl⟩⟩
  · intro c s msgs p fuel out _ hne hp _ _ ih b hb
    simp only [List.mem_cons] at hb
    rcases hb with hb | hb
    · subst hb
      exact ⟨rfl, Or.inr ⟨rfl, hne, rfl, c, _, p, hp, rfl⟩⟩
    · exact ih b hb

/-- Every message received in a run gets one step, the step of its position in
its batch. -/
theorem consumeLoop_isStep (w : World σ) (m : QueueConsumer) (fuel c : Nat) (s : σ)
    (r : Outcome σ) (h : m.consumeLoop w fuel c s = some r) (b : BatchLog) (hb : b ∈ r.log)
    (hok : b.err = none) (j : Nat) (msg : Message) (hj : b.messages[j]? = some msg) :
    ∃ step, b.steps[j]? = some step ∧
      IsStep w j (NewMessageLock m.queue m.visibilityTimeout m.heartbeatInterval msg) step := by
  obtain ⟨_, hcase⟩ := consumeLoop_batch w m fuel c s r h b hb
  rcases hcase with ⟨hne, _, _⟩ | ⟨_, _, hlocks, c0, s0, p, hp, hsteps⟩
  · rcases hne with hne | hne
    · exact absurd hok hne
    · rw [hne] at hj; simp at hj
  · obtain ⟨_, hall⟩ := processLocks_isStep w b.locks 0 none c0 s0 p hp
    have hl : b.locks[j]? = some
        (NewMessageLock m.queue m.visibilityTimeout m.heartbeatInterval msg) := by
      rw [hlocks, List.getElem?_map, hj]; rfl
    obtain ⟨step, hs1, hs2⟩ := hall j _ hl
    rw [hsteps] at hs1
    exact ⟨step, hs1, by simpa using hs2⟩

/-- The `DeleteMessage` calls of one step: at most one, for the message of the
lock and only after its handler returned `nil`. -/
theorem isStep_delete (w : World σ) (j : Nat) (lock : MessageLock) (step : List Event)
    (h : IsStep w j lock step) :
    step.countP Event.isDelete ≤ 1 ∧
    (∀ e ∈ step, e.isDelete = true →
      (∃ err, e = Event.queue j
        ⟨SelectCase.release, QueueCall.DeleteMessage lock.deleteMessageInput, err⟩) ∧
      Event.handler j (StringValue lock.message.Body) none ∈ step) ∧
    (∀ k body err, Event.handler k body (some err) ∈ step →
      ∀ e ∈ step, e.isDelete = false) := by
  rcases h with ⟨s, r, hr, hstep⟩ | ⟨s, err, r, hr, hstep⟩
  · obtain ⟨h1, h2, _⟩ := loop_delete w lock (some noDelay) _ s r hr
    have hno : ∀ e ∈ step, e.isDelete = false := by
      intro e he
      rw [hstep, mem_releaseEvents] at he
      rcases he with he | ⟨c, hc, he⟩ | he
      · subst he; rfl
      · subst he
        cases hd : c.isDelete with
        | false => simpa [Event.isDelete] using hd
        | true => exact absurd (h2 c hc hd).1 (by simp)
      · subst he; rfl
    refine ⟨?_, ?_, ?_⟩
    · rw [hstep, countP_isDelete_releaseEvents]; exact h1
    · intro e he hd
      rw [hno e he] at hd; cases hd
    · intro _ _ _ _ e he
      exact hno e he
  · obtain ⟨h1, h2, _⟩ := loop_delete w lock (extractDelay err) _ s r hr
    have hmem : ∀ e ∈ step, e = Event.handler j (StringValue lock.message.Body) err ∨
        e ∈ releaseEvents j (extractDelay err) r ∨ e = Event.counted j := by
      intro e he
      rw [hstep] at he
      simp only [List.mem_cons, List.mem_append] at he
      rcases he with (he | he) | he
      · exact Or.inl he
      · exact Or.inr (Or.inl he)
      · split at he
        · simp only [List.mem_singleton] at he; exact Or.inr (Or.inr he)
        · simp at he
    have hdel : ∀ e ∈ step, e.isDelete = true → extractDelay err = none ∧
        e = Event.queue j
          ⟨SelectCase.release, QueueCall.DeleteMessage lock.deleteMessageInput, r.err⟩ := by
      intro e he hd
      rcases hmem e he with he | he | he
      · subst he; cases hd
      · rw [mem_releaseEvents] at he
        rcases he with he | ⟨c, hc, he⟩ | he
        · subst he; cases hd
        · subst he
          obtain ⟨hrd, hceq⟩ := h2 c hc (by simpa [Event.isDelete] using hd)
          exact ⟨hrd, by rw [hceq]⟩
        · subst he; cases hd
      · subst he; cases hd
    refine ⟨?_, ?_, ?_⟩
    · rw [hstep]
      simp only [List.countP_cons, List.countP_append, countP_isDelete_releaseEvents]
      have : (if err = none ∧ r.err = none then [Event.counted j] else []).countP Event.isDelete
          = 0 := by
        split <;> simp [Event.isDelete]
      rw [this]
      simpa [Event.isDelete] using h1
    · intro e he hd
      obtain ⟨hrd, heq⟩ := hdel e he hd
      refine ⟨⟨r.err, heq⟩, ?_⟩
      rw [extractDelay_eq_none] at hrd
      subst hrd
      rw [hstep]
      simp
    · intro k body err2 hh e he
      cases hd : e.isDelete with
      | false => rfl
      | true =>
        obtain ⟨hrd, _⟩ := hdel e he hd
        rw [extractDelay_eq_none] at hrd
        subst hrd
        rcases hmem _ hh with hh | hh | hh
        · cases hh
        · rw [mem_releaseEvents] at hh
          rcases hh with hh | ⟨c, _, hh⟩ | hh <;> cases hh
        · cases hh

/-! ## Deletion (C1) -/

/-- C1: in every run of `ConsumeMessages`, the step of every received message
contains at most one `DeleteMessage` call; such a call is issued by the release
for the receipt handle of that message, and only when the handler was called for
the message and returned `nil`; a step whose handler returned an error (a retry
or a failure) contains no `DeleteMessage` call, and neither does the step of a
skipped message, which contains no handler call. -/
theorem C1_delete_at_most_once_after_success (w : World σ) (m : QueueConsumer) (fuel : Nat)
    (s : σ) (r : Outcome σ) (h : m.ConsumeMessages w fuel s = some r) (b : BatchLog)
    (hb : b ∈ r.log) (hok : b.err = none) (j : Nat) (msg : Message)
    (hj : b.messages[j]? = some msg) :
    ∃ step, b.steps[j]? = some step ∧
      step.countP Event.isDelete ≤ 1 ∧
      (∀ e ∈ step, e.isDelete = true →
        (∃ err, e = Event.queue j
          ⟨SelectCase.release, QueueCall.DeleteMessage ⟨m.queue, msg.ReceiptHandle⟩, err⟩) ∧
        Event.handler j (StringValue msg.Body) none ∈ step) ∧
      (∀ k body err, Event.handler k body (some err) ∈ step →
        ∀ e ∈ step, e.isDelete = false) := by
  obtain ⟨step, hs, hstep⟩ := consumeLoop_isStep w m fuel 0 s r h b hb hok j msg hj
  exact ⟨step, hs, isStep_delete w j _ step hstep⟩

/-- An instance of C1: the first message of the run of `scriptRetry`, whose handler
succeeds. -/
theorem C1_witness :
    testConsumer.ConsumeMessages (Script.world releaseAfterHeartbeat) 3 scriptRetry =
        some (Script.run testConsumer releaseAfterHeartbeat 3 scriptRetry) ∧
      ∃ step, (firstBatch (Script.run testConsumer releaseAfterHeartbeat 3 scriptRetry).log).steps[0]?
          = some step ∧
        step.countP Event.isDelete ≤ 1 ∧
        (∀ e ∈ step, e.isDelete = true →
          (∃ err, e = Event.queue 0
            ⟨SelectCase.release, QueueCall.DeleteMessage
              ⟨testConsumer.queue, (testMessage 1).ReceiptHandle⟩, err⟩) ∧
          Event.handler 0 (StringValue (testMessage 1).Body) none ∈ step) ∧
        (∀ k body err, Event.handler k body (some err) ∈ step →
          ∀ e ∈ step, e.isDelete = false) :=
  ⟨rfl, C1_delete_at_most_once_after_success (Script.world releaseAfterHeartbeat)
    testConsumer 3 scriptRetry (Script.run testConsumer releaseAfterHeartbeat 3 scriptRetry) rfl
    (firstBatch (Script.run testConsumer releaseAfterHeartbeat 3 scriptRetry).log)
    (by decide) (by decide) 0 (testMessage 1) (by decide)⟩

/-! ## Short circuit (C2) -/

theorem releaseEvents_isSkip (w : World σ) (i : Nat) (lock : MessageLock) (s : σ)
    (r : Released σ) (h : lock.Release w (some noDelay) s = some r) :
    IsSkip i lock (releaseEvents i (some noDelay) r) := by
  obtain ⟨beats, last, hc, _, hl⟩ := loop_shape w lock (some noDelay) _ s r h
  refine ⟨?_, ?_, rfl, last, ?_, ?_, ?_⟩
  · intro e he
    rw [mem_releaseEvents] at he
    rcases he with he | ⟨c, _, he⟩ | he <;> subst he <;> rfl
  · intro e he
    rw [mem_releaseEvents] at he
    rcases he with he | ⟨c, _, he⟩ | he <;> subst he <;> rfl
  · rw [mem_releaseEvents]
    exact Or.inr (Or.inl ⟨last, by simp [hc], rfl⟩)
  · rcases hl with ⟨hv, _, _⟩ | ⟨hv, _, _⟩ <;> simp [hv]
  · rcases hl with ⟨_, _, hcall⟩ | ⟨_, _, hcall⟩
    · rw [hcall]
      simp [MessageLock.changeMessageVisibilityInput, noDelay]
    · rw [hcall]
      simp [MessageLock.changeMessageVisibilityInput]

/-- Once a fatal outcome is recorded, every remaining lock is skipped, and the
outcome and the count are left as they are. -/
theorem processLocks_skipped (w : World σ) :
    ∀ (locks : List MessageLock) (i : Nat) (e : GoError) (c : Nat) (s : σ) (p : Progress σ),
      processLocks w i locks (some e) c s = some p →
      p.firstErr = some e ∧ p.consumed = c ∧
      ∀ j lock, locks[j]? = some lock →
        ∃ step, p.steps[j]? = some step ∧ IsSkip (i + j) lock step := by
  intro locks
  induction locks with
  | nil =>
    intro i e c s p h
    rw [processLocks_nil] at h
    simp only [Option.some.injEq] at h
    subst h
    simp
  | cons lock locks ih =>
    intro i e c s p h
    obtain ⟨q, p1, hq, hp1, hfe, hco, _, hst⟩ := processLocks_cons w i lock locks (some e) c s p h
    obtain ⟨r, hr, hqeq⟩ := processLock_skip w i lock e c s q hq
    subst hqeq
    obtain ⟨h1, h2, h3⟩ := ih _ _ _ _ _ hp1
    refine ⟨hfe.trans h1, hco.trans h2, ?_⟩
    intro j lk hj
    rw [hst]
    cases j with
    | zero =>
      simp only [List.getElem?_cons_zero, Option.some.injEq] at hj
      subst hj
      exact ⟨_, by simp, releaseEvents_isSkip w i lock s r hr⟩
    | succ j =>
      simp only [List.getElem?_cons_succ] at hj
      obtain ⟨st, hs1, hs2⟩ := h3 j lk hj
      refine ⟨st, by simpa using hs1, ?_⟩
      have : i + (j + 1) = i + 1 + j := by omega
      rw [this]
      exact hs2

/-- A handler call logged in the step of a lock is the call made by that step,
which is then not a skip. -/
theorem processLock_handler_mem (w : World σ) (i : Nat) (lock : MessageLock)
    (fe : Option GoError) (c : Nat) (s : σ) (q : Progress σ)
    (h : processLock w i lock fe c s = some q) (step : List Event) (hs : q.steps = [step])
    (k : Nat) (body : String) (err : Option GoError) (hm : Event.handler k body err ∈ step) :
    fe = none ∧ k = i ∧ body = StringValue lock.message.Body ∧
      (w.handler (StringValue lock.message.Body) s).1 = err := by
  cases fe with
  | some e =>
    obtain ⟨r, _, hqeq⟩ := processLock_skip w i lock e c s q h
    subst hqeq
    simp only [List.cons.injEq, and_true] at hs
    subst hs
    rw [mem_releaseEvents] at hm
    rcases hm with hm | ⟨_, _, hm⟩ | hm <;> cases hm
  | none =>
    obtain ⟨r, _, _, _, hcase⟩ := processLock_handle w i lock c s q h
    rcases hcase with ⟨he, _, _, hst⟩ | ⟨_, _, hst⟩
    · rw [hst] at hs
      simp only [List.cons.injEq, and_true] at hs
      subst hs
      simp only [List.cons_append, List.mem_cons, List.mem_append, List.mem_singleton] at hm
      rcases hm with hm | hm | hm
      · cases hm; exact ⟨rfl, rfl, rfl, he⟩
      · rw [mem_releaseEvents] at hm
        rcases hm with hm | ⟨_, _, hm⟩ | hm <;> cases hm
      · simp at hm
    · rw [hst] at hs
      simp only [List.cons.injEq, and_true] at hs
      subst hs
      simp only [List.mem_cons] at hm
      rcases hm with hm | hm
      · cases hm; exact ⟨rfl, rfl, rfl, rfl⟩
      · rw [mem_releaseEvents] at hm
        rcases hm with hm | ⟨_, _, hm⟩ | hm <;> cases hm

/-- After a step whose handler returned an error with an extracted delay of zero,
every later lock of the batch is skipped. -/
theorem processLocks_after_fatal (w : World σ) :
    ∀ (locks : List MessageLock) (i : Nat) (fe : Option GoError) (c : Nat) (s : σ)
      (p : Progress σ), processLocks w i locks fe c s = some p →
      ∀ k stepk n body e, p.steps[k]? = some stepk →
        Event.handler n body (some e) ∈ stepk → extractDelay (some e) = some 0 →
        ∀ j lock, k < j → locks[j]? = some lock →
          ∃ step, p.steps[j]? = some step ∧ IsSkip (i + j) lock step := by
  intro locks
  induction locks with
  | nil =>
    intro i fe c s p h k stepk n body e hk
    rw [processLocks_nil] at h
    simp only [Option.some.injEq] at h
    subst h
    simp at hk
  | cons lock locks ih =>
    intro i fe c s p h k stepk n body e hk hm hz j lk hkj hj
    obtain ⟨q, p1, hq, hp1, _, _, _, hst⟩ := processLocks_cons w i lock locks fe c s p h
    obtain ⟨step0, hqs, _⟩ := processLock_isStep w i lock fe c s q hq
    rw [hst, hqs] at hk ⊢
    obtain ⟨j, rfl⟩ : ∃ j1, j = j1 + 1 := ⟨j - 1, by omega⟩
    simp only [List.getElem?_cons_succ] at hj
    have hidx : i + (j + 1) = i + 1 + j := by omega
    rw [hidx]
    simp only [List.singleton_append, List.getElem?_cons_succ]
    cases k with
    | zero =>
      simp only [List.singleton_append, List.getElem?_cons_zero, Option.some.injEq] at hk
      subst hk
      obtain ⟨hfe, _, _, herr⟩ := processLock_handler_mem w i lock fe c s q hq _ hqs n body _ hm
      subst hfe
      obtain ⟨r, _, _, hqfe, _⟩ := processLock_handle w i lock c s q hq
      have hfatal : q.firstErr = some e := by
        rw [hqfe, herr]
        simp [handlerFatal, hz]
      rw [hfatal] at hp1
      exact (processLocks_skipped w locks _ e _ _ p1 hp1).2.2 j lk hj
    | succ k =>
      simp only [List.singleton_append, List.getElem?_cons_succ] at hk
      exact ih _ _ _ _ p1 hp1 k stepk n body e hk hm hz j lk (by omega) hj

/-- The steps of a batch of a run are the steps of the loop over its locks. -/
theorem consumeLoop_steps (w : World σ) (m : QueueConsumer) (fuel c : Nat) (s : σ)
    (r : Outcome σ) (h : m.consumeLoop w fuel c s = some r) (b : BatchLog) (hb : b ∈ r.log)
    (k : Nat) (stepk : List Event) (hk : b.steps[k]? = some stepk) :
    b.err = none ∧
      b.locks = b.messages.map (NewMessageLock m.queue m.visibilityTimeout m.heartbeatInterval) ∧
      ∃ c0 s0 p, processLocks w 0 b.locks none c0 s0 = some p ∧ p.steps = b.steps := by
  obtain ⟨_, hcase⟩ := consumeLoop_batch w m fuel c s r h b hb
  rcases hcase with ⟨_, _, hnil⟩ | ⟨hok, _, hlocks, hp⟩
  · rw [hnil] at hk; simp at hk
  · exact ⟨hok, hlocks, hp⟩

/-- C2: in every batch of every run, when the handler of the message of position
`k` returns an error that is not a `RetriableError`, every message of a later
position `j` gets a step that contains no handler call, that starts with a call
of `Release` with a retry delay of zero, and in which the loop of the lock ends
with a call that sets the visibility timeout of that message to zero. -/
theorem C2_short_circuit_after_fatal (w : World σ) (m : QueueConsumer) (fuel : Nat) (s : σ)
    (r : Outcome σ) (h : m.ConsumeMessages w fuel s = some r) (b : BatchLog) (hb : b ∈ r.log)
    (k n : Nat) (stepk : List Event) (body : String) (e : GoError)
    (hk : b.steps[k]? = some stepk) (hm : Event.handler n body (some e) ∈ stepk)
    (hf : asRetriableError e = none) (j : Nat) (msg : Message) (hkj : k < j)
    (hj : b.messages[j]? = some msg) :
    ∃ step, b.steps[j]? = some step ∧
      (∀ ev ∈ step, ev.isHandler = false) ∧
      step.head? = some (Event.release j (some 0)) ∧
      ∃ c, Event.queue j c ∈ step ∧ c.via ≠ SelectCase.timeAfter ∧
        c.call = QueueCall.ChangeMessageVisibility ⟨m.queue, msg.ReceiptHandle, 0⟩ := by
  obtain ⟨_, hlocks, c0, s0, p, hp, hsteps⟩ := consumeLoop_steps w m fuel 0 s r h b hb k stepk hk
  have hz : extractDelay (some e) = some 0 := by simp [extractDelay, hf, noDelay]
  have hl : b.locks[j]? = some
      (NewMessageLock m.queue m.visibilityTimeout m.heartbeatInterval msg) := by
    rw [hlocks, List.getElem?_map, hj]; rfl
  rw [← hsteps] at hk
  obtain ⟨step, hs, h1, _, h3, h4⟩ :=
    processLocks_after_fatal w b.locks 0 none c0 s0 p hp k stepk n body e hk hm hz j _ hkj hl
  rw [hsteps] at hs
  refine ⟨step, hs, h1, ?_, ?_⟩
  · simpa using h3
  · simpa [NewMessageLock] using h4

/-- An instance of C2: in the run of `scriptFatal` the handler fails for the first
message and the second one is skipped. -/
theorem C2_witness :
    testConsumer.ConsumeMessages (Script.world releaseAfterHeartbeat) 3 scriptFatal =
        some (Script.run testConsumer releaseAfterHeartbeat 3 scriptFatal) ∧
      Event.handler 0 "qux3" (some (GoError.plain "fatal error")) ∈
        (firstBatch (Script.run testConsumer releaseAfterHeartbeat 3 scriptFatal).log).step 0 ∧
      ∃ step, (firstBatch (Script.run testConsumer releaseAfterHeartbeat 3 scriptFatal).log).steps[1]?
          = some step ∧
        (∀ ev ∈ step, ev.isHandler = false) ∧
        step.head? = some (Event.release 1 (some 0)) ∧
        ∃ c, Event.queue 1 c ∈ step ∧ c.via ≠ SelectCase.timeAfter ∧
          c.call = QueueCall.ChangeMessageVisibility
            ⟨testConsumer.queue, (testMessage 4).ReceiptHandle, 0⟩ :=
  ⟨rfl, by decide, C2_short_circuit_after_fatal (Script.world releaseAfterHeartbeat)
    testConsumer 3 scriptFatal (Script.run testConsumer releaseAfterHeartbeat 3 scriptFatal) rfl
    (firstBatch (Script.run testConsumer releaseAfterHeartbeat 3 scriptFatal).log) (by decide)
    0 0 ((firstBatch (Script.run testConsumer releaseAfterHeartbeat 3 scriptFatal).log).step 0)
    "qux3" (GoError.plain "fatal error") (by decide) (by decide) (by decide) 1 (testMessage 4)
    (by decide) (by decide)⟩

/-! ## The count (C3, C4) -/

/-- The count grows by the number of steps that satisfy `f`, for every `f` that
tells whether one iteration counts its message. -/
theorem processLocks_count (w : World σ) (f : List Event → Bool)
    (hf : ∀ i lock fe c s q, processLock w i lock fe c s = some q →
      q.consumed = c + q.steps.countP f) :
    ∀ (locks : List MessageLock) (i : Nat) (fe : Option GoError) (c : Nat) (s : σ)
      (p : Progress σ), processLocks w i locks fe c s = some p →
      p.consumed = c + p.steps.countP f := by
  intro locks
  induction locks with
  | nil =>
    intro i fe c s p h
    rw [processLocks_nil] at h
    simp only [Option.some.injEq] at h
    subst h
    simp
  | cons lock locks ih =>
    intro i fe c s p h
    obtain ⟨q, p1, hq, hp1, _, hco, _, hst⟩ := processLocks_cons w i lock locks fe c s p h
    rw [hco, hst, ih _ _ _ _ _ hp1, hf i lock fe c s q hq, List.countP_append]
    omega

theorem consumeLoop_count (w : World σ) (m : QueueConsumer) (f : List Event → Bool)
    (hf : ∀ i lock fe c s q, processLock w i lock fe c s = some q →
      q.consumed = c + q.steps.countP f) :
    ∀ (fuel c : Nat) (s : σ) (r : Outcome σ), m.consumeLoop w fuel c s = some r →
      r.consumed = c + countSteps f r.log := by
  apply consumeLoop_induction w m (fun c _ r => r.consumed = c + countSteps f r.log)
  · intro c s e _
    simp [countSteps]
  · intro c s _ _
    simp [countSteps]
  · intro c s fuel out _ _ _ ih
    simpa [countSteps] using ih
  · intro c s msgs p e _ _ hp _
    simpa [countSteps] using processLocks_count w f hf _ _ _ _ _ p hp
  · intro c s msgs p fuel out _ _ hp _ _ ih
    have := processLocks_count w f hf _ _ _ _ _ p hp
    simp only [countSteps, List.map_cons, List.sum_cons] at ih ⊢
    rw [ih, this]
    omega

/-- One iteration counts its message exactly when the handler returned `nil` and
the release returned no error. -/
theorem processLock_count_succeeded (w : World σ) (i : Nat) (lock : MessageLock)
    (fe : Option GoError) (c : Nat) (s : σ) (q : Progress σ)
    (h : processLock w i lock fe c s = some q) :
    q.consumed = c + q.steps.countP stepSucceeded := by
  cases fe with
  | some e =>
    obtain ⟨r, _, hq⟩ := processLock_skip w i lock e c s q h
    subst hq
    have : stepSucceeded (releaseEvents i (some noDelay) r) = false := by
      simp only [stepSucceeded, Bool.and_eq_false_imp, List.any_eq_true]
      rintro ⟨e, he, hh⟩
      rw [mem_releaseEvents] at he
      rcases he with he | ⟨_, _, he⟩ | he <;> subst he <;> cases hh
    simp [this]
  | none =>
    obtain ⟨r, _, _, _, hcase⟩ := processLock_handle w i lock c s q h
    rcases hcase with ⟨_, hre, hco, hst⟩ | ⟨hne, hco, hst⟩
    · have : stepSucceeded (Event.handler i (StringValue lock.message.Body) none ::
          releaseEvents i none r ++ [Event.counted i]) = true := by
        simp only [stepSucceeded, Bool.and_eq_true, List.any_eq_true]
        refine ⟨⟨_, List.mem_append_left _ (List.mem_cons_self _ _), rfl⟩,
          ⟨Event.released i none, ?_, rfl⟩⟩
        apply List.mem_append_left
        apply List.mem_cons_of_mem
        rw [mem_releaseEvents, hre]
        exact Or.inr (Or.inr rfl)
      rw [hco, hst]
      simp only [List.countP_cons, List.countP_nil, this]
      simp
    · have : stepSucceeded (Event.handler i (StringValue lock.message.Body)
          (w.handler (StringValue lock.message.Body) s).1 ::
          releaseEvents i (extractDelay (w.handler (StringValue lock.message.Body) s).1) r)
          = false := by
        cases hs : stepSucceeded _ with
        | false => rfl
        | true =>
          exfalso
          simp only [stepSucceeded, Bool.and_eq_true, List.any_eq_true] at hs
          obtain ⟨⟨e1, he1, hh1⟩, ⟨e2, he2, hh2⟩⟩ := hs
          rcases hne with hne | hne
          · simp only [List.mem_cons] at he1
            rcases he1 with he1 | he1
            · subst he1
              cases hv : (w.handler (StringValue lock.message.Body) s).1 with
              | none => exact hne hv
              | some _ => rw [hv] at hh1; cases hh1
            · rw [mem_releaseEvents] at he1
              rcases he1 with he1 | ⟨_, _, he1⟩ | he1 <;> subst he1 <;> cases hh1
          · simp only [List.mem_cons] at he2
            rcases he2 with he2 | he2
            · subst he2; cases hh2
            · rw [mem_releaseEvents] at he2
              rcases he2 with he2 | ⟨_, _, he2⟩ | he2
              · subst he2; cases hh2
              · subst he2; cases hh2
              · subst he2
                cases hv : r.err with
                | none => exact hne hv
                | some _ => rw [hv] at hh2; cases hh2
      rw [hco, hst]
      simp only [List.countP_cons, List.countP_nil, this]
      simp

/-- One iteration counts its message exactly when its release issued a
`DeleteMessage` call that returned no error. -/
theorem processLock_count_deleted (w : World σ) (i : Nat) (lock : MessageLock)
    (fe : Option GoError) (c : Nat) (s : σ) (q : Progress σ)
    (h : processLock w i lock fe c s = some q) :
    q.consumed = c + q.steps.countP stepDeleted := by
  have hrel : ∀ (rd : Option Duration) (s0 : σ) (r : Released σ),
      lock.Release w rd s0 = some r → ∀ e ∈ releaseEvents i rd r, e.isDeleted = true →
        rd = none ∧ r.err = none := by
    intro rd s0 r hr e he hd
    obtain ⟨_, h2, _⟩ := loop_delete w lock rd _ s0 r hr
    rw [mem_releaseEvents] at he
    rcases he with he | ⟨c1, hc1, he⟩ | he
    · subst he; cases hd
    · subst he
      simp only [Event.isDeleted, Bool.and_eq_true] at hd
      obtain ⟨hrd, hceq⟩ := h2 c1 hc1 hd.1
      refine ⟨hrd, ?_⟩
      have := hd.2
      rw [hceq] at this
      simpa using this
    · subst he; cases hd
  cases fe with
  | some e =>
    obtain ⟨r, hr, hq⟩ := processLock_skip w i lock e c s q h
    subst hq
    have : stepDeleted (releaseEvents i (some noDelay) r) = false := by
      cases hs : stepDeleted _ with
      | false => rfl
      | true =>
        simp only [stepDeleted, List.any_eq_true] at hs
        obtain ⟨e1, he1, hh1⟩ := hs
        exact absurd (hrel _ _ _ hr e1 he1 hh1).1 (by simp)
    simp [this]
  | none =>
    obtain ⟨r, hr, _, _, hcase⟩ := processLock_handle w i lock c s q h
    rcases hcase with ⟨hnil, hre, hco, hst⟩ | ⟨hne, hco, hst⟩
    · have : stepDeleted (Event.handler i (StringValue lock.message.Body) none ::
          releaseEvents i none r ++ [Event.counted i]) = true := by
        simp only [stepDeleted, List.any_eq_true]
        rw [hnil] at hr
        obtain ⟨_, _, h3⟩ := loop_delete w lock none _ _ r hr
        refine ⟨Event.queue i ⟨SelectCase.release,
          QueueCall.DeleteMessage lock.deleteMessageInput, none⟩, ?_, rfl⟩
        apply List.mem_append_left
        apply List.mem_cons_of_mem
        rw [mem_releaseEvents]
        exact Or.inr (Or.inl ⟨_, h3 hre rfl, rfl⟩)
      rw [hco, hst]
      simp only [List.countP_cons, List.countP_nil, this]
      simp
    · have : stepDeleted (Event.handler i (StringValue lock.message.Body)
          (w.handler (StringValue lock.message.Body) s).1 ::
          releaseEvents i (extractDelay (w.handler (StringValue lock.message.Body) s).1) r)
          = false := by
        cases hs : stepDeleted _ with
        | false => rfl
        | true =>
          exfalso
          simp only [stepDeleted, List.any_eq_true] at hs
          obtain ⟨e1, he1, hh1⟩ := hs
          simp only [List.mem_cons] at he1
          rcases he1 with he1 | he1
          · subst he1; cases hh1
          · obtain ⟨hrd, hre⟩ := hrel _ _ _ hr e1 he1 hh1
            rw [extractDelay_eq_none] at hrd
            rcases hne with hne | hne
            · exact hne hrd
            · exact hne hre
      rw [hco, hst]
      simp only [List.countP_cons, List.countP_nil, this]
      simp

/-- Every run that returns has logged at least one batch. -/
theorem consumeLoop_log_ne_nil (w : World σ) (m : QueueConsumer) (fuel c : Nat) (s : σ)
    (r : Outcome σ) (h : m.consumeLoop w fuel c s = some r) : r.log ≠ [] := by
  revert fuel c s r
  apply consumeLoop_induction w m (fun _ _ r => r.log ≠ []) <;> intros <;> simp

theorem getLast?_cons_of_ne_nil {α : Type} (a : α) (l : List α) (h : l ≠ []) :
    (a :: l).getLast? = l.getLast? := by
  cases l with
  | nil => exact absurd rfl h
  | cons b t => simp [List.getLast?_cons_cons]

/-- A run whose last receive returned no message and no error returns no error. -/
theorem consumeLoop_last_empty (w : World σ) (m : QueueConsumer) :
    ∀ (fuel c : Nat) (s : σ) (r : Outcome σ), m.consumeLoop w fuel c s = some r →
      ∀ b, r.log.getLast? = some b → b.err = none → b.messages = [] → r.err = none := by
  apply consumeLoop_induction w m
    (fun _ _ r => ∀ b, r.log.getLast? = some b → b.err = none → b.messages = [] → r.err = none)
  · intro c s e _ b hb hok _
    simp only [List.getLast?_singleton, Option.some.injEq] at hb
    subst hb
    simp at hok
  · intro c s _ _ b _ _ _
    rfl
  · intro c s fuel out _ _ hout ih b hb hok hm
    rw [getLast?_cons_of_ne_nil _ _ (consumeLoop_log_ne_nil w m _ _ _ _ hout)] at hb
    exact ih b hb hok hm
  · intro c s msgs p e _ hne _ _ b hb _ hm
    simp only [List.getLast?_singleton, Option.some.injEq] at hb
    subst hb
    exact absurd hm hne
  · intro c s msgs p fuel out _ _ _ _ hout ih b hb hok hm
    rw [getLast?_cons_of_ne_nil _ _ (consumeLoop_log_ne_nil w m _ _ _ _ hout)] at hb
    exact ih b hb hok hm

/-- C3 as stated fails: one message is received, its handler returns `nil`, and
the `DeleteMessage` call of its release fails; the run returns a count of 0 while
one handler returned `nil`. -/
theorem C3_counterexample :
    testConsumer.ConsumeMessages (Script.world releaseAfterHeartbeat) 3 scriptDeleteFails =
        some (Script.run testConsumer releaseAfterHeartbeat 3 scriptDeleteFails) ∧
      (Script.run testConsumer releaseAfterHeartbeat 3 scriptDeleteFails).consumed = 0 ∧
      countSteps stepHandled
        (Script.run testConsumer releaseAfterHeartbeat 3 scriptDeleteFails).log = 1 ∧
      (Script.run testConsumer releaseAfterHeartbeat 3 scriptDeleteFails).err =
        some (GoError.plain "delete failed") :=
  ⟨rfl, by decide, by decide, by decide⟩

/-- C3, amended: the count returned by `ConsumeMessages` is the number of
messages, over all batches, whose handler returned `nil` and whose release
returned no error. -/
theorem C3_count_handled_and_released (w : World σ) (m : QueueConsumer) (fuel : Nat) (s : σ)
    (r : Outcome σ) (h : m.ConsumeMessages w fuel s = some r) :
    r.consumed = countSteps stepSucceeded r.log := by
  have := consumeLoop_count w m stepSucceeded (processLock_count_succeeded w) fuel 0 s r h
  simpa using this

/-- An instance of the amended C3: the run of `scriptDeleteFails`. -/
theorem C3_witness :
    testConsumer.ConsumeMessages (Script.world releaseAfterHeartbeat) 3 scriptDeleteFails =
        some (Script.run testConsumer releaseAfterHeartbeat 3 scriptDeleteFails) ∧
      (Script.run testConsumer releaseAfterHeartbeat 3 scriptDeleteFails).consumed =
        countSteps stepSucceeded
          (Script.run testConsumer releaseAfterHeartbeat 3 scriptDeleteFails).log :=
  ⟨rfl, C3_count_handled_and_released (Script.world releaseAfterHeartbeat) testConsumer 3
    scriptDeleteFails (Script.run testConsumer releaseAfterHeartbeat 3 scriptDeleteFails) rfl⟩

/-- C4: the count returned by `ConsumeMessages` is the number of messages, over
all batches, in whose step a `DeleteMessage` call was issued and returned no
error; and when the last receive of the run returned no message and no error, the
error returned is `nil`. -/
theorem C4_count_deleted_and_nil_on_exhaustion (w : World σ) (m : QueueConsumer) (fuel : Nat)
    (s : σ) (r : Outcome σ) (h : m.ConsumeMessages w fuel s = some r) :
    r.consumed = countSteps stepDeleted r.log ∧
      ∀ b, r.log.getLast? = some b → b.err = none → b.messages = [] → r.err = none := by
  have := consumeLoop_count w m stepDeleted (processLock_count_deleted w) fuel 0 s r h
  exact ⟨by simpa using this, consumeLoop_last_empty w m fuel 0 s r h⟩

/-- An instance of C4: the run of `scriptRetry`. -/
theorem C4_witness :
    testConsumer.ConsumeMessages (Script.world releaseAfterHeartbeat) 3 scriptRetry =
        some (Script.run testConsumer releaseAfterHeartbeat 3 scriptRetry) ∧
      ((Script.run testConsumer releaseAfterHeartbeat 3 scriptRetry).consumed =
        countSteps stepDeleted (Script.run testConsumer releaseAfterHeartbeat 3 scriptRetry).log ∧
      ∀ b, (Script.run testConsumer releaseAfterHeartbeat 3 scriptRetry).log.getLast? = some b →
        b.err = none → b.messages = [] →
        (Script.run testConsumer releaseAfterHeartbeat 3 scriptRetry).err = none) :=
  ⟨rfl, C4_count_deleted_and_nil_on_exhaustion (Script.world releaseAfterHeartbeat)
    testConsumer 3 scriptRetry (Script.run testConsumer releaseAfterHeartbeat 3 scriptRetry) rfl⟩

/-! ## Retries (C5, C6) -/

/-- The step of a lock whose handler returned a `RetriableError` with a delay
that is not zero. -/
theorem processLock_retry (w : World σ) (i : Nat) (lock : MessageLock) (fe : Option GoError)
    (c : Nat) (s : σ) (q : Progress σ) (h : processLock w i lock fe c s = some q)
    (step : List Event) (hs : q.steps = [step]) (n : Nat) (body : String) (d : Duration)
    (hm : Event.handler n body (some (NewRetriableError d)) ∈ step) (hd : d ≠ 0) :
    q.consumed = c ∧ Event.release i (some d) ∈ step ∧
      (∀ c1, Event.queue i c1 ∈ step → c1.via = SelectCase.release →
        c1.call = QueueCall.ChangeMessageVisibility (lock.changeMessageVisibilityInput d)) ∧
      (∀ e ∈ step, e.isCounted = false) ∧
      (∀ k, Event.released k none ∈ step → q.firstErr = none) := by
  obtain ⟨hfe, _, _, herr⟩ := processLock_handler_mem w i lock fe c s q h step hs n body _ hm
  subst hfe
  obtain ⟨r, hr, _, hqfe, hcase⟩ := processLock_handle w i lock c s q h
  have hx : extractDelay (some (NewRetriableError d)) = some d := by
    simp [extractDelay, NewRetriableError, asRetriableError]
  rw [herr] at hr hqfe hcase
  rw [hx] at hr hcase
  rcases hcase with ⟨he, _⟩ | ⟨_, hco, hst⟩
  · cases he
  · rw [hst] at hs
    simp only [List.cons.injEq, and_true] at hs
    subst hs
    obtain ⟨beats, last, hc, hb, hl⟩ := loop_shape w lock (some d) _ _ r hr
    refine ⟨hco, ?_, ?_, ?_, ?_⟩
    · apply List.mem_cons_of_mem
      rw [mem_releaseEvents]
      exact Or.inl rfl
    · intro c1 hc1 hv
      simp only [List.mem_cons] at hc1
      rcases hc1 with hc1 | hc1
      · cases hc1
      · rw [mem_releaseEvents] at hc1
        rcases hc1 with hc1 | ⟨c2, hc2, hc1⟩ | hc1
        · cases hc1
        · cases hc1
          rw [hc] at hc2
          simp only [List.mem_append, List.mem_singleton] at hc2
          rcases hc2 with hc2 | hc2
          · rw [(hb c1 hc2).1] at hv; cases hv
          · subst hc2
            rcases hl with ⟨_, _, hcall⟩ | ⟨hv2, _, _⟩
            · exact hcall
            · rw [hv2] at hv; cases hv
        · cases hc1
    · intro e he
      simp only [List.mem_cons] at he
      rcases he with he | he
      · subst he; rfl
      · rw [mem_releaseEvents] at he
        rcases he with he | ⟨_, _, he⟩ | he <;> subst he <;> rfl
    · intro k hk
      simp only [List.mem_cons] at hk
      rcases hk with hk | hk
      · cases hk
      · rw [mem_releaseEvents] at hk
        rcases hk with hk | ⟨_, _, hk⟩ | hk
        · cases hk
        · cases hk
        · simp only [Event.released.injEq] at hk
          rw [hqfe, ← hk.2]
          simp [handlerFatal, hx, hd]

/-- While no fatal outcome is recorded, the handler is called for the next lock. -/
theorem processLocks_head_handled (w : World σ) (i : Nat) (lock : MessageLock)
    (locks : List MessageLock) (c : Nat) (s : σ) (p : Progress σ)
    (h : processLocks w i (lock :: locks) none c s = some p) :
    ∃ step err, p.steps[0]? = some step ∧
      Event.handler i (StringValue lock.message.Body) err ∈ step := by
  obtain ⟨q, p1, hq, _, _, _, _, hst⟩ := processLocks_cons w i lock locks none c s p h
  obtain ⟨r, _, _, _, hcase⟩ := processLock_handle w i lock c s q hq
  rcases hcase with ⟨_, _, _, hqs⟩ | ⟨_, _, hqs⟩
  · rw [hst, hqs]
    exact ⟨Event.handler i (StringValue lock.message.Body) none ::
      releaseEvents i none r ++ [Event.counted i], none, by simp, by simp⟩
  · rw [hst, hqs]
    exact ⟨Event.handler i (StringValue lock.message.Body)
      (w.handler (StringValue lock.message.Body) s).1 ::
      releaseEvents i (extractDelay (w.handler (StringValue lock.message.Body) s).1) r,
      (w.handler (StringValue lock.message.Body) s).1, by simp, by simp⟩

/-- A retry with a delay that is not zero, in a batch. -/
theorem processLocks_retry (w : World σ) :
    ∀ (locks : List MessageLock) (i : Nat) (fe : Option GoError) (c : Nat) (s : σ)
      (p : Progress σ), processLocks w i locks fe c s = some p →
      ∀ j step n body d, p.steps[j]? = some step →
        Event.handler n body (some (NewRetriableError d)) ∈ step → d ≠ 0 →
        Event.release (i + j) (some d) ∈ step ∧
        (∀ c1, Event.queue (i + j) c1 ∈ step → c1.via = SelectCase.release →
          ∃ input, c1.call = QueueCall.ChangeMessageVisibility input ∧
            input.VisibilityTimeout = Int.tdiv d Second) ∧
        (∀ e ∈ step, e.isCounted = false) ∧
        (Event.released (i + j) none ∈ step → ∀ lock, locks[j + 1]? = some lock →
          ∃ next err, p.steps[j + 1]? = some next ∧
            Event.handler (i + j + 1) (StringValue lock.message.Body) err ∈ next) := by
  intro locks
  induction locks with
  | nil =>
    intro i fe c s p h j step n body d hj
    rw [processLocks_nil] at h
    simp only [Option.some.injEq] at h
    subst h
    simp at hj
  | cons lock locks ih =>
    intro i fe c s p h j step n body d hj hm hd
    obtain ⟨q, p1, hq, hp1, _, _, _, hst⟩ := processLocks_cons w i lock locks fe c s p h
    obtain ⟨step0, hqs, _⟩ := processLock_isStep w i lock fe c s q hq
    rw [hst, hqs] at hj ⊢
    cases j with
    | zero =>
      simp only [List.singleton_append, List.getElem?_cons_zero, Option.some.injEq] at hj
      subst hj
      obtain ⟨_, h2, h3, h4, h5⟩ := processLock_retry w i lock fe c s q hq _ hqs n body d hm hd
      refine ⟨h2, ?_, h4, ?_⟩
      · intro c1 hc1 hv
        exact ⟨_, h3 c1 hc1 hv, rfl⟩
      · intro hrel lk hlk
        simp only [zero_add, List.getElem?_cons_succ, List.getElem?_cons_zero] at hlk
        have hq0 := h5 _ hrel
        rw [hq0] at hp1
        cases locks with
        | nil => simp at hlk
        | cons l2 rest =>
          simp only [List.getElem?_cons_zero, Option.some.injEq] at hlk
          subst hlk
          obtain ⟨next, err, hn1, hn2⟩ := processLocks_head_handled w (i + 1) _ rest _ _ p1 hp1
          exact ⟨next, err, by simpa using hn1, hn2⟩
    | succ j =>
      simp only [List.singleton_append, List.getElem?_cons_succ] at hj
      have hidx : i + (j + 1) = i + 1 + j := by omega
      rw [hidx]
      obtain ⟨h1, h2, h3, h4⟩ := ih _ _ _ _ p1 hp1 j step n body d hj hm hd
      refine ⟨h1, h2, h3, ?_⟩
      intro hrel lk hlk
      simp only [List.getElem?_cons_succ] at hlk
      obtain ⟨next, err, hn1, hn2⟩ := h4 hrel lk hlk
      exact ⟨next, err, by simpa using hn1, hn2⟩

/-- The step of a message whose handler returned a `RetriableError` of delay
`d`: the loop of its lock ends with one call for this message, issued by the
`release` case, which asks for `d` in whole seconds and whose error `Release`
returns, or issued by the `done` case, which asks for zero while `Release`
returns the error of the context. -/
theorem isStep_retry_last_call (w : World σ) (j : Nat) (lock : MessageLock)
    (step : List Event) (h : IsStep w j lock step) (n : Nat) (body : String) (d : Duration)
    (hm : Event.handler n body (some (NewRetriableError d)) ∈ step) :
    ∃ c err, Event.queue j c ∈ step ∧ (∀ e, Event.released j e ∈ step ↔ e = err) ∧
      ((c.via = SelectCase.release ∧ c.call = QueueCall.ChangeMessageVisibility
          (lock.changeMessageVisibilityInput d) ∧ c.err = err) ∨
        (c.via = SelectCase.done ∧ c.call = QueueCall.ChangeMessageVisibility
          (lock.changeMessageVisibilityInput 0) ∧ err = some w.ctxErr)) ∧
      ∀ c1, Event.queue j c1 ∈ step → c1.via = SelectCase.release →
        c1.call = QueueCall.ChangeMessageVisibility (lock.changeMessageVisibilityInput d) := by
  rcases h with ⟨s, r, _, hst⟩ | ⟨s, err, r, hrel, hst⟩
  · subst hst
    rw [mem_releaseEvents] at hm
    rcases hm with hm | ⟨c, _, hm⟩ | hm <;> cases hm
  · have herr : err = some (NewRetriableError d) := by
      subst hst
      simp only [List.cons_append, List.mem_cons, List.mem_append, mem_releaseEvents] at hm
      rcases hm with hm | (hm | ⟨c, _, hm⟩ | hm) | hm
      · cases hm; rfl
      · cases hm
      · cases hm
      · cases hm
      · split at hm
        · simp at hm
        · simp at hm
    subst herr
    have hrd : extractDelay (some (NewRetriableError d)) = some d := rfl
    rw [hrd] at hrel hst
    have hst2 : step = Event.handler j (StringValue lock.message.Body)
        (some (NewRetriableError d)) :: releaseEvents j (some d) r := by
      rw [hst]; simp
    obtain ⟨beats, last, hc, hbeats, hl⟩ := loop_shape w lock (some d) _ _ r hrel
    refine ⟨last, r.err, ?_, ?_, ?_, ?_⟩
    · rw [hst2]
      apply List.mem_cons_of_mem
      rw [mem_releaseEvents]
      exact Or.inr (Or.inl ⟨last, by rw [hc]; simp, rfl⟩)
    · intro e
      rw [hst2]
      simp only [List.mem_cons, mem_releaseEvents]
      constructor
      · rintro (he | he | ⟨c, _, he⟩ | he)
        · cases he
        · cases he
        · cases he
        · simp only [Event.released.injEq, true_and] at he
          exact he
      · intro he
        subst he
        exact Or.inr (Or.inr (Or.inr rfl))
    · rcases hl with ⟨h1, h2, h3⟩ | ⟨h1, h2, h3⟩
      · exact Or.inl ⟨h1, h3, h2⟩
      · exact Or.inr ⟨h1, h3, h2⟩
    · intro c1 hc1 hv1
      have hc1r : c1 ∈ r.calls := by
        rw [hst2] at hc1
        simp only [List.mem_cons, mem_releaseEvents] at hc1
        rcases hc1 with hc1 | hc1 | ⟨c2, hc2, hc1⟩ | hc1
        · cases hc1
        · cases hc1
        · cases hc1; exact hc2
        · cases hc1
      rw [hc, List.mem_append, List.mem_singleton] at hc1r
      rcases hc1r with hb1 | hb1
      · rw [(hbeats c1 hb1).1] at hv1; cases hv1
      · subst hb1
        rcases hl with ⟨_, _, a3⟩ | ⟨a1, _, _⟩
        · exact a3
        · rw [a1] at hv1; cases hv1

/-- Every step of a batch of a run is the step of the message of its position. -/
theorem consumeLoop_step_message (w : World σ) (m : QueueConsumer) (fuel c : Nat) (s : σ)
    (r : Outcome σ) (h : m.consumeLoop w fuel c s = some r) (b : BatchLog) (hb : b ∈ r.log)
    (j : Nat) (step : List Event) (hj : b.steps[j]? = some step) :
    ∃ msg, b.messages[j]? = some msg ∧
      IsStep w j (NewMessageLock m.queue m.visibilityTimeout m.heartbeatInterval msg) step := by
  obtain ⟨hok, hlocks, c0, s0, p, hp, hsteps⟩ :=
    consumeLoop_steps w m fuel c s r h b hb j step hj
  obtain ⟨hlen, _⟩ := processLocks_isStep w b.locks 0 none c0 s0 p hp
  have hjl : j < b.messages.length := by
    have h1 : j < b.steps.length := (List.getElem?_eq_some_iff.mp hj).1
    rw [← hsteps, hlen, hlocks, List.length_map] at h1
    exact h1
  refine ⟨b.messages[j], List.getElem?_eq_getElem hjl, ?_⟩
  obtain ⟨step2, hs2, his⟩ := consumeLoop_isStep w m fuel c s r h b hb hok j b.messages[j]
    (List.getElem?_eq_getElem hjl)
  rw [hj] at hs2
  cases hs2
  exact his

/-- C5, amended: in every batch of every run, when the handler of the message of
position `j` returns a `RetriableError` with a delay `d` that is not zero,
`Release` is called on its lock with `d`.  The loop of the lock then ends with one
call for the queue URL of the consumer and the receipt handle of the message:
either the `release` case issues `ChangeMessageVisibility` with `d` in whole
seconds, and `Release` returns the error of that call, or the `done` case (the
context is cancelled) issues `ChangeMessageVisibility` with zero, and `Release`
returns the error of the context.  Every call of the `release` case is that
`ChangeMessageVisibility` with `d` in whole seconds; the message is not counted;
and when that release returns no error, the `release` case has issued the call
and it succeeded, and the handler is called for the next message of the batch. -/
theorem C5_retry_after_delay (w : World σ) (m : QueueConsumer) (fuel : Nat) (s : σ)
    (r : Outcome σ) (h : m.ConsumeMessages w fuel s = some r) (b : BatchLog) (hb : b ∈ r.log)
    (j n : Nat) (step : List Event) (body : String) (d : Duration)
    (hj : b.steps[j]? = some step)
    (hm : Event.handler n body (some (NewRetriableError d)) ∈ step) (hd : d ≠ 0) :
    ∃ msg, b.messages[j]? = some msg ∧
      Event.release j (some d) ∈ step ∧
      (∃ c err, Event.queue j c ∈ step ∧ (∀ e, Event.released j e ∈ step ↔ e = err) ∧
        ((c.via = SelectCase.release ∧ c.call = QueueCall.ChangeMessageVisibility
            ⟨m.queue, msg.ReceiptHandle, Int.tdiv d Second⟩ ∧ c.err = err) ∨
          (c.via = SelectCase.done ∧ c.call = QueueCall.ChangeMessageVisibility
            ⟨m.queue, msg.ReceiptHandle, 0⟩ ∧ err = some w.ctxErr))) ∧
      (∀ c, Event.queue j c ∈ step → c.via = SelectCase.release →
        c.call = QueueCall.ChangeMessageVisibility
          ⟨m.queue, msg.ReceiptHandle, Int.tdiv d Second⟩) ∧
      (∀ e ∈ step, e.isCounted = false) ∧
      (Event.released j none ∈ step →
        (∃ c, Event.queue j c ∈ step ∧ c.via = SelectCase.release ∧
          c.call = QueueCall.ChangeMessageVisibility
            ⟨m.queue, msg.ReceiptHandle, Int.tdiv d Second⟩ ∧ c.err = none) ∧
        ∀ next, b.messages[j + 1]? = some next →
          ∃ step1 err, b.steps[j + 1]? = some step1 ∧
            Event.handler (j + 1) (StringValue next.Body) err ∈ step1) := by
  obtain ⟨msg, hmsg, hstep⟩ := consumeLoop_step_message w m fuel 0 s r h b hb j step hj
  obtain ⟨_, hlocks, c0, s0, p, hp, hsteps⟩ := consumeLoop_steps w m fuel 0 s r h b hb j step hj
  obtain ⟨c, err, hc, hrel, hcase, hall⟩ := isStep_retry_last_call w j _ step hstep n body d hm
  have hcase2 : (c.via = SelectCase.release ∧ c.call = QueueCall.ChangeMessageVisibility
        ⟨m.queue, msg.ReceiptHandle, Int.tdiv d Second⟩ ∧ c.err = err) ∨
      (c.via = SelectCase.done ∧ c.call = QueueCall.ChangeMessageVisibility
        ⟨m.queue, msg.ReceiptHandle, 0⟩ ∧ err = some w.ctxErr) := by
    rcases hcase with ⟨a1, a2, a3⟩ | ⟨a1, a2, a3⟩
    · exact Or.inl ⟨a1, a2, a3⟩
    · exact Or.inr ⟨a1, by rw [a2]; rfl, a3⟩
  rw [← hsteps] at hj
  obtain ⟨q1, _, q3, q4⟩ :=
    processLocks_retry w b.locks 0 none c0 s0 p hp j step n body d hj hm hd
  simp only [zero_add] at q1 q4
  refine ⟨msg, hmsg, q1, ⟨c, err, hc, hrel, hcase2⟩, hall, q3, ?_⟩
  intro hnone
  have herr : err = none := ((hrel none).mp hnone).symm
  subst herr
  refine ⟨?_, ?_⟩
  · rcases hcase2 with ⟨a1, a2, a3⟩ | ⟨_, _, a3⟩
    · exact ⟨c, hc, a1, a2, a3⟩
    · cases a3
  · intro next hnext
    have hl2 : b.locks[j + 1]? = some
        (NewMessageLock m.queue m.visibilityTimeout m.heartbeatInterval next) := by
      rw [hlocks, List.getElem?_map, hnext]; rfl
    obtain ⟨step1, e1, hn1, hn2⟩ := q4 hnone _ hl2
    rw [hsteps] at hn1
    exact ⟨step1, e1, hn1, by simpa [NewMessageLock] using hn2⟩

/-- C5 as stated fails in four ways.  For a delay of zero: two messages are
received and the handler returns `RetriableError` with delay 0 for the first one;
the handler of the second message is not called and the error is returned.  When
the release fails: the handler asks to retry the first message after 2520 seconds
and the `ChangeMessageVisibility` call of the release fails; the handler of the
second message is not called either.  For a delay that is not a whole number of
seconds: the handler asks to retry after one second and a half, and the queue is
asked for one second.  When the context is cancelled: the handler asks to retry
after 2520 seconds, the lock takes its `done` case and the queue is asked for
zero; the error of the context is returned and the handler of the second message
is not called. -/
theorem C5_counterexample :
    (testConsumer.ConsumeMessages (Script.world releaseAfterHeartbeat) 3 scriptRetryZero =
        some (Script.run testConsumer releaseAfterHeartbeat 3 scriptRetryZero) ∧
      Event.handler 0 "qux1" (some (NewRetriableError 0)) ∈
        (firstBatch (Script.run testConsumer releaseAfterHeartbeat 3 scriptRetryZero).log).step 0 ∧
      (firstBatch (Script.run testConsumer releaseAfterHeartbeat 3 scriptRetryZero).log).step 1 =
        [Event.release 1 (some 0),
          Event.queue 1 ⟨SelectCase.timeAfter,
            QueueCall.ChangeMessageVisibility ⟨"foo", some "baz2", 150⟩, none⟩,
          Event.queue 1 ⟨SelectCase.release,
            QueueCall.ChangeMessageVisibility ⟨"foo", some "baz2", 0⟩, none⟩,
          Event.released 1 none] ∧
      (Script.run testConsumer releaseAfterHeartbeat 3 scriptRetryZero).err =
        some (NewRetriableError 0)) ∧
    (testConsumer.ConsumeMessages (Script.world releaseAfterHeartbeat) 3
          scriptRetryReleaseFails =
        some (Script.run testConsumer releaseAfterHeartbeat 3 scriptRetryReleaseFails) ∧
      Event.handler 0 "qux1" (some (NewRetriableError (2520 * Second))) ∈
        (firstBatch (Script.run testConsumer releaseAfterHeartbeat 3
          scriptRetryReleaseFails).log).step 0 ∧
      (∀ e ∈ (firstBatch (Script.run testConsumer releaseAfterHeartbeat 3
          scriptRetryReleaseFails).log).step 1, e.isHandler = false) ∧
      (Script.run testConsumer releaseAfterHeartbeat 3 scriptRetryReleaseFails).err =
        some (GoError.plain "change failed")) ∧
    (testConsumer.ConsumeMessages (Script.world releaseAfterHeartbeat) 3 scriptRetryFraction =
        some (Script.run testConsumer releaseAfterHeartbeat 3 scriptRetryFraction) ∧
      (firstBatch (Script.run testConsumer releaseAfterHeartbeat 3
          scriptRetryFraction).log).step 0 =
        [Event.handler 0 "qux1" (some (NewRetriableError 1500000000)),
          Event.release 0 (some 1500000000),
          Event.queue 0 ⟨SelectCase.timeAfter,
            QueueCall.ChangeMessageVisibility ⟨"foo", some "baz1", 150⟩, none⟩,
          Event.queue 0 ⟨SelectCase.release,
            QueueCall.ChangeMessageVisibility ⟨"foo", some "baz1", 1⟩, none⟩,
          Event.released 0 none] ∧
      (1 : Duration) * Second ≠ 1500000000) ∧
    (testConsumer.ConsumeMessages (Script.world cancelledAtOnce) 3 scriptRetryFirst =
        some (Script.run testConsumer cancelledAtOnce 3 scriptRetryFirst) ∧
      (firstBatch (Script.run testConsumer cancelledAtOnce 3 scriptRetryFirst).log).step 0 =
        [Event.handler 0 "qux1" (some (NewRetriableError (2520 * Second))),
          Event.release 0 (some (2520 * Second)),
          Event.queue 0 ⟨SelectCase.done,
            QueueCall.ChangeMessageVisibility ⟨"foo", some "baz1", 0⟩, none⟩,
          Event.released 0 (some (GoError.plain "context canceled"))] ∧
      (∀ e ∈ (firstBatch (Script.run testConsumer cancelledAtOnce 3
          scriptRetryFirst).log).step 1, e.isHandler = false) ∧
      (Script.run testConsumer cancelledAtOnce 3 scriptRetryFirst).err =
        some (GoError.plain "context canceled")) :=
  ⟨⟨rfl, by decide, by decide, by decide⟩, ⟨rfl, by decide, by decide, by decide⟩,
    ⟨rfl, by decide, by decide⟩, ⟨rfl, by decide, by decide, by decide⟩⟩

/-- An instance of the amended C5: in the run of `scriptRetryFirst` the first
message is retried after 2520 seconds and the second one is handled. -/
theorem C5_witness :
    testConsumer.ConsumeMessages (Script.world releaseAfterHeartbeat) 3 scriptRetryFirst =
      some (Script.run testConsumer releaseAfterHeartbeat 3 scriptRetryFirst) ∧
    (2520 * Second : Duration) ≠ 0 ∧
    retryFirstBatch.step 0 =
      [Event.handler 0 "qux1" (some (NewRetriableError (2520 * Second))),
        Event.release 0 (some (2520 * Second)),
        Event.queue 0 ⟨SelectCase.timeAfter,
          QueueCall.ChangeMessageVisibility ⟨"foo", some "baz1", 150⟩, none⟩,
        Event.queue 0 ⟨SelectCase.release,
          QueueCall.ChangeMessageVisibility ⟨"foo", some "baz1", 2520⟩, none⟩,
        Event.released 0 none] ∧
    (∃ msg, retryFirstBatch.messages[0]? = some msg ∧
      Event.release 0 (some (2520 * Second)) ∈ retryFirstBatch.step 0 ∧
      (∃ c err, Event.queue 0 c ∈ retryFirstBatch.step 0 ∧
        (∀ e, Event.released 0 e ∈ retryFirstBatch.step 0 ↔ e = err) ∧
        ((c.via = SelectCase.release ∧ c.call = QueueCall.ChangeMessageVisibility
            ⟨testConsumer.queue, msg.ReceiptHandle, Int.tdiv (2520 * Second) Second⟩ ∧
            c.err = err) ∨
          (c.via = SelectCase.done ∧ c.call = QueueCall.ChangeMessageVisibility
            ⟨testConsumer.queue, msg.ReceiptHandle, 0⟩ ∧
            err = some (Script.world releaseAfterHeartbeat).ctxErr))) ∧
      (∀ c, Event.queue 0 c ∈ retryFirstBatch.step 0 → c.via = SelectCase.release →
        c.call = QueueCall.ChangeMessageVisibility
          ⟨testConsumer.queue, msg.ReceiptHandle, Int.tdiv (2520 * Second) Second⟩) ∧
      (∀ e ∈ retryFirstBatch.step 0, e.isCounted = false) ∧
      (Event.released 0 none ∈ retryFirstBatch.step 0 →
        (∃ c, Event.queue 0 c ∈ retryFirstBatch.step 0 ∧ c.via = SelectCase.release ∧
          c.call = QueueCall.ChangeMessageVisibility
            ⟨testConsumer.queue, msg.ReceiptHandle, Int.tdiv (2520 * Second) Second⟩ ∧
          c.err = none) ∧
        ∀ next, retryFirstBatch.messages[0 + 1]? = some next →
          ∃ step1 err, retryFirstBatch.steps[0 + 1]? = some step1 ∧
            Event.handler (0 + 1) (StringValue next.Body) err ∈ step1)) :=
  ⟨rfl, by decide, by decide,
    C5_retry_after_delay (Script.world releaseAfterHeartbeat) testConsumer 3
      scriptRetryFirst (Script.run testConsumer releaseAfterHeartbeat 3 scriptRetryFirst) rfl
      retryFirstBatch (by decide) 0 0 (retryFirstBatch.step 0) "qux1" (2520 * Second)
      (by decide) (by decide) (by decide)⟩

/-! ## The fatal outcome (C6, C7) -/

theorem findSome?_handlerResult_releaseEvents (i : Nat) (rd : Option Duration)
    (r : Released σ) : (releaseEvents i rd r).findSome? Event.handlerResult = none := by
  rw [List.findSome?_eq_none_iff]
  intro e he
  rw [mem_releaseEvents] at he
  rcases he with he | ⟨_, _, he⟩ | he <;> subst he <;> rfl

theorem findSome?_releaseError_releaseEvents (i : Nat) (rd : Option Duration)
    (r : Released σ) : (releaseEvents i rd r).findSome? Event.releaseError = r.err := by
  have hq : (r.calls.map (Event.queue i)).findSome? Event.releaseError = none := by
    rw [List.findSome?_eq_none_iff]
    intro e he
    simp only [List.mem_map] at he
    obtain ⟨_, _, he⟩ := he
    subst he
    rfl
  rw [releaseEvents, List.findSome?_cons_of_isNone _ (by rfl), List.findSome?_append, hq,
    Option.none_or, List.findSome?_cons]
  cases hr : r.err with
  | none => simp [Event.releaseError, hr]
  | some e => simp [Event.releaseError, hr]

/-- The fatal cause read from the step of a lock is the fatal outcome that the
step records: nothing for a skip, and the outcome of the step otherwise. -/
theorem processLock_fatalCause (w : World σ) (i : Nat) (lock : MessageLock)
    (fe : Option GoError) (c : Nat) (s : σ) (q : Progress σ)
    (h : processLock w i lock fe c s = some q) :
    ∃ step, q.steps = [step] ∧
      ((∃ e, fe = some e ∧ q.firstErr = some e ∧ fatalCause step = none) ∨
        (fe = none ∧ fatalCause step = q.firstErr)) := by
  cases fe with
  | some e =>
    obtain ⟨r, _, hq⟩ := processLock_skip w i lock e c s q h
    subst hq
    refine ⟨_, rfl, Or.inl ⟨e, rfl, rfl, ?_⟩⟩
    simp only [fatalCause, findSome?_handlerResult_releaseEvents]
  | none =>
    obtain ⟨r, _, _, hfe, hcase⟩ := processLock_handle w i lock c s q h
    have key : ∀ (err : Option GoError) (t : List Event),
        t.findSome? Event.releaseError = none →
        fatalCause (Event.handler i (StringValue lock.message.Body) err ::
          releaseEvents i (extractDelay err) r ++ t) =
          (handlerFatal err).orElse (fun _ => r.err) := by
      intro err t ht
      have h1 : (Event.handler i (StringValue lock.message.Body) err ::
          (releaseEvents i (extractDelay err) r ++ t)).findSome? Event.handlerResult
          = some err := by
        rw [List.findSome?_cons_of_isSome _ (by rfl)]; rfl
      have h2 : (Event.handler i (StringValue lock.message.Body) err ::
          (releaseEvents i (extractDelay err) r ++ t)).findSome? Event.releaseError
          = r.err := by
        rw [List.findSome?_cons_of_isNone _ (by rfl), List.findSome?_append,
          findSome?_releaseError_releaseEvents, ht, Option.or_none]
      simp only [fatalCause, List.cons_append, h1, h2]
      cases handlerFatal err <;> rfl
    rcases hcase with ⟨he, _, _, hst⟩ | ⟨_, _, hst⟩
    · refine ⟨_, hst, Or.inr ⟨rfl, ?_⟩⟩
      rw [hfe, he]
      exact key none [Event.counted i] rfl
    · refine ⟨_, hst, Or.inr ⟨rfl, ?_⟩⟩
      rw [hfe]
      have := key (w.handler (StringValue lock.message.Body) s).1 [] rfl
      simpa using this

/-- The fatal outcome of a batch is its first fatal cause in processing order. -/
theorem processLocks_firstFatalCause (w : World σ) :
    ∀ (locks : List MessageLock) (i : Nat) (c : Nat) (s : σ) (p : Progress σ),
      processLocks w i locks none c s = some p → p.firstErr = firstFatalCause p.steps := by
  intro locks
  induction locks with
  | nil =>
    intro i c s p h
    rw [processLocks_nil] at h
    simp only [Option.some.injEq] at h
    subst h
    rfl
  | cons lock locks ih =>
    intro i c s p h
    obtain ⟨q, p1, hq, hp1, hfe, _, _, hst⟩ := processLocks_cons w i lock locks none c s p h
    obtain ⟨step, hqs, hcase⟩ := processLock_fatalCause w i lock none c s q hq
    rcases hcase with ⟨e, he, _⟩ | ⟨_, hfc⟩
    · cases he
    · rw [hfe, hst, hqs]
      simp only [firstFatalCause, List.singleton_append, List.findSome?]
      cases hq1 : q.firstErr with
      | some e =>
        rw [hq1] at hp1 hfc
        rw [hfc, (processLocks_skipped w locks _ e _ _ p1 hp1).1]
      | none =>
        rw [hq1] at hp1 hfc
        rw [hfc]
        exact ih _ _ _ p1 hp1

/-- The error returned by a run, read from its last batch: the error of the
receive call if it failed, and else the first fatal cause of the batch. -/
theorem consumeLoop_err (w : World σ) (m : QueueConsumer) :
    ∀ (fuel c : Nat) (s : σ) (r : Outcome σ), m.consumeLoop w fuel c s = some r →
      ∀ b, r.log.getLast? = some b →
        (∀ e, b.err = some e → r.err = some e ∧ b.steps = []) ∧
        (b.err = none → r.err = firstFatalCause b.steps) := by
  apply consumeLoop_induction w m
    (fun _ _ r => ∀ b, r.log.getLast? = some b →
        (∀ e, b.err = some e → r.err = some e ∧ b.steps = []) ∧
        (b.err = none → r.err = firstFatalCause b.steps))
  · intro c s e _ b hb
    simp only [List.getLast?_singleton, Option.some.injEq] at hb
    subst hb
    simp
  · intro c s _ _ b hb
    simp only [List.getLast?_singleton, Option.some.injEq] at hb
    subst hb
    simp [firstFatalCause]
  · intro c s fuel out _ _ hout ih b hb
    rw [getLast?_cons_of_ne_nil _ _ (consumeLoop_log_ne_nil w m _ _ _ _ hout)] at hb
    exact ih b hb
  · intro c s msgs p e _ _ hp hpe b hb
    simp only [List.getLast?_singleton, Option.some.injEq] at hb
    subst hb
    refine ⟨by simp, fun _ => ?_⟩
    rw [← processLocks_firstFatalCause w _ _ _ _ p hp, hpe]
  · intro c s msgs p fuel out _ _ _ _ hout ih b hb
    rw [getLast?_cons_of_ne_nil _ _ (consumeLoop_log_ne_nil w m _ _ _ _ hout)] at hb
    exact ih b hb

/-- The first value found by `findSome?`: the value of an element before which
no element has a value. -/
theorem findSome?_first {α β : Type} (f : α → Option β) :
    ∀ (l : List α) (k : Nat) (a : α) (v : β), l[k]? = some a → f a = some v →
      (∀ k1 a1, k1 < k → l[k1]? = some a1 → f a1 = none) → l.findSome? f = some v := by
  intro l
  induction l with
  | nil => intro k a v hk; simp at hk
  | cons x l ih =>
    intro k a v hk hv hfirst
    cases k with
    | zero =>
      simp only [List.getElem?_cons_zero, Option.some.injEq] at hk
      subst hk
      simp [List.findSome?, hv]
    | succ k =>
      have hx : f x = none := hfirst 0 x (by omega) (by simp)
      simp only [List.findSome?, hx]
      simp only [List.getElem?_cons_succ] at hk
      apply ih k a v hk hv
      intro k1 a1 hk1 ha1
      exact hfirst (k1 + 1) a1 (by omega) (by simpa using ha1)

/-- The origin of a fatal cause: an error returned by the handler, with an
extracted delay of zero, or the error returned by a release. -/
theorem fatalCause_origin (step : List Event) (e : GoError) (h : fatalCause step = some e) :
    (∃ j body, Event.handler j body (some e) ∈ step ∧ extractDelay (some e) = some 0) ∨
      (∃ j, Event.released j (some e) ∈ step) := by
  simp only [fatalCause] at h
  split at h
  · cases h
  · rename_i err herr
    obtain ⟨ev, hev, hres⟩ := List.exists_of_findSome?_eq_some herr
    split at h
    · rename_i e1 hfat
      simp only [Option.some.injEq] at h
      subst h
      left
      cases ev with
      | handler j body err1 =>
        simp only [Event.handlerResult, Option.some.injEq] at hres
        subst hres
        simp only [handlerFatal] at hfat
        split at hfat
        · cases hfat
        · rename_i d hd
          split at hfat
          · cases hfat
          · rename_i hz
            subst hfat
            refine ⟨j, body, hev, ?_⟩
            rw [hd]
            simpa using hz
      | _ => cases hres
    · right
      obtain ⟨ev2, hev2, hres2⟩ := List.exists_of_findSome?_eq_some h
      cases ev2 with
      | released j err2 =>
        simp only [Event.releaseError] at hres2
        subst hres2
        exact ⟨j, hev2⟩
      | _ => cases hres2

/-- C7: the error that `ConsumeMessages` returns after a batch is the first fatal
cause of the batch in processing order, where the fatal cause of a message whose
handler was called is the fatal error of its handler, or else the error of the
release of its lock, and a skipped message has none: the cause of the first step
that has one is returned, whatever the later steps do. -/
theorem C7_first_fatal_cause_wins (w : World σ) (m : QueueConsumer) (fuel : Nat) (s : σ)
    (r : Outcome σ) (h : m.ConsumeMessages w fuel s = some r) (b : BatchLog)
    (hb : r.log.getLast? = some b) (hok : b.err = none) :
    r.err = firstFatalCause b.steps ∧
      ∀ (k : Nat) (step : List Event) (e : GoError), b.steps[k]? = some step →
        fatalCause step = some e →
        (∀ (k1 : Nat) (step1 : List Event), k1 < k → b.steps[k1]? = some step1 → fatalCause step1 = none) →
        r.err = some e := by
  have h1 := (consumeLoop_err w m fuel 0 s r h b hb).2 hok
  refine ⟨h1, ?_⟩
  intro k step e hk hc hfirst
  rw [h1]
  exact findSome?_first fatalCause b.steps k step e hk hc hfirst

/-- An instance of C7: in the run of `scriptFatalThenReleaseErrors` the error of
the handler is returned although both releases fail after it. -/
theorem C7_witness :
    testConsumer.ConsumeMessages (Script.world releaseAfterHeartbeat) 3
        scriptFatalThenReleaseErrors =
      some (Script.run testConsumer releaseAfterHeartbeat 3 scriptFatalThenReleaseErrors) ∧
    Event.released 0 (some (GoError.plain "first release failed")) ∈
      (firstBatch (Script.run testConsumer releaseAfterHeartbeat 3
        scriptFatalThenReleaseErrors).log).step 0 ∧
    Event.released 1 (some (GoError.plain "second release failed")) ∈
      (firstBatch (Script.run testConsumer releaseAfterHeartbeat 3
        scriptFatalThenReleaseErrors).log).step 1 ∧
    (Script.run testConsumer releaseAfterHeartbeat 3 scriptFatalThenReleaseErrors).err =
      some (GoError.plain "fatal error") ∧
    ((Script.run testConsumer releaseAfterHeartbeat 3 scriptFatalThenReleaseErrors).err =
        firstFatalCause (firstBatch (Script.run testConsumer releaseAfterHeartbeat 3
          scriptFatalThenReleaseErrors).log).steps ∧
      ∀ (k : Nat) (step : List Event) (e : GoError), (firstBatch (Script.run testConsumer releaseAfterHeartbeat 3
          scriptFatalThenReleaseErrors).log).steps[k]? = some step →
        fatalCause step = some e →
        (∀ (k1 : Nat) (step1 : List Event), k1 < k → (firstBatch (Script.run testConsumer releaseAfterHeartbeat 3
          scriptFatalThenReleaseErrors).log).steps[k1]? = some step1 →
          fatalCause step1 = none) →
        (Script.run testConsumer releaseAfterHeartbeat 3 scriptFatalThenReleaseErrors).err
          = some e) :=
  ⟨rfl, by decide, by decide, by decide,
    C7_first_fatal_cause_wins (Script.world releaseAfterHeartbeat) testConsumer 3
      scriptFatalThenReleaseErrors
      (Script.run testConsumer releaseAfterHeartbeat 3 scriptFatalThenReleaseErrors) rfl
      (firstBatch (Script.run testConsumer releaseAfterHeartbeat 3
        scriptFatalThenReleaseErrors).log) (by decide) (by decide)⟩

/-- C6 as stated fails for a delay of zero: one message is received, its handler
returns `RetriableError` with delay 0, the receive call and the release return no
error, and `ConsumeMessages` returns the error of the handler. -/
theorem C6_counterexample :
    testConsumer.ConsumeMessages (Script.world releaseAfterHeartbeat) 3 scriptOnlyRetryZero =
      some (Script.run testConsumer releaseAfterHeartbeat 3 scriptOnlyRetryZero) ∧
    (Script.run testConsumer releaseAfterHeartbeat 3 scriptOnlyRetryZero).log =
      [⟨testConsumer.receiveMessageInput, [testMessage 1], none,
        [NewMessageLock "foo" (150 * Second) (60 * Second) (testMessage 1)],
        [[Event.handler 0 "qux1" (some (NewRetriableError 0)),
          Event.release 0 (some 0),
          Event.queue 0 ⟨SelectCase.timeAfter,
            QueueCall.ChangeMessageVisibility ⟨"foo", some "baz1", 150⟩, none⟩,
          Event.queue 0 ⟨SelectCase.release,
            QueueCall.ChangeMessageVisibility ⟨"foo", some "baz1", 0⟩, none⟩,
          Event.released 0 none]]⟩] ∧
    (Script.run testConsumer releaseAfterHeartbeat 3 scriptOnlyRetryZero).err =
      some (NewRetriableError 0) :=
  ⟨rfl, by decide, by decide⟩

/-- C6, amended: an error returned by `ConsumeMessages` is the error of the last
receive call, or the error returned by a release of the last batch, or an error
returned by a handler of the last batch from which a delay of zero is extracted;
so a `RetriableError` with a delay that is not zero, returned by a handler, is
never returned as such. -/
theorem C6_returned_error_origin (w : World σ) (m : QueueConsumer) (fuel : Nat) (s : σ)
    (r : Outcome σ) (h : m.ConsumeMessages w fuel s = some r) (e : GoError)
    (he : r.err = some e) :
    ∃ b, r.log.getLast? = some b ∧
      (b.err = some e ∨
        ∃ step ∈ b.steps,
          (∃ j body, Event.handler j body (some e) ∈ step ∧ extractDelay (some e) = some 0) ∨
          (∃ j, Event.released j (some e) ∈ step)) := by
  have hne := consumeLoop_log_ne_nil w m fuel 0 s r h
  obtain ⟨b, hb⟩ : ∃ b, r.log.getLast? = some b := by
    cases hl : r.log.getLast? with
    | none => rw [List.getLast?_eq_none_iff] at hl; exact absurd hl hne
    | some b => exact ⟨b, rfl⟩
  obtain ⟨h1, h2⟩ := consumeLoop_err w m fuel 0 s r h b hb
  refine ⟨b, hb, ?_⟩
  cases hbe : b.err with
  | some e1 =>
    left
    have := (h1 e1 hbe).1
    rw [he] at this
    exact this.symm
  | none =>
    right
    have hf := h2 hbe
    rw [he] at hf
    obtain ⟨step, hstep, hc⟩ := List.exists_of_findSome?_eq_some hf.symm
    exact ⟨step, hstep, fatalCause_origin step e hc⟩

/-- An instance of the amended C6: in the run of `scriptRetryReleaseFails` the
error returned is the error of the release, not the `RetriableError`. -/
theorem C6_witness :
    testConsumer.ConsumeMessages (Script.world releaseAfterHeartbeat) 3 scriptRetryReleaseFails =
      some (Script.run testConsumer releaseAfterHeartbeat 3 scriptRetryReleaseFails) ∧
    (Script.run testConsumer releaseAfterHeartbeat 3 scriptRetryReleaseFails).err =
      some (GoError.plain "change failed") ∧
    ∃ b, (Script.run testConsumer releaseAfterHeartbeat 3 scriptRetryReleaseFails).log.getLast?
        = some b ∧
      (b.err = some (GoError.plain "change failed") ∨
        ∃ step ∈ b.steps,
          (∃ j body, Event.handler j body (some (GoError.plain "change failed")) ∈ step ∧
            extractDelay (some (GoError.plain "change failed")) = some 0) ∨
          (∃ j, Event.released j (some (GoError.plain "change failed")) ∈ step)) :=
  ⟨rfl, by decide, C6_returned_error_origin (Script.world releaseAfterHeartbeat) testConsumer 3
    scriptRetryReleaseFails
    (Script.run testConsumer releaseAfterHeartbeat 3 scriptRetryReleaseFails) rfl
    (GoError.plain "change failed") (by decide)⟩

/-! ## The end of the loop (C8, C9, C10) -/

/-- The first batch logged by a run is the result of the receive call made in
the initial state. -/
theorem consumeLoop_head (w : World σ) (m : QueueConsumer) :
    ∀ (fuel c : Nat) (s : σ) (r : Outcome σ), m.consumeLoop w fuel c s = some r →
      ∃ b rest, r.log = b :: rest ∧ b.input = m.receiveMessageInput ∧
        (b.messages, b.err) = (w.ReceiveMessageWithContext m.receiveMessageInput s).1 := by
  apply consumeLoop_induction w m
    (fun _ s r => ∃ b rest, r.log = b :: rest ∧ b.input = m.receiveMessageInput ∧
        (b.messages, b.err) = (w.ReceiveMessageWithContext m.receiveMessageInput s).1)
  · intro c s e he
    exact ⟨_, [], rfl, rfl, by rw [← he]⟩
  · intro c s hr _
    exact ⟨_, [], rfl, rfl, hr.symm⟩
  · intro c s fuel out hr _ _ _
    exact ⟨_, out.log, rfl, rfl, hr.symm⟩
  · intro c s msgs p e hr _ _ _
    exact ⟨_, [], rfl, rfl, hr.symm⟩
  · intro c s msgs p fuel out hr _ _ _ _ _
    exact ⟨_, out.log, rfl, rfl, hr.symm⟩

/-- In a run, a batch with a fatal cause is the last one, and its first fatal
cause is the error returned. -/
theorem consumeLoop_fatal_is_last (w : World σ) (m : QueueConsumer) :
    ∀ (fuel c : Nat) (s : σ) (r : Outcome σ), m.consumeLoop w fuel c s = some r →
      ∀ (i : Nat) (b : BatchLog) (e : GoError), r.log[i]? = some b →
        firstFatalCause b.steps = some e → i + 1 = r.log.length ∧ r.err = some e := by
  apply consumeLoop_induction w m
    (fun _ _ r => ∀ (i : Nat) (b : BatchLog) (e : GoError), r.log[i]? = some b →
        firstFatalCause b.steps = some e → i + 1 = r.log.length ∧ r.err = some e)
  · intro c s e _ i b e1 hb hf
    cases i with
    | zero =>
      simp only [List.getElem?_cons_zero, Option.some.injEq] at hb
      subst hb
      cases hf
    | succ i => simp at hb
  · intro c s _ _ i b e1 hb hf
    cases i with
    | zero =>
      simp only [List.getElem?_cons_zero, Option.some.injEq] at hb
      subst hb
      cases hf
    | succ i => simp at hb
  · intro c s fuel out _ _ _ ih i b e1 hb hf
    cases i with
    | zero =>
      simp only [List.getElem?_cons_zero, Option.some.injEq] at hb
      subst hb
      cases hf
    | succ i =>
      simp only [List.getElem?_cons_succ] at hb
      obtain ⟨h1, h2⟩ := ih i b e1 hb hf
      exact ⟨by simp [h1], h2⟩
  · intro c s msgs p e _ _ hp hpe i b e1 hb hf
    cases i with
    | zero =>
      simp only [List.getElem?_cons_zero, Option.some.injEq] at hb
      subst hb
      simp only at hf
      rw [← processLocks_firstFatalCause w _ _ _ _ p hp, hpe] at hf
      exact ⟨rfl, hf⟩
    | succ i => simp at hb
  · intro c s msgs p fuel out _ _ hp hpe _ ih i b e1 hb hf
    cases i with
    | zero =>
      simp only [List.getElem?_cons_zero, Option.some.injEq] at hb
      subst hb
      simp only at hf
      rw [← processLocks_firstFatalCause w _ _ _ _ p hp, hpe] at hf
      cases hf
    | succ i =>
      simp only [List.getElem?_cons_succ] at hb
      obtain ⟨h1, h2⟩ := ih i b e1 hb hf
      exact ⟨by simp [h1], h2⟩

/-- In a run, a batch whose receive call failed is the last one; it has no lock
and no step, and the error of the receive call is the error returned. -/
theorem consumeLoop_receive_error_is_last (w : World σ) (m : QueueConsumer) :
    ∀ (fuel c : Nat) (s : σ) (r : Outcome σ), m.consumeLoop w fuel c s = some r →
      ∀ (i : Nat) (b : BatchLog) (e : GoError), r.log[i]? = some b → b.err = some e →
        i + 1 = r.log.length ∧ r.err = some e ∧ b.locks = [] ∧ b.steps = [] := by
  apply consumeLoop_induction w m
    (fun _ _ r => ∀ (i : Nat) (b : BatchLog) (e : GoError), r.log[i]? = some b →
        b.err = some e → i + 1 = r.log.length ∧ r.err = some e ∧ b.locks = [] ∧ b.steps = [])
  · intro c s e _ i b e1 hb he
    cases i with
    | zero =>
      simp only [List.getElem?_cons_zero, Option.some.injEq] at hb
      subst hb
      simp only [Option.some.injEq] at he
      subst he
      exact ⟨rfl, rfl, rfl, rfl⟩
    | succ i => simp at hb
  · intro c s _ _ i b e1 hb he
    cases i with
    | zero =>
      simp only [List.getElem?_cons_zero, Option.some.injEq] at hb
      subst hb
      cases he
    | succ i => simp at hb
  · intro c s fuel out _ _ _ ih i b e1 hb he
    cases i with
    | zero =>
      simp only [List.getElem?_cons_zero, Option.some.injEq] at hb
      subst hb
      cases he
    | succ i =>
      simp only [List.getElem?_cons_succ] at hb
      obtain ⟨h1, h2⟩ := ih i b e1 hb he
      exact ⟨by simp [h1], h2⟩
  · intro c s msgs p e _ _ _ _ i b e1 hb he
    cases i with
    | zero =>
      simp only [List.getElem?_cons_zero, Option.some.injEq] at hb
      subst hb
      cases he
    | succ i => simp at hb
  · intro c s msgs p fuel out _ _ _ _ _ ih i b e1 hb he
    cases i with
    | zero =>
      simp only [List.getElem?_cons_zero, Option.some.injEq] at hb
      subst hb
      cases he
    | succ i =>
      simp only [List.getElem?_cons_succ] at hb
      obtain ⟨h1, h2⟩ := ih i b e1 hb he
      exact ⟨by simp [h1], h2⟩

/-- In a run, a batch whose receive call returned no message and no error has no
lock and no step; it is the last one and no error is returned when the `forever`
flag is unset, and it is followed by another batch when the flag is set. -/
theorem consumeLoop_empty_receive (w : World σ) (m : QueueConsumer) :
    ∀ (fuel c : Nat) (s : σ) (r : Outcome σ), m.consumeLoop w fuel c s = some r →
      ∀ (i : Nat) (b : BatchLog), r.log[i]? = some b → b.err = none → b.messages = [] →
        b.locks = [] ∧ b.steps = [] ∧
        (m.forever = false → i + 1 = r.log.length ∧ r.err = none) ∧
        (m.forever = true → i + 1 < r.log.length) := by
  apply consumeLoop_induction w m
    (fun _ _ r => ∀ (i : Nat) (b : BatchLog), r.log[i]? = some b → b.err = none →
        b.messages = [] → b.locks = [] ∧ b.steps = [] ∧
        (m.forever = false → i + 1 = r.log.length ∧ r.err = none) ∧
        (m.forever = true → i + 1 < r.log.length))
  · intro c s e _ i b hb he _
    cases i with
    | zero =>
      simp only [List.getElem?_cons_zero, Option.some.injEq] at hb
      subst hb
      cases he
    | succ i => simp at hb
  · intro c s _ hf i b hb _ _
    cases i with
    | zero =>
      simp only [List.getElem?_cons_zero, Option.some.injEq] at hb
      subst hb
      refine ⟨rfl, rfl, fun _ => ⟨rfl, rfl⟩, ?_⟩
      intro h; rw [hf] at h; cases h
    | succ i => simp at hb
  · intro c s fuel out _ hf hout ih i b hb he hm
    cases i with
    | zero =>
      simp only [List.getElem?_cons_zero, Option.some.injEq] at hb
      subst hb
      refine ⟨rfl, rfl, ?_, fun _ => ?_⟩
      · intro h; rw [hf] at h; cases h
      have := consumeLoop_log_ne_nil w m _ _ _ _ hout
      have : 0 < out.log.length := List.length_pos.mpr this
      simp only [List.length_cons]
      omega
    | succ i =>
      simp only [List.getElem?_cons_succ] at hb
      obtain ⟨h1, h2, h3, h4⟩ := ih i b hb he hm
      refine ⟨h1, h2, fun h => ?_, fun h => ?_⟩
      · exact ⟨by simp [(h3 h).1], (h3 h).2⟩
      · have := h4 h
        simp only [List.length_cons]
        omega
  · intro c s msgs p e _ hne _ _ i b hb _ hm
    cases i with
    | zero =>
      simp only [List.getElem?_cons_zero, Option.some.injEq] at hb
      subst hb
      exact absurd hm hne
    | succ i => simp at hb
  · intro c s msgs p fuel out _ hne _ _ _ ih i b hb he hm
    cases i with
    | zero =>
      simp only [List.getElem?_cons_zero, Option.some.injEq] at hb
      subst hb
      exact absurd hm hne
    | succ i =>
      simp only [List.getElem?_cons_succ] at hb
      obtain ⟨h1, h2, h3, h4⟩ := ih i b hb he hm
      refine ⟨h1, h2, fun h => ?_, fun h => ?_⟩
      · exact ⟨by simp [(h3 h).1], (h3 h).2⟩
      · have := h4 h
        simp only [List.length_cons]
        omega

/-- One iteration of the outer loop when the receive call fails. -/
theorem consumeLoop_succ_fail (w : World σ) (m : QueueConsumer) (fuel c : Nat) (s : σ)
    (e : GoError) (he : (w.ReceiveMessageWithContext m.receiveMessageInput s).1.2 = some e) :
    m.consumeLoop w (fuel + 1) c s =
      some ⟨c, some e, (w.ReceiveMessageWithContext m.receiveMessageInput s).2,
        [⟨m.receiveMessageInput, (w.ReceiveMessageWithContext m.receiveMessageInput s).1.1,
          some e, [], []⟩]⟩ := by
  simp only [QueueConsumer.consumeLoop, he]

/-- One iteration of the outer loop when no message is received. -/
theorem consumeLoop_succ_empty (w : World σ) (m : QueueConsumer) (fuel c : Nat) (s : σ)
    (hr : (w.ReceiveMessageWithContext m.receiveMessageInput s).1 = ([], none)) :
    m.consumeLoop w (fuel + 1) c s =
      if m.forever then
        (m.consumeLoop w fuel c (w.ReceiveMessageWithContext m.receiveMessageInput s).2).map
          fun out => ⟨out.consumed, out.err, out.world,
            ⟨m.receiveMessageInput, [], none, [], []⟩ :: out.log⟩
      else
        some ⟨c, none, (w.ReceiveMessageWithContext m.receiveMessageInput s).2,
          [⟨m.receiveMessageInput, [], none, [], []⟩]⟩ := by
  have h1 : (w.ReceiveMessageWithContext m.receiveMessageInput s).1.1 = [] := by rw [hr]
  have h2 : (w.ReceiveMessageWithContext m.receiveMessageInput s).1.2 = none := by rw [hr]
  simp only [QueueConsumer.consumeLoop, h1, h2]
  split
  · cases m.consumeLoop w fuel c (w.ReceiveMessageWithContext m.receiveMessageInput s).2 <;> rfl
  · rfl

/-- One iteration of the outer loop when messages are received. -/
theorem consumeLoop_succ_batch (w : World σ) (m : QueueConsumer) (fuel c : Nat) (s : σ)
    (msgs : List Message) (p : Progress σ)
    (hr : (w.ReceiveMessageWithContext m.receiveMessageInput s).1 = (msgs, none))
    (hne : msgs ≠ [])
    (hp : processLocks w 0
      (msgs.map (NewMessageLock m.queue m.visibilityTimeout m.heartbeatInterval)) none c
      (w.ReceiveMessageWithContext m.receiveMessageInput s).2 = some p) :
    m.consumeLoop w (fuel + 1) c s =
      match p.firstErr with
      | some e => some ⟨p.consumed, some e, p.world, [⟨m.receiveMessageInput, msgs, none,
          msgs.map (NewMessageLock m.queue m.visibilityTimeout m.heartbeatInterval), p.steps⟩]⟩
      | none =>
        (m.consumeLoop w fuel p.consumed p.world).map fun out =>
          ⟨out.consumed, out.err, out.world, ⟨m.receiveMessageInput, msgs, none,
            msgs.map (NewMessageLock m.queue m.visibilityTimeout m.heartbeatInterval),
            p.steps⟩ :: out.log⟩ := by
  have h1 : (w.ReceiveMessageWithContext m.receiveMessageInput s).1.1 = msgs := by rw [hr]
  have h2 : (w.ReceiveMessageWithContext m.receiveMessageInput s).1.2 = none := by rw [hr]
  cases msgs with
  | nil => exact absurd rfl hne
  | cons msg rest =>
    simp only [QueueConsumer.consumeLoop, h1, h2, hp]
    cases p.firstErr with
    | some e => rfl
    | none =>
      simp only
      cases m.consumeLoop w fuel p.consumed p.world <;> rfl

/-- C8: when the loop over the locks of a batch ends with a fatal outcome `e`
recorded, the loop of `ConsumeMessages` returns at once, whatever the number of
receive calls still allowed: the log holds this batch only, so no other receive
call is issued; the error returned is `e`, the first fatal cause of the batch; and
the count returned is the count `c` accumulated in the earlier batches plus the
number of messages deleted in this batch. -/
theorem C8_fatal_outcome_ends_loop (w : World σ) (m : QueueConsumer) (c : Nat) (s : σ)
    (msgs : List Message) (p : Progress σ) (e : GoError)
    (hr : (w.ReceiveMessageWithContext m.receiveMessageInput s).1 = (msgs, none))
    (hne : msgs ≠ [])
    (hp : processLocks w 0
      (msgs.map (NewMessageLock m.queue m.visibilityTimeout m.heartbeatInterval)) none c
      (w.ReceiveMessageWithContext m.receiveMessageInput s).2 = some p)
    (hfe : p.firstErr = some e) :
    (∀ fuel, m.consumeLoop w (fuel + 1) c s =
      some ⟨p.consumed, some e, p.world, [⟨m.receiveMessageInput, msgs, none,
        msgs.map (NewMessageLock m.queue m.visibilityTimeout m.heartbeatInterval),
        p.steps⟩]⟩) ∧
    firstFatalCause p.steps = some e ∧
    p.consumed = c + p.steps.countP stepDeleted := by
  refine ⟨fun fuel => ?_, ?_, ?_⟩
  · rw [consumeLoop_succ_batch w m fuel c s msgs p hr hne hp, hfe]
  · rw [← processLocks_firstFatalCause w _ _ _ _ p hp, hfe]
  · exact processLocks_count w stepDeleted (processLock_count_deleted w) _ _ _ _ _ p hp

/-- An instance of C8: a batch of two messages, received with a count of 1, in
which the handler fails for the first message. -/
theorem C8_witness :
    ((Script.world releaseAfterHeartbeat).ReceiveMessageWithContext
        testConsumer.receiveMessageInput
        ⟨[([testMessage 3, testMessage 4], none)], [some (GoError.plain "fatal error")],
          [], []⟩).1 = ([testMessage 3, testMessage 4], none) ∧
    (∀ fuel, testConsumer.consumeLoop (Script.world releaseAfterHeartbeat) (fuel + 1) 1
        ⟨[([testMessage 3, testMessage 4], none)], [some (GoError.plain "fatal error")],
          [], []⟩ =
      some ⟨1, some (GoError.plain "fatal error"), ⟨[], [], [], []⟩,
        [⟨testConsumer.receiveMessageInput, [testMessage 3, testMessage 4], none,
          [testMessage 3, testMessage 4].map (NewMessageLock "foo" (150 * Second) (60 * Second)),
          (Script.batch testConsumer releaseAfterHeartbeat 1 [testMessage 3, testMessage 4]
            ⟨[], [some (GoError.plain "fatal error")], [], []⟩).steps⟩]⟩) ∧
    firstFatalCause (Script.batch testConsumer releaseAfterHeartbeat 1
        [testMessage 3, testMessage 4] ⟨[], [some (GoError.plain "fatal error")], [], []⟩).steps
      = some (GoError.plain "fatal error") ∧
    (1 : Nat) = 1 + (Script.batch testConsumer releaseAfterHeartbeat 1
        [testMessage 3, testMessage 4]
        ⟨[], [some (GoError.plain "fatal error")], [], []⟩).steps.countP stepDeleted :=
  ⟨rfl, C8_fatal_outcome_ends_loop (Script.world releaseAfterHeartbeat) testConsumer 1
    ⟨[([testMessage 3, testMessage 4], none)], [some (GoError.plain "fatal error")], [], []⟩
    [testMessage 3, testMessage 4]
    (Script.batch testConsumer releaseAfterHeartbeat 1 [testMessage 3, testMessage 4]
      ⟨[], [some (GoError.plain "fatal error")], [], []⟩)
    (GoError.plain "fatal error") rfl (by decide) rfl rfl⟩

/-- C9: when the receive call returns an error `e`, the loop of `ConsumeMessages`
returns at once, whatever the number of receive calls still allowed, with `e` and
with the count `c` accumulated so far; the log holds this receive call only, with
no lock and no step, so no lock is created, no handler is called and no other
receive call is issued. -/
theorem C9_receive_error_returned (w : World σ) (m : QueueConsumer) (c : Nat) (s : σ)
    (e : GoError) (he : (w.ReceiveMessageWithContext m.receiveMessageInput s).1.2 = some e)
    (fuel : Nat) :
    m.consumeLoop w (fuel + 1) c s =
      some ⟨c, some e, (w.ReceiveMessageWithContext m.receiveMessageInput s).2,
        [⟨m.receiveMessageInput, (w.ReceiveMessageWithContext m.receiveMessageInput s).1.1,
          some e, [], []⟩]⟩ :=
  consumeLoop_succ_fail w m fuel c s e he

/-- An instance of C9: a receive call that fails, with a count of 1. -/
theorem C9_witness :
    ((Script.world releaseAfterHeartbeat).ReceiveMessageWithContext
        testConsumer.receiveMessageInput
        ⟨[([], some (GoError.plain "receive failed"))], [], [], []⟩).1.2 =
      some (GoError.plain "receive failed") ∧
    testConsumer.consumeLoop (Script.world releaseAfterHeartbeat) (0 + 1) 1
        ⟨[([], some (GoError.plain "receive failed"))], [], [], []⟩ =
      some ⟨1, some (GoError.plain "receive failed"), ⟨[], [], [], []⟩,
        [⟨testConsumer.receiveMessageInput, [], some (GoError.plain "receive failed"),
          [], []⟩]⟩ :=
  ⟨rfl, C9_receive_error_returned (Script.world releaseAfterHeartbeat) testConsumer 1
    ⟨[([], some (GoError.plain "receive failed"))], [], [], []⟩
    (GoError.plain "receive failed") rfl 0⟩

/-- C10: when the receive call returns no message and no error: with the
`forever` flag unset, the loop of `ConsumeMessages` returns at once with the count
`c` accumulated so far and no error, and the log holds this receive call only;
with the flag set, the run is the run of the loop from the state after the receive
call with the same count `c`, preceded by a batch with no lock and no step, and a
run that returns has logged a further receive call, made in that state. -/
theorem C10_empty_receive (w : World σ) (m : QueueConsumer) (c : Nat) (s : σ)
    (hr : (w.ReceiveMessageWithContext m.receiveMessageInput s).1 = ([], none))
    (fuel : Nat) :
    (m.forever = false →
      m.consumeLoop w (fuel + 1) c s =
        some ⟨c, none, (w.ReceiveMessageWithContext m.receiveMessageInput s).2,
          [⟨m.receiveMessageInput, [], none, [], []⟩]⟩) ∧
    (m.forever = true →
      m.consumeLoop w (fuel + 1) c s =
        (m.consumeLoop w fuel c (w.ReceiveMessageWithContext m.receiveMessageInput s).2).map
          (fun out => ⟨out.consumed, out.err, out.world,
            ⟨m.receiveMessageInput, [], none, [], []⟩ :: out.log⟩) ∧
      ∀ r, m.consumeLoop w (fuel + 1) c s = some r →
        ∃ b rest, r.log = ⟨m.receiveMessageInput, [], none, [], []⟩ :: b :: rest ∧
          b.input = m.receiveMessageInput ∧
          (b.messages, b.err) = (w.ReceiveMessageWithContext m.receiveMessageInput
            (w.ReceiveMessageWithContext m.receiveMessageInput s).2).1) := by
  have h := consumeLoop_succ_empty w m fuel c s hr
  refine ⟨fun hf => ?_, fun hf => ?_⟩
  · rw [h, hf]; rfl
  · rw [hf] at h
    simp only [if_true] at h
    refine ⟨h, ?_⟩
    intro r hrun
    rw [h] at hrun
    cases hout : m.consumeLoop w fuel c (w.ReceiveMessageWithContext m.receiveMessageInput s).2
      with
    | none => rw [hout] at hrun; cases hrun
    | some out =>
      rw [hout] at hrun
      simp only [Option.map_some', Option.some.injEq] at hrun
      subst hrun
      obtain ⟨b, rest, hlog, hb1, hb2⟩ := consumeLoop_head w m fuel c _ out hout
      exact ⟨b, rest, by simp [hlog], hb1, hb2⟩

/-- An instance of C10: an empty receive with a count of 2, in one-shot mode and
in forever mode. -/
theorem C10_witness :
    (((Script.world releaseAfterHeartbeat).ReceiveMessageWithContext
        testConsumer.receiveMessageInput scriptEmptyFirst).1 = ([], none) ∧
      testConsumer.forever = false ∧
      testConsumer.consumeLoop (Script.world releaseAfterHeartbeat) (0 + 1) 2 scriptEmptyFirst =
        some ⟨2, none, ⟨[([testMessage 0], none)], [none], [], []⟩,
          [⟨testConsumer.receiveMessageInput, [], none, [], []⟩]⟩) ∧
    (((Script.world releaseAfterHeartbeat).ReceiveMessageWithContext
        foreverConsumer.receiveMessageInput scriptEmptyThenFails).1 = ([], none) ∧
      foreverConsumer.forever = true ∧
      foreverConsumer.consumeLoop (Script.world releaseAfterHeartbeat) (1 + 1) 2
          scriptEmptyThenFails =
        some ⟨2, some (GoError.plain "receive failed"), ⟨[], [], [], []⟩,
          [⟨foreverConsumer.receiveMessageInput, [], none, [], []⟩,
            ⟨foreverConsumer.receiveMessageInput, [],
              some (GoError.plain "receive failed"), [], []⟩]⟩) :=
  ⟨⟨rfl, rfl, (C10_empty_receive (Script.world releaseAfterHeartbeat) testConsumer 2
      scriptEmptyFirst rfl 0).1 rfl⟩,
    ⟨rfl, rfl, ((C10_empty_receive (Script.world releaseAfterHeartbeat) foreverConsumer 2
      scriptEmptyThenFails rfl 1).2 rfl).1⟩⟩

/-! ## Cancellation (C11) -/

/-- A call issued by the `done` case in the events of a release: the release
returned the error of the context. -/
theorem releaseEvents_done (w : World σ) (i : Nat) (lock : MessageLock) (rd : Option Duration)
    (s : σ) (r : Released σ) (h : lock.Release w rd s = some r) (n : Nat) (c : LockCall)
    (hc : Event.queue n c ∈ releaseEvents i rd r) (hv : c.via = SelectCase.done) :
    r.err = some w.ctxErr := by
  obtain ⟨beats, last, hcalls, hb, hl⟩ := loop_shape w lock rd _ s r h
  rw [mem_releaseEvents] at hc
  rcases hc with hc | ⟨c2, hc2, hc⟩ | hc
  · cases hc
  · cases hc
    rw [hcalls] at hc2
    simp only [List.mem_append, List.mem_singleton] at hc2
    rcases hc2 with hc2 | hc2
    · rw [(hb c hc2).1] at hv; cases hv
    · subst hc2
      rcases hl with ⟨hv2, _, _⟩ | ⟨_, he, _⟩
      · rw [hv2] at hv; cases hv
      · exact he
  · cases hc

/-- The step of a lock released through the `done` case records a fatal
outcome, which is the error of the context when the handler was called and
recorded none by itself. -/
theorem processLock_done (w : World σ) (i : Nat) (lock : MessageLock) (fe : Option GoError)
    (c : Nat) (s : σ) (q : Progress σ) (h : processLock w i lock fe c s = some q)
    (step : List Event) (hs : q.steps = [step]) (n : Nat) (lc : LockCall)
    (hc : Event.queue n lc ∈ step) (hv : lc.via = SelectCase.done) :
    q.firstErr ≠ none ∧
      ∀ n2 body err, Event.handler n2 body err ∈ step → handlerFatal err = none →
        q.firstErr = some w.ctxErr := by
  cases fe with
  | some e =>
    obtain ⟨r, _, hq⟩ := processLock_skip w i lock e c s q h
    subst hq
    refine ⟨by simp, ?_⟩
    intro n2 body err hm _
    exact absurd (processLock_handler_mem w i lock (some e) c s _ h step hs n2 body err hm).1
      (by simp)
  | none =>
    obtain ⟨r, hr, _, hfe, hcase⟩ := processLock_handle w i lock c s q h
    have hstep : ∃ t, step = Event.handler i (StringValue lock.message.Body)
        (w.handler (StringValue lock.message.Body) s).1 ::
        releaseEvents i (extractDelay (w.handler (StringValue lock.message.Body) s).1) r ++ t ∧
        ∀ e ∈ t, e = Event.counted i := by
      rcases hcase with ⟨he, _, _, hst⟩ | ⟨_, _, hst⟩
      · rw [hst] at hs
        simp only [List.cons.injEq, and_true] at hs
        refine ⟨[Event.counted i], ?_, by simp⟩
        rw [← hs, he]; rfl
      · rw [hst] at hs
        simp only [List.cons.injEq, and_true] at hs
        exact ⟨[], by rw [← hs]; simp, by simp⟩
    obtain ⟨t, hst, ht⟩ := hstep
    have hrerr : r.err = some w.ctxErr := by
      rw [hst] at hc
      simp only [List.cons_append, List.mem_cons, List.mem_append] at hc
      rcases hc with hc | hc | hc
      · cases hc
      · exact releaseEvents_done w i lock _ _ r hr n lc hc hv
      · cases ht _ hc
    refine ⟨?_, ?_⟩
    · rw [hfe, hrerr]
      cases handlerFatal (w.handler (StringValue lock.message.Body) s).1 <;> simp
    · intro n2 body err hm hf
      obtain ⟨_, _, _, herr⟩ := processLock_handler_mem w i lock none c s q h step hs n2 body err hm
      rw [hfe, herr, hf, hrerr]
      rfl

/-- A batch one of whose locks is released through the `done` case ends with a
fatal outcome, which is the error of the context when the handler of that lock
was called and recorded none by itself. -/
theorem processLocks_done (w : World σ) :
    ∀ (locks : List MessageLock) (i : Nat) (fe : Option GoError) (c : Nat) (s : σ)
      (p : Progress σ), processLocks w i locks fe c s = some p →
      ∀ (k : Nat) (step : List Event) (n : Nat) (lc : LockCall), p.steps[k]? = some step →
        Event.queue n lc ∈ step → lc.via = SelectCase.done →
        p.firstErr ≠ none ∧
          ∀ n2 body err, Event.handler n2 body err ∈ step → handlerFatal err = none →
            p.firstErr = some w.ctxErr := by
  intro locks
  induction locks with
  | nil =>
    intro i fe c s p h k step n lc hk
    rw [processLocks_nil] at h
    simp only [Option.some.injEq] at h
    subst h
    simp at hk
  | cons lock locks ih =>
    intro i fe c s p h k step n lc hk hc hv
    obtain ⟨q, p1, hq, hp1, hfe, _, _, hst⟩ := processLocks_cons w i lock locks fe c s p h
    obtain ⟨step0, hqs, _⟩ := processLock_isStep w i lock fe c s q hq
    rw [hst, hqs] at hk
    cases k with
    | zero =>
      simp only [List.singleton_append, List.getElem?_cons_zero, Option.some.injEq] at hk
      subst hk
      obtain ⟨h1, h2⟩ := processLock_done w i lock fe c s q hq _ hqs n lc hc hv
      cases hq1 : q.firstErr with
      | none => exact absurd hq1 h1
      | some e =>
        rw [hq1] at hp1
        have hp := (processLocks_skipped w locks _ e _ _ p1 hp1).1
        refine ⟨by rw [hfe, hp]; simp, ?_⟩
        intro n2 body err hm hf
        rw [hfe, hp, ← hq1]
        exact h2 n2 body err hm hf
    | succ k =>
      simp only [List.singleton_append, List.getElem?_cons_succ] at hk
      rw [hfe]
      exact ih _ _ _ _ p1 hp1 k step n lc hk hc hv

/-- In a run, the first fatal cause of any batch is the error returned. -/
theorem consumeLoop_fatal_returned (w : World σ) (m : QueueConsumer) (fuel c : Nat) (s : σ)
    (r : Outcome σ) (h : m.consumeLoop w fuel c s = some r) (b : BatchLog) (hb : b ∈ r.log)
    (e : GoError) (hf : firstFatalCause b.steps = some e) : r.err = some e := by
  obtain ⟨i, hi⟩ := List.mem_iff_getElem?.mp hb
  exact (consumeLoop_fatal_is_last w m fuel c s r h i b e hi hf).2

/-- In a run, the error of a failed receive call is the error returned. -/
theorem consumeLoop_receive_error_returned (w : World σ) (m : QueueConsumer) (fuel c : Nat)
    (s : σ) (r : Outcome σ) (h : m.consumeLoop w fuel c s = some r) (b : BatchLog)
    (hb : b ∈ r.log) (e : GoError) (he : b.err = some e) : r.err = some e := by
  obtain ⟨i, hi⟩ := List.mem_iff_getElem?.mp hb
  exact (consumeLoop_receive_error_is_last w m fuel c s r h i b e hi he).2.1

/-- C11 as stated fails: two messages are received, the handler fails for the
first one with an error of its own, and the context is cancelled, so that both
locks are released through the `done` case; the error returned is the error of
the handler, not the error of the context. -/
theorem C11_counterexample :
    testConsumer.ConsumeMessages (Script.world cancelledAtOnce) 3 scriptFatal =
      some (Script.run testConsumer cancelledAtOnce 3 scriptFatal) ∧
    (firstBatch (Script.run testConsumer cancelledAtOnce 3 scriptFatal).log).steps =
      [[Event.handler 0 "qux3" (some (GoError.plain "fatal error")),
        Event.release 0 (some 0),
        Event.queue 0 ⟨SelectCase.done,
          QueueCall.ChangeMessageVisibility ⟨"foo", some "baz3", 0⟩, none⟩,
        Event.released 0 (some (GoError.plain "context canceled"))],
       [Event.release 1 (some 0),
        Event.queue 1 ⟨SelectCase.done,
          QueueCall.ChangeMessageVisibility ⟨"foo", some "baz4", 0⟩, none⟩,
        Event.released 1 (some (GoError.plain "context canceled"))]] ∧
    (Script.world cancelledAtOnce).ctxErr = GoError.plain "context canceled" ∧
    (Script.run testConsumer cancelledAtOnce 3 scriptFatal).err =
      some (GoError.plain "fatal error") :=
  ⟨rfl, by decide, rfl, by decide⟩

/-- C11, amended: in every run, when a receive call returns the error of the
context, this error is returned; when a lock of a batch is released through its
`done` case, `ConsumeMessages` returns an error, and this error is the error of
the context when the handler of that lock was called and recorded no fatal
outcome by itself (it returned `nil`, or an error with an extracted delay that
is not zero). -/
theorem C11_cancellation_returned (w : World σ) (m : QueueConsumer) (fuel : Nat) (s : σ)
    (r : Outcome σ) (h : m.ConsumeMessages w fuel s = some r) :
    (∀ b ∈ r.log, b.err = some w.ctxErr → r.err = some w.ctxErr) ∧
    (∀ b ∈ r.log, ∀ (k n : Nat) (step : List Event) (c : LockCall),
      b.steps[k]? = some step → Event.queue n c ∈ step → c.via = SelectCase.done →
      r.err ≠ none ∧
        ∀ n2 body err, Event.handler n2 body err ∈ step → handlerFatal err = none →
          r.err = some w.ctxErr) := by
  refine ⟨fun b hb he => consumeLoop_receive_error_returned w m fuel 0 s r h b hb _ he, ?_⟩
  intro b hb k n step c hk hc hv
  obtain ⟨_, _, c0, s0, p, hp, hsteps⟩ := consumeLoop_steps w m fuel 0 s r h b hb k step hk
  rw [← hsteps] at hk
  obtain ⟨h1, h2⟩ := processLocks_done w b.locks 0 none c0 s0 p hp k step n c hk hc hv
  have hfc := processLocks_firstFatalCause w _ _ _ _ p hp
  rw [hsteps] at hfc
  refine ⟨?_, ?_⟩
  · cases hpe : p.firstErr with
    | none => exact absurd hpe h1
    | some e =>
      rw [hpe] at hfc
      rw [consumeLoop_fatal_returned w m fuel 0 s r h b hb e hfc.symm]
      simp
  · intro n2 body err hm hf
    have := h2 n2 body err hm hf
    rw [this] at hfc
    exact consumeLoop_fatal_returned w m fuel 0 s r h b hb _ hfc.symm

/-- An instance of the amended C11: the handler of the only message succeeds and
its lock is released through the `done` case. -/
theorem C11_witness :
    testConsumer.ConsumeMessages (Script.world cancelledAtOnce) 3 scriptOneSuccess =
      some (Script.run testConsumer cancelledAtOnce 3 scriptOneSuccess) ∧
    (Script.run testConsumer cancelledAtOnce 3 scriptOneSuccess).err =
      some (Script.world cancelledAtOnce).ctxErr ∧
    ((∀ b ∈ (Script.run testConsumer cancelledAtOnce 3 scriptOneSuccess).log,
        b.err = some (Script.world cancelledAtOnce).ctxErr →
        (Script.run testConsumer cancelledAtOnce 3 scriptOneSuccess).err =
          some (Script.world cancelledAtOnce).ctxErr) ∧
      (∀ b ∈ (Script.run testConsumer cancelledAtOnce 3 scriptOneSuccess).log,
        ∀ (k n : Nat) (step : List Event) (c : LockCall),
        b.steps[k]? = some step → Event.queue n c ∈ step → c.via = SelectCase.done →
        (Script.run testConsumer cancelledAtOnce 3 scriptOneSuccess).err ≠ none ∧
          ∀ n2 body err, Event.handler n2 body err ∈ step → handlerFatal err = none →
            (Script.run testConsumer cancelledAtOnce 3 scriptOneSuccess).err =
              some (Script.world cancelledAtOnce).ctxErr)) :=
  ⟨rfl, by decide, C11_cancellation_returned (Script.world cancelledAtOnce) testConsumer 3
    scriptOneSuccess (Script.run testConsumer cancelledAtOnce 3 scriptOneSuccess) rfl⟩

/-! ## The argument of Release (C12) -/

/-- The release made by a step whose handler is called: its argument is the
delay extracted from the handler result, and a fatal handler result is recorded
and not counted. -/
theorem processLock_handled (w : World σ) (i : Nat) (lock : MessageLock) (fe : Option GoError)
    (c : Nat) (s : σ) (q : Progress σ) (h : processLock w i lock fe c s = some q)
    (step : List Event) (hs : q.steps = [step]) (n : Nat) (body : String)
    (err : Option GoError) (hm : Event.handler n body err ∈ step) :
    Event.release i (extractDelay err) ∈ step ∧
      (∀ n2 rd, Event.release n2 rd ∈ step → n2 = i ∧ rd = extractDelay err) ∧
      fatalCause step = q.firstErr ∧
      (∀ e, handlerFatal err = some e →
        q.firstErr = some e ∧ ∀ ev ∈ step, ev.isCounted = false) := by
  obtain ⟨hfe, _, _, herr⟩ := processLock_handler_mem w i lock fe c s q h step hs n body err hm
  subst hfe
  obtain ⟨step1, hs1, hfc⟩ := processLock_fatalCause w i lock none c s q h
  rw [hs] at hs1
  simp only [List.cons.injEq, and_true] at hs1
  subst hs1
  have hfc2 : fatalCause step = q.firstErr := by
    rcases hfc with ⟨_, he, _⟩ | ⟨_, hfc⟩
    · cases he
    · exact hfc
  obtain ⟨r, hr, _, hqfe, hcase⟩ := processLock_handle w i lock c s q h
  rw [herr] at hqfe hcase
  have hrelmem : ∀ (t : List Event), (∀ e ∈ t, e = Event.counted i) →
      step = Event.handler i (StringValue lock.message.Body) err ::
        releaseEvents i (extractDelay err) r ++ t →
      Event.release i (extractDelay err) ∈ step ∧
        ∀ n2 rd, Event.release n2 rd ∈ step → n2 = i ∧ rd = extractDelay err := by
    intro t ht hst
    subst hst
    refine ⟨?_, ?_⟩
    · apply List.mem_append_left
      apply List.mem_cons_of_mem
      rw [mem_releaseEvents]
      exact Or.inl rfl
    · intro n2 rd hmem
      simp only [List.cons_append, List.mem_cons, List.mem_append] at hmem
      rcases hmem with hmem | hmem | hmem
      · cases hmem
      · rw [mem_releaseEvents] at hmem
        rcases hmem with hmem | ⟨_, _, hmem⟩ | hmem
        · cases hmem; exact ⟨rfl, rfl⟩
        · cases hmem
        · cases hmem
      · cases ht _ hmem
  rcases hcase with ⟨he, _, _, hst⟩ | ⟨_, _, hst⟩
  · rw [hst] at hs
    simp only [List.cons.injEq, and_true] at hs
    subst he
    obtain ⟨h1, h2⟩ := hrelmem [Event.counted i] (by simp) (by rw [← hs]; rfl)
    refine ⟨h1, h2, hfc2, ?_⟩
    intro e hf
    simp [handlerFatal, extractDelay] at hf
  · rw [hst] at hs
    simp only [List.cons.injEq, and_true] at hs
    obtain ⟨h1, h2⟩ := hrelmem [] (by simp) (by rw [← hs]; simp)
    refine ⟨h1, h2, hfc2, ?_⟩
    intro e hf
    refine ⟨by rw [hqfe, hf]; rfl, ?_⟩
    intro ev hev
    rw [← hs] at hev
    simp only [List.mem_cons] at hev
    rcases hev with hev | hev
    · subst hev; rfl
    · rw [mem_releaseEvents] at hev
      rcases hev with hev | ⟨_, _, hev⟩ | hev <;> subst hev <;> rfl

/-- A step of a batch whose handler is called. -/
theorem processLocks_handled (w : World σ) :
    ∀ (locks : List MessageLock) (i : Nat) (fe : Option GoError) (c : Nat) (s : σ)
      (p : Progress σ), processLocks w i locks fe c s = some p →
      ∀ (k : Nat) (step : List Event) (n : Nat) (body : String) (err : Option GoError),
        p.steps[k]? = some step → Event.handler n body err ∈ step →
        Event.release (i + k) (extractDelay err) ∈ step ∧
          (∀ n2 rd, Event.release n2 rd ∈ step → n2 = i + k ∧ rd = extractDelay err) ∧
          (∀ e, handlerFatal err = some e →
            fatalCause step = some e ∧ p.firstErr = some e ∧
              ∀ ev ∈ step, ev.isCounted = false) := by
  intro locks
  induction locks with
  | nil =>
    intro i fe c s p h k step n body err hk
    rw [processLocks_nil] at h
    simp only [Option.some.injEq] at h
    subst h
    simp at hk
  | cons lock locks ih =>
    intro i fe c s p h k step n body err hk hm
    obtain ⟨q, p1, hq, hp1, hfe, _, _, hst⟩ := processLocks_cons w i lock locks fe c s p h
    obtain ⟨step0, hqs, _⟩ := processLock_isStep w i lock fe c s q hq
    rw [hst, hqs] at hk
    cases k with
    | zero =>
      simp only [List.singleton_append, List.getElem?_cons_zero, Option.some.injEq] at hk
      subst hk
      obtain ⟨h1, h2, h3, h4⟩ := processLock_handled w i lock fe c s q hq _ hqs n body err hm
      refine ⟨h1, h2, ?_⟩
      intro e hf
      obtain ⟨h5, h6⟩ := h4 e hf
      rw [h5] at hp1 h3
      exact ⟨h3, by rw [hfe, (processLocks_skipped w locks _ e _ _ p1 hp1).1], h6⟩
    | succ k =>
      simp only [List.singleton_append, List.getElem?_cons_succ] at hk
      have hidx : i + (k + 1) = i + 1 + k := by omega
      rw [hidx, hfe]
      exact ih _ _ _ _ p1 hp1 k step n body err hk hm

/-- C12: in every batch of every run, for every message whose handler is called,
the argument of the one call of `Release` on its lock is the delay extracted from
the handler result: it is `nil` exactly when the handler returned `nil`, and it
is a delay of zero when the handler returned an error that is not a
`RetriableError`; in that case this error is the fatal cause of the step and the
error that `ConsumeMessages` returns, and the message is not counted. -/
theorem C12_release_argument_from_handler_result (w : World σ) (m : QueueConsumer)
    (fuel : Nat) (s : σ) (r : Outcome σ) (h : m.ConsumeMessages w fuel s = some r)
    (b : BatchLog) (hb : b ∈ r.log) (j n : Nat) (step : List Event) (body : String)
    (err : Option GoError) (hj : b.steps[j]? = some step)
    (hm : Event.handler n body err ∈ step) :
    ∃ rd, Event.release j rd ∈ step ∧
      (∀ n2 rd2, Event.release n2 rd2 ∈ step → n2 = j ∧ rd2 = rd) ∧
      (rd = none ↔ err = none) ∧
      (∀ e, err = some e → asRetriableError e = none →
        rd = some 0 ∧ fatalCause step = some e ∧ r.err = some e ∧
          ∀ ev ∈ step, ev.isCounted = false) := by
  obtain ⟨_, _, c0, s0, p, hp, hsteps⟩ := consumeLoop_steps w m fuel 0 s r h b hb j step hj
  rw [← hsteps] at hj
  obtain ⟨h1, h2, h3⟩ := processLocks_handled w b.locks 0 none c0 s0 p hp j step n body err hj hm
  simp only [zero_add] at h1 h2
  refine ⟨extractDelay err, h1, h2, extractDelay_eq_none, ?_⟩
  intro e he hne
  subst he
  have hz : extractDelay (some e) = some 0 := by simp [extractDelay, hne, noDelay]
  have hf : handlerFatal (some e) = some e := by simp [handlerFatal, hz]
  obtain ⟨h4, h5, h6⟩ := h3 e hf
  have hfc := processLocks_firstFatalCause w _ _ _ _ p hp
  rw [hsteps, h5] at hfc
  exact ⟨hz, h4, consumeLoop_fatal_returned w m fuel 0 s r h b hb e hfc.symm, h6⟩

/-- An instance of C12: the first message of the run of `scriptFatal`, whose
handler fails. -/
theorem C12_witness :
    testConsumer.ConsumeMessages (Script.world releaseAfterHeartbeat) 3 scriptFatal =
      some (Script.run testConsumer releaseAfterHeartbeat 3 scriptFatal) ∧
    ∃ rd, Event.release 0 rd ∈
        (firstBatch (Script.run testConsumer releaseAfterHeartbeat 3 scriptFatal).log).step 0 ∧
      (∀ n2 rd2, Event.release n2 rd2 ∈
        (firstBatch (Script.run testConsumer releaseAfterHeartbeat 3 scriptFatal).log).step 0 →
        n2 = 0 ∧ rd2 = rd) ∧
      (rd = none ↔ some (GoError.plain "fatal error") = none) ∧
      (∀ e, some (GoError.plain "fatal error") = some e → asRetriableError e = none →
        rd = some 0 ∧
        fatalCause ((firstBatch
          (Script.run testConsumer releaseAfterHeartbeat 3 scriptFatal).log).step 0) = some e ∧
        (Script.run testConsumer releaseAfterHeartbeat 3 scriptFatal).err = some e ∧
        ∀ ev ∈ (firstBatch
          (Script.run testConsumer releaseAfterHeartbeat 3 scriptFatal).log).step 0,
          ev.isCounted = false) :=
  ⟨rfl, C12_release_argument_from_handler_result (Script.world releaseAfterHeartbeat)
    testConsumer 3 scriptFatal (Script.run testConsumer releaseAfterHeartbeat 3 scriptFatal) rfl
    (firstBatch (Script.run testConsumer releaseAfterHeartbeat 3 scriptFatal).log) (by decide)
    0 0 ((firstBatch (Script.run testConsumer releaseAfterHeartbeat 3 scriptFatal).log).step 0)
    "qux3" (some (GoError.plain "fatal error")) (by decide) (by decide)⟩

/-! ## The order of the handler calls (C13) -/

theorem filterMap_handlerBody_releaseEvents (i : Nat) (rd : Option Duration)
    (r : Released σ) : (releaseEvents i rd r).filterMap Event.handlerBody = [] := by
  rw [List.filterMap_eq_nil_iff]
  intro e he
  rw [mem_releaseEvents] at he
  rcases he with he | ⟨_, _, he⟩ | he <;> subst he <;> rfl

/-- The messages passed to the handler in one step: none for a skip, and else
the body of the message of the lock. -/
theorem processLock_bodies (w : World σ) (i : Nat) (lock : MessageLock) (fe : Option GoError)
    (c : Nat) (s : σ) (q : Progress σ) (h : processLock w i lock fe c s = some q) :
    ∃ step, q.steps = [step] ∧
      ((∃ e, fe = some e ∧ q.firstErr = some e ∧ step.filterMap Event.handlerBody = []) ∨
        (fe = none ∧
          step.filterMap Event.handlerBody = [StringValue lock.message.Body])) := by
  cases fe with
  | some e =>
    obtain ⟨r, _, hq⟩ := processLock_skip w i lock e c s q h
    subst hq
    exact ⟨_, rfl, Or.inl ⟨e, rfl, rfl, filterMap_handlerBody_releaseEvents _ _ _⟩⟩
  | none =>
    obtain ⟨r, _, _, _, hcase⟩ := processLock_handle w i lock c s q h
    rcases hcase with ⟨_, _, _, hst⟩ | ⟨_, _, hst⟩
    · refine ⟨_, hst, Or.inr ⟨rfl, ?_⟩⟩
      rw [List.cons_append, List.filterMap_cons_some (by rfl), List.filterMap_append,
        filterMap_handlerBody_releaseEvents]
      rfl
    · refine ⟨_, hst, Or.inr ⟨rfl, ?_⟩⟩
      rw [List.filterMap_cons_some (by rfl), filterMap_handlerBody_releaseEvents]

/-- The messages passed to the handler in a batch are the bodies of the first
locks, in order; none is passed once a fatal outcome is recorded. -/
theorem processLocks_bodies (w : World σ) :
    ∀ (locks : List MessageLock) (i : Nat) (fe : Option GoError) (c : Nat) (s : σ)
      (p : Progress σ), processLocks w i locks fe c s = some p →
      p.steps.flatten.filterMap Event.handlerBody <+:
          locks.map (fun l => StringValue l.message.Body) ∧
        (fe ≠ none → p.steps.flatten.filterMap Event.handlerBody = []) := by
  intro locks
  induction locks with
  | nil =>
    intro i fe c s p h
    rw [processLocks_nil] at h
    simp only [Option.some.injEq] at h
    subst h
    simp
  | cons lock locks ih =>
    intro i fe c s p h
    obtain ⟨q, p1, hq, hp1, _, _, _, hst⟩ := processLocks_cons w i lock locks fe c s p h
    obtain ⟨step, hqs, hcase⟩ := processLock_bodies w i lock fe c s q hq
    obtain ⟨ih1, ih2⟩ := ih _ _ _ _ p1 hp1
    rw [hst, hqs]
    simp only [List.singleton_append, List.flatten_cons, List.filterMap_append, List.map_cons]
    rcases hcase with ⟨e, hfe, hqfe, hnil⟩ | ⟨hfe, hbody⟩
    · have hrest := ih2 (by rw [hqfe]; simp)
      rw [hnil, hrest]
      exact ⟨by simp, fun _ => rfl⟩
    · rw [hbody]
      refine ⟨?_, fun hne => absurd hfe hne⟩
      simpa using ih1

/-- Every step holds the return of the release of its lock. -/
theorem processLock_released (w : World σ) (i : Nat) (lock : MessageLock) (fe : Option GoError)
    (c : Nat) (s : σ) (q : Progress σ) (h : processLock w i lock fe c s = some q) :
    ∃ step, q.steps = [step] ∧ ∃ e, Event.released i e ∈ step := by
  obtain ⟨step, hs, hstep⟩ := processLock_isStep w i lock fe c s q h
  refine ⟨step, hs, ?_⟩
  rcases hstep with ⟨_, r, _, hst⟩ | ⟨_, err, r, _, hst⟩
  · refine ⟨r.err, ?_⟩
    rw [hst, mem_releaseEvents]
    exact Or.inr (Or.inr rfl)
  · refine ⟨r.err, ?_⟩
    rw [hst]
    apply List.mem_append_left
    apply List.mem_cons_of_mem
    rw [mem_releaseEvents]
    exact Or.inr (Or.inr rfl)

/-- In the events of the loop over the locks, from position `i`, a call of the
handler is the call for the lock of position `i`, or it comes after the return
of the release of the lock before its own. -/
theorem processLocks_order (w : World σ) :
    ∀ (locks : List MessageLock) (i : Nat) (fe : Option GoError) (c : Nat) (s : σ)
      (p : Progress σ), processLocks w i locks fe c s = some p →
      ∀ (pre post : List Event) (n : Nat) (body : String) (err : Option GoError),
        p.steps.flatten = pre ++ Event.handler n body err :: post →
        n = i ∨ (i < n ∧ ∃ e, Event.released (n - 1) e ∈ pre) := by
  intro locks
  induction locks with
  | nil =>
    intro i fe c s p h pre post n body err hsplit
    rw [processLocks_nil] at h
    simp only [Option.some.injEq] at h
    subst h
    simp at hsplit
  | cons lock locks ih =>
    intro i fe c s p h pre post n body err hsplit
    obtain ⟨q, p1, hq, hp1, _, _, _, hst⟩ := processLocks_cons w i lock locks fe c s p h
    obtain ⟨step, hqs, e0, he0⟩ := processLock_released w i lock fe c s q hq
    rw [hst, hqs] at hsplit
    simp only [List.singleton_append, List.flatten_cons] at hsplit
    rw [List.append_eq_append_iff] at hsplit
    have hfrom : ∀ (a : List Event), p1.steps.flatten = a ++ Event.handler n body err :: post →
        (∀ x ∈ step, x ∈ pre) → (∀ x ∈ a, x ∈ pre) →
        n = i ∨ (i < n ∧ ∃ e, Event.released (n - 1) e ∈ pre) := by
      intro a ha hstep hsub
      right
      rcases ih _ _ _ _ p1 hp1 a post n body err ha with hn | ⟨hlt, e, he⟩
      · subst hn
        refine ⟨by omega, e0, ?_⟩
        simpa using hstep _ he0
      · exact ⟨by omega, e, hsub _ he⟩
    rcases hsplit with ⟨a, hpre, hrest⟩ | ⟨c1, hstep, hrest⟩
    · apply hfrom a hrest
      · intro x hx; rw [hpre]; exact List.mem_append_left _ hx
      · intro x hx; rw [hpre]; exact List.mem_append_right _ hx
    · cases c1 with
      | nil =>
        simp only [List.nil_append] at hrest
        simp only [List.append_nil] at hstep
        apply hfrom [] (by simpa using hrest.symm)
        · intro x hx; rw [← hstep]; exact hx
        · intro x hx; cases hx
      | cons y c2 =>
        simp only [List.cons_append, List.cons.injEq] at hrest
        left
        have hm : Event.handler n body err ∈ step := by
          rw [hstep, hrest.1]
          simp
        exact (processLock_handler_mem w i lock fe c s q hq step hqs n body err hm).2.1

/-- C13: in every batch of every run, the messages passed to the handler, in the
order of the calls, are a prefix of the bodies of the messages received, in the
order of their receipt; and every call of the handler for a message of position
`j + 1` comes after the return of the release of the lock of the message of
position `j`. -/
theorem C13_handlers_in_receipt_order (w : World σ) (m : QueueConsumer) (fuel : Nat) (s : σ)
    (r : Outcome σ) (h : m.ConsumeMessages w fuel s = some r) (b : BatchLog)
    (hb : b ∈ r.log) :
    b.events.filterMap Event.handlerBody <+: b.messages.map (fun msg => StringValue msg.Body) ∧
    ∀ (pre post : List Event) (j : Nat) (body : String) (err : Option GoError),
      b.events = pre ++ Event.handler (j + 1) body err :: post →
      ∃ e, Event.released j e ∈ pre := by
  have hlocks : (b.locks.enum.map fun p => Event.lock p.1 p.2).filterMap Event.handlerBody
      = [] := by
    rw [List.filterMap_eq_nil_iff]
    intro e he
    simp only [List.mem_map] at he
    obtain ⟨_, _, he⟩ := he
    subst he
    rfl
  obtain ⟨_, hcase⟩ := consumeLoop_batch w m fuel 0 s r h b hb
  have hp : (∃ c0 s0 p, processLocks w 0 b.locks none c0 s0 = some p ∧ p.steps = b.steps ∧
      b.locks.map (fun l => StringValue l.message.Body) =
        b.messages.map (fun msg => StringValue msg.Body)) ∨
      (b.locks = [] ∧ b.steps = []) := by
    rcases hcase with ⟨_, h1, h2⟩ | ⟨_, _, hl, c0, s0, p, hp, hs⟩
    · exact Or.inr ⟨h1, h2⟩
    · refine Or.inl ⟨c0, s0, p, hp, hs, ?_⟩
      rw [hl, List.map_map]
      rfl
  refine ⟨?_, ?_⟩
  · simp only [BatchLog.events, List.filterMap_cons, Event.handlerBody, List.filterMap_append,
      hlocks, List.nil_append]
    rcases hp with ⟨c0, s0, p, hp, hs, hbodies⟩ | ⟨_, hs⟩
    · rw [← hs, ← hbodies]
      exact (processLocks_bodies w b.locks 0 none c0 s0 p hp).1
    · rw [hs]
      simp
  · intro pre post j body err hsplit
    simp only [BatchLog.events] at hsplit
    cases pre with
    | nil => simp at hsplit
    | cons x pre1 =>
      simp only [List.cons_append, List.cons.injEq] at hsplit
      obtain ⟨_, hsplit⟩ := hsplit
      rw [List.append_eq_append_iff] at hsplit
      have hfrom : ∀ (a : List Event),
          b.steps.flatten = a ++ Event.handler (j + 1) body err :: post →
          (∀ y ∈ a, y ∈ pre1) → ∃ e, Event.released j e ∈ x :: pre1 := by
        intro a ha hsub
        rcases hp with ⟨c0, s0, p, hp, hs, _⟩ | ⟨_, hs⟩
        · rw [← hs] at ha
          rcases processLocks_order w b.locks 0 none c0 s0 p hp a post (j + 1) body err ha
            with hn | ⟨_, e, he⟩
          · omega
          · exact ⟨e, List.mem_cons_of_mem _ (hsub _ (by simpa using he))⟩
        · rw [hs] at ha
          simp at ha
      rcases hsplit with ⟨a, hpre, hrest⟩ | ⟨c1, hlk, hrest⟩
      · apply hfrom a hrest
        intro y hy; rw [hpre]; exact List.mem_append_right _ hy
      · cases c1 with
        | nil =>
          simp only [List.nil_append] at hrest
          exact hfrom [] (by simpa using hrest.symm) (by intro y hy; cases hy)
        | cons y c2 =>
          simp only [List.cons_append, List.cons.injEq] at hrest
          exfalso
          have hm : Event.handler (j + 1) body err ∈
              b.locks.enum.map fun p => Event.lock p.1 p.2 := by
            rw [hlk, hrest.1]
            simp
          simp only [List.mem_map] at hm
          obtain ⟨_, _, hm⟩ := hm
          cases hm

/-- An instance of C13: the batch of the run of `scriptRetryFirst`, in which both
messages are handled. -/
theorem C13_witness :
    testConsumer.ConsumeMessages (Script.world releaseAfterHeartbeat) 3 scriptRetryFirst =
      some (Script.run testConsumer releaseAfterHeartbeat 3 scriptRetryFirst) ∧
    retryFirstBatch.events.filterMap Event.handlerBody = ["qux1", "qux2"] ∧
    (retryFirstBatch.events.filterMap Event.handlerBody <+:
        retryFirstBatch.messages.map (fun msg => StringValue msg.Body) ∧
      ∀ (pre post : List Event) (j : Nat) (body : String) (err : Option GoError),
        retryFirstBatch.events = pre ++ Event.handler (j + 1) body err :: post →
        ∃ e, Event.released j e ∈ pre) :=
  ⟨rfl, by decide, C13_handlers_in_receipt_order (Script.world releaseAfterHeartbeat)
    testConsumer 3 scriptRetryFirst
    (Script.run testConsumer releaseAfterHeartbeat 3 scriptRetryFirst) rfl retryFirstBatch
    (by decide)⟩

/-! ## Release is called once on every lock (C14) -/

/-- The calls and returns of `Release` in one step: one call, for the lock of the
step, one return, no creation of a lock and no receive call. -/
theorem isStep_release_once (w : World σ) (j : Nat) (lock : MessageLock) (step : List Event)
    (h : IsStep w j lock step) :
    step.countP Event.isRelease = 1 ∧ (∀ n rd, Event.release n rd ∈ step → n = j) ∧
      step.countP Event.isReturn = 1 ∧ step.countP Event.isLock = 0 ∧
      ∀ e ∈ step, e.isReceive = false := by
  have hq : ∀ (l : List LockCall) (f : Event → Bool), (∀ c, f (Event.queue j c) = false) →
      (l.map (Event.queue j)).countP f = 0 := by
    intro l f hf
    rw [List.countP_eq_zero]
    intro e he
    simp only [List.mem_map] at he
    obtain ⟨c, _, he⟩ := he
    subst he
    simp [hf c]
  have hrel : ∀ (rd : Option Duration) (r : Released σ),
      (releaseEvents j rd r).countP Event.isRelease = 1 ∧
        (∀ n rd2, Event.release n rd2 ∈ releaseEvents j rd r → n = j) ∧
        (releaseEvents j rd r).countP Event.isReturn = 1 ∧
        (releaseEvents j rd r).countP Event.isLock = 0 ∧
        ∀ e ∈ releaseEvents j rd r, e.isReceive = false := by
    intro rd r
    refine ⟨?_, ?_, ?_, ?_, ?_⟩
    · simp only [releaseEvents, List.countP_cons, List.countP_append, List.countP_nil,
        hq r.calls Event.isRelease (fun _ => rfl), Event.isRelease]
      simp
    · intro n rd2 hm
      rw [mem_releaseEvents] at hm
      rcases hm with hm | ⟨_, _, hm⟩ | hm
      · cases hm; rfl
      · cases hm
      · cases hm
    · simp only [releaseEvents, List.countP_cons, List.countP_append, List.countP_nil,
        hq r.calls Event.isReturn (fun _ => rfl), Event.isReturn]
      simp
    · simp only [releaseEvents, List.countP_cons, List.countP_append, List.countP_nil,
        hq r.calls Event.isLock (fun _ => rfl), Event.isLock]
      simp
    · intro e he
      rw [mem_releaseEvents] at he
      rcases he with he | ⟨_, _, he⟩ | he <;> subst he <;> rfl
  rcases h with ⟨_, r, _, hst⟩ | ⟨_, err, r, _, hst⟩
  · subst hst
    exact hrel _ r
  · obtain ⟨h1, h2, h3, h4, h5⟩ := hrel (extractDelay err) r
    have ht : ∀ e ∈ (if err = none ∧ r.err = none then [Event.counted j] else []),
        e = Event.counted j := by
      intro e he
      split at he
      · simpa using he
      · cases he
    have htc : ∀ (f : Event → Bool), f (Event.counted j) = false →
        (if err = none ∧ r.err = none then [Event.counted j] else []).countP f = 0 := by
      intro f hf
      rw [List.countP_eq_zero]
      intro e he
      rw [ht e he, hf]
      simp
    subst hst
    refine ⟨?_, ?_, ?_, ?_, ?_⟩
    · rw [List.countP_append, List.countP_cons, h1, htc _ rfl]
      rfl
    · intro n rd hm
      simp only [List.mem_append, List.mem_cons] at hm
      rcases hm with (hm | hm) | hm
      · cases hm
      · exact h2 n rd hm
      · cases ht _ hm
    · rw [List.countP_append, List.countP_cons, h3, htc _ rfl]
      rfl
    · rw [List.countP_append, List.countP_cons, h4, htc _ rfl]
      rfl
    · intro e he
      simp only [List.mem_append, List.mem_cons] at he
      rcases he with (he | he) | he
      · subst he; rfl
      · exact h5 e he
      · rw [ht e he]; rfl

/-- Every step of a batch of a run is the step of one of its locks, and there
are as many steps as locks. -/
theorem consumeLoop_steps_isStep (w : World σ) (m : QueueConsumer) (fuel c : Nat) (s : σ)
    (r : Outcome σ) (h : m.consumeLoop w fuel c s = some r) (b : BatchLog) (hb : b ∈ r.log) :
    b.steps.length = b.locks.length ∧
      (∀ (j : Nat) (lock : MessageLock), b.locks[j]? = some lock →
        ∃ step, b.steps[j]? = some step ∧ IsStep w j lock step) ∧
      ∀ step ∈ b.steps, ∃ j lock, IsStep w j lock step := by
  obtain ⟨_, hcase⟩ := consumeLoop_batch w m fuel c s r h b hb
  rcases hcase with ⟨_, hl, hs⟩ | ⟨_, _, _, c0, s0, p, hp, hs⟩
  · rw [hl, hs]
    simp
  · obtain ⟨hlen, hall⟩ := processLocks_isStep w b.locks 0 none c0 s0 p hp
    rw [hs] at hlen hall
    refine ⟨hlen, ?_, ?_⟩
    · intro j lock hj
      obtain ⟨step, h1, h2⟩ := hall j lock hj
      exact ⟨step, h1, by simpa using h2⟩
    · intro step hstep
      obtain ⟨j, hj⟩ := List.mem_iff_getElem?.mp hstep
      have hlt : j < b.locks.length := by
        rw [← hlen]
        exact (List.getElem?_eq_some_iff.mp hj).1
      obtain ⟨step1, h1, h2⟩ := hall j b.locks[j] (List.getElem?_eq_getElem hlt)
      rw [hj] at h1
      simp only [Option.some.injEq] at h1
      subst h1
      exact ⟨_, _, h2⟩

theorem countP_flatten_of_forall {α : Type} (f : α → Bool) (n : Nat) :
    ∀ (L : List (List α)), (∀ l ∈ L, l.countP f = n) → L.flatten.countP f = n * L.length := by
  intro L
  induction L with
  | nil => intro _; simp
  | cons l L ih =>
    intro hL
    rw [List.flatten_cons, List.countP_append, hL l (by simp),
      ih (fun x hx => hL x (List.mem_cons_of_mem _ hx)), List.length_cons]
    ring

/-- In the events of a batch of a run, as many locks are created as releases
return, and the receive call is the first event and the only one. -/
theorem consumeLoop_batch_balanced (w : World σ) (m : QueueConsumer) (fuel c : Nat) (s : σ)
    (r : Outcome σ) (h : m.consumeLoop w fuel c s = some r) (b : BatchLog) (hb : b ∈ r.log) :
    b.events.countP Event.isLock = b.events.countP Event.isReturn ∧
      ∃ x t, b.events = x :: t ∧ x.isReceive = true ∧ ∀ y ∈ t, ¬ y.isReceive = true := by
  obtain ⟨hlen, _, hsteps⟩ := consumeLoop_steps_isStep w m fuel c s r h b hb
  have hlk1 : (b.locks.enum.map fun p => Event.lock p.1 p.2).countP Event.isLock
      = b.locks.length := by
    rw [List.countP_eq_length.mpr, List.length_map, List.enum_length]
    intro e he
    simp only [List.mem_map] at he
    obtain ⟨_, _, he⟩ := he
    subst he
    rfl
  have hlk2 : (b.locks.enum.map fun p => Event.lock p.1 p.2).countP Event.isReturn = 0 := by
    rw [List.countP_eq_zero]
    intro e he
    simp only [List.mem_map] at he
    obtain ⟨_, _, he⟩ := he
    subst he
    simp [Event.isReturn]
  have hst1 : b.steps.flatten.countP Event.isLock = 0 := by
    have := countP_flatten_of_forall Event.isLock 0 b.steps (fun step hstep => by
      obtain ⟨j, lock, hjs⟩ := hsteps step hstep
      exact (isStep_release_once w j lock step hjs).2.2.2.1)
    simpa using this
  have hst2 : b.steps.flatten.countP Event.isReturn = b.steps.length := by
    have := countP_flatten_of_forall Event.isReturn 1 b.steps (fun step hstep => by
      obtain ⟨j, lock, hjs⟩ := hsteps step hstep
      exact (isStep_release_once w j lock step hjs).2.2.1)
    simpa using this
  refine ⟨?_, _, _, rfl, rfl, ?_⟩
  · simp only [BatchLog.events, List.countP_cons, List.countP_append, hlk1, hlk2, hst1, hst2,
      Event.isLock, Event.isReturn, hlen]
    simp
  · intro y hy
    simp only [List.mem_append, List.mem_map, List.mem_flatten] at hy
    rcases hy with ⟨_, _, hy⟩ | ⟨step, hstep, hy⟩
    · subst hy
      simp [Event.isReceive]
    · obtain ⟨j, lock, hjs⟩ := hsteps step hstep
      rw [(isStep_release_once w j lock step hjs).2.2.2.2 y hy]
      simp

/-- In a list of blocks that each start with a head and hold no other head, the
events before any head are the events of the first blocks. -/
theorem flatten_split_at_head {α : Type} (isHead : α → Bool) :
    ∀ (L : List (List α)),
      (∀ l ∈ L, ∃ x t, l = x :: t ∧ isHead x = true ∧ ∀ y ∈ t, ¬ isHead y = true) →
      ∀ (pre post : List α) (x : α), isHead x = true → L.flatten = pre ++ x :: post →
        ∃ k, pre = (L.take k).flatten := by
  intro L
  induction L with
  | nil =>
    intro _ pre post x _ h
    simp at h
  | cons l L ih =>
    intro hL pre post x hx h
    obtain ⟨y, t, hl, _, ht⟩ := hL l (by simp)
    have hL2 : ∀ l2 ∈ L, ∃ x t, l2 = x :: t ∧ isHead x = true ∧ ∀ y ∈ t, ¬ isHead y = true :=
      fun l2 h2 => hL l2 (List.mem_cons_of_mem _ h2)
    cases pre with
    | nil => exact ⟨0, by simp⟩
    | cons z pre1 =>
      subst hl
      simp only [List.flatten_cons, List.cons_append, List.cons.injEq] at h
      obtain ⟨hz, h⟩ := h
      subst hz
      rw [List.append_eq_append_iff] at h
      rcases h with ⟨a, hpre, hrest⟩ | ⟨c1, ht2, hrest⟩
      · obtain ⟨k, hk⟩ := ih hL2 a post x hx hrest
        refine ⟨k + 1, ?_⟩
        rw [hpre, hk]
        simp
      · cases c1 with
        | nil =>
          refine ⟨1, ?_⟩
          simp only [List.append_nil] at ht2
          rw [ht2]
          simp
        | cons u c2 =>
          simp only [List.cons_append, List.cons.injEq] at hrest
          exfalso
          apply ht x _ hx
          rw [ht2, hrest.1]
          simp

theorem countP_flatten_eq_of_forall {α : Type} (f g : α → Bool) :
    ∀ (L : List (List α)), (∀ l ∈ L, l.countP f = l.countP g) →
      L.flatten.countP f = L.flatten.countP g := by
  intro L
  induction L with
  | nil => intro _; rfl
  | cons l L ih =>
    intro hL
    rw [List.flatten_cons, List.countP_append, List.countP_append, hL l (by simp),
      ih (fun x hx => hL x (List.mem_cons_of_mem _ hx))]

/-- C14: in every run, every batch has one step for each of its locks, and the
step of a lock holds exactly one call of `Release`, which is a call on that lock,
and exactly one return of `Release`; and at every receive call of the run, as at
its end, as many locks have been created as releases have returned. -/
theorem C14_release_once_per_lock (w : World σ) (m : QueueConsumer) (fuel : Nat) (s : σ)
    (r : Outcome σ) (h : m.ConsumeMessages w fuel s = some r) :
    (∀ b ∈ r.log, b.steps.length = b.locks.length ∧
      ∀ (j : Nat) (lock : MessageLock), b.locks[j]? = some lock →
        ∃ step, b.steps[j]? = some step ∧ step.countP Event.isRelease = 1 ∧
          (∀ n rd, Event.release n rd ∈ step → n = j) ∧
          step.countP Event.isReturn = 1) ∧
    (logEvents r.log).countP Event.isLock = (logEvents r.log).countP Event.isReturn ∧
    ∀ (pre post : List Event) input msgs e,
      logEvents r.log = pre ++ Event.receive input msgs e :: post →
      pre.countP Event.isLock = pre.countP Event.isReturn := by
  have hbal : ∀ l ∈ r.log.map BatchLog.events,
      l.countP Event.isLock = l.countP Event.isReturn ∧
        ∃ x t, l = x :: t ∧ x.isReceive = true ∧ ∀ y ∈ t, ¬ y.isReceive = true := by
    intro l hl
    simp only [List.mem_map] at hl
    obtain ⟨b, hb, hl⟩ := hl
    subst hl
    exact consumeLoop_batch_balanced w m fuel 0 s r h b hb
  refine ⟨?_, ?_, ?_⟩
  · intro b hb
    obtain ⟨hlen, hall, _⟩ := consumeLoop_steps_isStep w m fuel 0 s r h b hb
    refine ⟨hlen, ?_⟩
    intro j lock hj
    obtain ⟨step, hs, hstep⟩ := hall j lock hj
    obtain ⟨h1, h2, h3, _⟩ := isStep_release_once w j lock step hstep
    exact ⟨step, hs, h1, h2, h3⟩
  · exact countP_flatten_eq_of_forall _ _ _ (fun l hl => (hbal l hl).1)
  · intro pre post input msgs e hsplit
    obtain ⟨k, hk⟩ := flatten_split_at_head Event.isReceive (r.log.map BatchLog.events)
      (fun l hl => (hbal l hl).2) pre post (Event.receive input msgs e) rfl hsplit
    rw [hk]
    apply countP_flatten_eq_of_forall
    intro l hl
    exact (hbal l (List.mem_of_mem_take hl)).1

/-- An instance of C14: the run of `scriptFatal`, in which one message is handled
and one is skipped. -/
theorem C14_witness :
    testConsumer.ConsumeMessages (Script.world releaseAfterHeartbeat) 3 scriptFatal =
      some (Script.run testConsumer releaseAfterHeartbeat 3 scriptFatal) ∧
    (logEvents (Script.run testConsumer releaseAfterHeartbeat 3 scriptFatal).log).countP
      Event.isLock = 2 ∧
    ((∀ b ∈ (Script.run testConsumer releaseAfterHeartbeat 3 scriptFatal).log,
        b.steps.length = b.locks.length ∧
        ∀ (j : Nat) (lock : MessageLock), b.locks[j]? = some lock →
          ∃ step, b.steps[j]? = some step ∧ step.countP Event.isRelease = 1 ∧
            (∀ n rd, Event.release n rd ∈ step → n = j) ∧
            step.countP Event.isReturn = 1) ∧
      (logEvents (Script.run testConsumer releaseAfterHeartbeat 3 scriptFatal).log).countP
          Event.isLock =
        (logEvents (Script.run testConsumer releaseAfterHeartbeat 3 scriptFatal).log).countP
          Event.isReturn ∧
      ∀ (pre post : List Event) input msgs e,
        logEvents (Script.run testConsumer releaseAfterHeartbeat 3 scriptFatal).log =
          pre ++ Event.receive input msgs e :: post →
        pre.countP Event.isLock = pre.countP Event.isReturn) :=
  ⟨rfl, by decide, C14_release_once_per_lock (Script.world releaseAfterHeartbeat) testConsumer 3
    scriptFatal (Script.run testConsumer releaseAfterHeartbeat 3 scriptFatal) rfl⟩

/-! ## The loop of a lock (C15 to C19) -/

/-- The loop of a lock with a pending request returns as soon as a case other
than the timer fires. -/
theorem loop_returns (w : World σ) (l : MessageLock) (req : releaseRequest) :
    ∀ (sched : List SelectCase) (s : σ), (∃ c ∈ sched, c ≠ SelectCase.timeAfter) →
      ∃ r, l.loop w (some req) sched s = some r := by
  intro sched
  induction sched with
  | nil => intro s h; simp at h
  | cons sc rest ih =>
    intro s h
    cases sc with
    | release =>
      cases hrd : req.retryDelay with
      | none => simp only [MessageLock.loop, hrd]; exact ⟨_, rfl⟩
      | some d => simp only [MessageLock.loop, hrd]; exact ⟨_, rfl⟩
    | done => simp only [MessageLock.loop]; exact ⟨_, rfl⟩
    | timeAfter =>
      obtain ⟨c, hc, hne⟩ := h
      simp only [List.mem_cons] at hc
      rcases hc with hc | hc
      · exact absurd hc hne
      · obtain ⟨r, hr⟩ := ih (l.changeMessageVisibility w l.visibilityTimeout s).2 ⟨c, hc, hne⟩
        simp only [MessageLock.loop, hr]
        exact ⟨_, rfl⟩

/-- C15: for every sequence of `select` cases in which a case other than the timer
fires, the loop of a lock on which `Release` is called returns after issuing
exactly one call that is not a heartbeat: a call of the `release` case, which is
the `DeleteMessage` or the `ChangeMessageVisibility` requested, or a call of the
`done` case, which is a `ChangeMessageVisibility` with a timeout of zero; and no
heartbeat is a `DeleteMessage`. -/
theorem C15_exactly_one_terminal_call (w : World σ) (l : MessageLock) (rd : Option Duration)
    (sched : List SelectCase) (s : σ) (h : ∃ c ∈ sched, c ≠ SelectCase.timeAfter) :
    ∃ r, l.loop w (some ⟨rd⟩) sched s = some r ∧
      r.calls.countP LockCall.isTerminal = 1 ∧
      (∀ c ∈ r.calls, c.isDelete = true → c.isTerminal = true) ∧
      r.calls.countP LockCall.isDelete ≤ 1 ∧
      ∀ c ∈ r.calls, c.isTerminal = true →
        (c.via = SelectCase.release ∧ c.call =
          (match rd with
            | none => QueueCall.DeleteMessage l.deleteMessageInput
            | some d => QueueCall.ChangeMessageVisibility (l.changeMessageVisibilityInput d))) ∨
        (c.via = SelectCase.done ∧ c.call =
          QueueCall.ChangeMessageVisibility (l.changeMessageVisibilityInput 0)) := by
  obtain ⟨r, hr⟩ := loop_returns w l ⟨rd⟩ sched s h
  obtain ⟨beats, last, hc, hb, hl⟩ := loop_shape w l rd sched s r hr
  obtain ⟨hd1, hd2, _⟩ := loop_delete w l rd sched s r hr
  have hbeats : beats.countP LockCall.isTerminal = 0 := by
    rw [List.countP_eq_zero]
    intro c hcm
    simp [LockCall.isTerminal, (hb c hcm).1]
  have hlast : last.isTerminal = true := by
    rcases hl with ⟨hv, _, _⟩ | ⟨hv, _, _⟩ <;> simp [LockCall.isTerminal, hv]
  refine ⟨r, hr, ?_, ?_, hd1, ?_⟩
  · rw [hc, List.countP_append, hbeats]
    simp [hlast]
  · intro c hcm hdel
    rw [(hd2 c hcm hdel).2]
    rfl
  · intro c hcm ht
    rw [hc] at hcm
    simp only [List.mem_append, List.mem_singleton] at hcm
    rcases hcm with hcm | hcm
    · simp [LockCall.isTerminal, (hb c hcm).1] at ht
    · subst hcm
      rcases hl with ⟨hv, _, hcall⟩ | ⟨hv, _, hcall⟩
      · exact Or.inl ⟨hv, hcall⟩
      · exact Or.inr ⟨hv, hcall⟩

/-- An instance of C15: two heartbeats, then the release request and the
cancellation, of which the release request is taken. -/
theorem C15_witness :
    (∃ c ∈ [SelectCase.timeAfter, SelectCase.timeAfter, SelectCase.release, SelectCase.done],
      c ≠ SelectCase.timeAfter) ∧
    ∃ r, testLock.loop (Script.world releaseAfterHeartbeat) (some ⟨none⟩)
        [SelectCase.timeAfter, SelectCase.timeAfter, SelectCase.release, SelectCase.done]
        ⟨[], [], [], []⟩ = some r ∧
      r.calls.countP LockCall.isTerminal = 1 ∧
      (∀ c ∈ r.calls, c.isDelete = true → c.isTerminal = true) ∧
      r.calls.countP LockCall.isDelete ≤ 1 ∧
      ∀ c ∈ r.calls, c.isTerminal = true →
        (c.via = SelectCase.release ∧ c.call =
          QueueCall.DeleteMessage testLock.deleteMessageInput) ∨
        (c.via = SelectCase.done ∧ c.call =
          QueueCall.ChangeMessageVisibility (testLock.changeMessageVisibilityInput 0)) :=
  ⟨⟨SelectCase.release, by decide, by decide⟩,
    C15_exactly_one_terminal_call (Script.world releaseAfterHeartbeat) testLock none
      [SelectCase.timeAfter, SelectCase.timeAfter, SelectCase.release, SelectCase.done]
      ⟨[], [], [], []⟩ ⟨SelectCase.release, by decide, by decide⟩⟩

/-- The loop of a lock whose context is not cancelled: heartbeats, then the call
requested, made in the state that the heartbeats leave, whose error is the error
sent to `Release`. -/
theorem loop_release_path (w : World σ) (l : MessageLock) (rd : Option Duration) :
    ∀ (sched : List SelectCase) (s : σ), SelectCase.done ∉ sched →
      SelectCase.release ∈ sched →
      ∃ r beats s1, l.loop w (some ⟨rd⟩) sched s = some r ∧
        (∀ c ∈ beats, c.via = SelectCase.timeAfter) ∧
        (rd = none → r.err = (w.DeleteMessage l.deleteMessageInput s1).1 ∧
          r.calls = beats ++ [⟨SelectCase.release,
            QueueCall.DeleteMessage l.deleteMessageInput, r.err⟩]) ∧
        (∀ d, rd = some d →
          r.err = (w.ChangeMessageVisibility (l.changeMessageVisibilityInput d) s1).1 ∧
          r.calls = beats ++ [⟨SelectCase.release,
            QueueCall.ChangeMessageVisibility (l.changeMessageVisibilityInput d), r.err⟩]) := by
  intro sched
  induction sched with
  | nil => intro s _ h; simp at h
  | cons sc rest ih =>
    intro s hnd hrel
    cases sc with
    | release =>
      cases rd with
      | none =>
        simp only [MessageLock.loop]
        refine ⟨_, [], s, rfl, by simp, fun _ => ⟨rfl, rfl⟩, ?_⟩
        intro d hd; cases hd
      | some d =>
        simp only [MessageLock.loop]
        refine ⟨_, [], s, rfl, by simp, ?_, ?_⟩
        · intro hd; cases hd
        · intro d2 hd
          simp only [Option.some.injEq] at hd
          subst hd
          exact ⟨rfl, rfl⟩
    | done => simp at hnd
    | timeAfter =>
      have hnd2 : SelectCase.done ∉ rest := fun hm => hnd (List.mem_cons_of_mem _ hm)
      have hrel2 : SelectCase.release ∈ rest := by
        simp only [List.mem_cons] at hrel
        rcases hrel with hrel | hrel
        · cases hrel
        · exact hrel
      obtain ⟨r, beats, s1, hr, hb, h1, h2⟩ :=
        ih (l.changeMessageVisibility w l.visibilityTimeout s).2 hnd2 hrel2
      refine ⟨⟨r.err, r.world, ⟨SelectCase.timeAfter,
        QueueCall.ChangeMessageVisibility (l.changeMessageVisibilityInput l.visibilityTimeout),
        (l.changeMessageVisibility w l.visibilityTimeout s).1⟩ :: r.calls⟩,
        ⟨SelectCase.timeAfter,
        QueueCall.ChangeMessageVisibility (l.changeMessageVisibilityInput l.visibilityTimeout),
        (l.changeMessageVisibility w l.visibilityTimeout s).1⟩ :: beats, s1, ?_, ?_, ?_, ?_⟩
      · simp only [MessageLock.loop, hr]
      · intro c hc
        simp only [List.mem_cons] at hc
        rcases hc with hc | hc
        · subst hc; rfl
        · exact hb c hc
      · intro hrd
        exact ⟨(h1 hrd).1, by simp [(h1 hrd).2]⟩
      · intro d hrd
        exact ⟨(h2 d hrd).1, by simp [(h2 d hrd).2]⟩

/-- C16 as stated fails for a delay that is not a whole number of seconds: the
lock of a test message, whose context is not cancelled, is released with a delay
of one second and a half after one heartbeat; the `ChangeMessageVisibility` call
of the `release` case asks for one second, which is not the delay.  So it is not
true that the timeout asked by the `release` case is always the delay. -/
theorem C16_counterexample :
    SelectCase.done ∉ (Script.world releaseAfterHeartbeat).schedule testLock
      ⟨[], [], [], []⟩ ∧
    testLock.Release (Script.world releaseAfterHeartbeat) (some 1500000000)
        ⟨[], [], [], []⟩ =
      some ⟨none, ⟨[], [], [], []⟩,
        [⟨SelectCase.timeAfter, QueueCall.ChangeMessageVisibility ⟨"foo", some "baz1", 150⟩,
            none⟩,
          ⟨SelectCase.release, QueueCall.ChangeMessageVisibility ⟨"foo", some "baz1", 1⟩,
            none⟩]⟩ ∧
    (1 : Duration) * Second ≠ 1500000000 ∧
    ¬ ∀ (d : Duration) (r : Released Script),
      testLock.Release (Script.world releaseAfterHeartbeat) (some d) ⟨[], [], [], []⟩ = some r →
      ∀ c ∈ r.calls, c.via = SelectCase.release →
        ∀ input, c.call = QueueCall.ChangeMessageVisibility input →
          input.VisibilityTimeout * Second = d :=
  ⟨by decide, rfl, by decide, fun hall =>
    absurd (hall 1500000000 _ rfl
      ⟨SelectCase.release, QueueCall.ChangeMessageVisibility ⟨"foo", some "baz1", 1⟩, none⟩
      (by decide) rfl ⟨"foo", some "baz1", 1⟩ rfl) (by decide)⟩

/-- C16, amended: when the `done` case does not fire (the context is not cancelled) and
the `release` case does, `Release` returns; after the heartbeats, the loop issues
one last call, by its `release` case: `DeleteMessage` for `Release(nil)`, and
`ChangeMessageVisibility` with the delay in whole seconds (zero for a delay of
zero) for `Release` of a delay, for the queue URL of the lock and the receipt
handle of its message; and `Release` returns the error of that call. -/
theorem C16_release_performs_requested_call (w : World σ) (l : MessageLock)
    (rd : Option Duration) (s : σ) (hctx : SelectCase.done ∉ w.schedule l s)
    (hrel : SelectCase.release ∈ w.schedule l s) :
    ∃ r beats s1, l.Release w rd s = some r ∧
      (∀ c ∈ beats, c.via = SelectCase.timeAfter) ∧
      (rd = none →
        r.err = (w.DeleteMessage ⟨l.queue, l.message.ReceiptHandle⟩ s1).1 ∧
        r.calls = beats ++ [⟨SelectCase.release,
          QueueCall.DeleteMessage ⟨l.queue, l.message.ReceiptHandle⟩, r.err⟩]) ∧
      (∀ d, rd = some d →
        r.err = (w.ChangeMessageVisibility
          ⟨l.queue, l.message.ReceiptHandle, Int.tdiv d Second⟩ s1).1 ∧
        r.calls = beats ++ [⟨SelectCase.release, QueueCall.ChangeMessageVisibility
          ⟨l.queue, l.message.ReceiptHandle, Int.tdiv d Second⟩, r.err⟩]) ∧
      (rd = some 0 → ∃ c ∈ r.calls, c.call = QueueCall.ChangeMessageVisibility
        ⟨l.queue, l.message.ReceiptHandle, 0⟩) := by
  obtain ⟨r, beats, s1, hr, hb, h1, h2⟩ := loop_release_path w l rd (w.schedule l s) s hctx hrel
  refine ⟨r, beats, s1, hr, hb, h1, h2, ?_⟩
  intro hz
  refine ⟨⟨SelectCase.release, QueueCall.ChangeMessageVisibility
    ⟨l.queue, l.message.ReceiptHandle, 0⟩, r.err⟩, ?_, rfl⟩
  rw [(h2 0 hz).2]
  simp [MessageLock.changeMessageVisibilityInput]

/-- An instance of the amended C16: the lock of a test message is released with `nil` after
one heartbeat, and `DeleteMessage` fails. -/
theorem C16_witness :
    SelectCase.done ∉ (Script.world releaseAfterHeartbeat).schedule testLock
      ⟨[], [], [some (GoError.plain "delete failed")], []⟩ ∧
    SelectCase.release ∈ (Script.world releaseAfterHeartbeat).schedule testLock
      ⟨[], [], [some (GoError.plain "delete failed")], []⟩ ∧
    testLock.Release (Script.world releaseAfterHeartbeat) none
        ⟨[], [], [some (GoError.plain "delete failed")], []⟩ =
      some ⟨some (GoError.plain "delete failed"), ⟨[], [], [], []⟩,
        [⟨SelectCase.timeAfter, QueueCall.ChangeMessageVisibility ⟨"foo", some "baz1", 150⟩,
            none⟩,
          ⟨SelectCase.release, QueueCall.DeleteMessage ⟨"foo", some "baz1"⟩,
            some (GoError.plain "delete failed")⟩]⟩ ∧
    ∃ r beats s1, testLock.Release (Script.world releaseAfterHeartbeat) none
        ⟨[], [], [some (GoError.plain "delete failed")], []⟩ = some r ∧
      (∀ c ∈ beats, c.via = SelectCase.timeAfter) ∧
      ((none : Option Duration) = none →
        r.err = ((Script.world releaseAfterHeartbeat).DeleteMessage
          ⟨testLock.queue, testLock.message.ReceiptHandle⟩ s1).1 ∧
        r.calls = beats ++ [⟨SelectCase.release,
          QueueCall.DeleteMessage ⟨testLock.queue, testLock.message.ReceiptHandle⟩, r.err⟩]) ∧
      (∀ d, (none : Option Duration) = some d →
        r.err = ((Script.world releaseAfterHeartbeat).ChangeMessageVisibility
          ⟨testLock.queue, testLock.message.ReceiptHandle, Int.tdiv d Second⟩ s1).1 ∧
        r.calls = beats ++ [⟨SelectCase.release, QueueCall.ChangeMessageVisibility
          ⟨testLock.queue, testLock.message.ReceiptHandle, Int.tdiv d Second⟩, r.err⟩]) ∧
      (none = some (0 : Duration) → ∃ c ∈ r.calls, c.call = QueueCall.ChangeMessageVisibility
        ⟨testLock.queue, testLock.message.ReceiptHandle, 0⟩) :=
  ⟨by decide, by decide, rfl,
    C16_release_performs_requested_call (Script.world releaseAfterHeartbeat) testLock none
      ⟨[], [], [some (GoError.plain "delete failed")], []⟩ (by decide) (by decide)⟩

/-- One iteration of the loop of a lock in which the timer fires. -/
theorem loop_timeAfter (w : World σ) (l : MessageLock) (req : Option releaseRequest)
    (rest : List SelectCase) (s : σ) :
    l.loop w req (SelectCase.timeAfter :: rest) s =
      match l.loop w req rest (l.changeMessageVisibility w l.visibilityTimeout s).2 with
      | none => none
      | some out => some ⟨out.err, out.world, ⟨SelectCase.timeAfter,
          QueueCall.ChangeMessageVisibility (l.changeMessageVisibilityInput l.visibilityTimeout),
          (l.changeMessageVisibility w l.visibilityTimeout s).1⟩ :: out.calls⟩ := by
  simp only [MessageLock.loop]

/-- The loop of a lock that takes the `done` case after heartbeats: the last call
sets the visibility timeout to zero, its error is dropped, and the error of the
context is sent. -/
theorem loop_done_path (w : World σ) (l : MessageLock) (req : Option releaseRequest)
    (rest : List SelectCase) :
    ∀ (beats : List SelectCase) (s : σ), (∀ c ∈ beats, c = SelectCase.timeAfter) →
      ∃ r hs s1, l.loop w req (beats ++ SelectCase.done :: rest) s = some r ∧
        r.err = some w.ctxErr ∧
        (∀ c ∈ hs, c.via = SelectCase.timeAfter ∧ c.isDelete = false) ∧
        r.calls = hs ++ [⟨SelectCase.done,
          QueueCall.ChangeMessageVisibility (l.changeMessageVisibilityInput 0),
          (w.ChangeMessageVisibility (l.changeMessageVisibilityInput 0) s1).1⟩] := by
  intro beats
  induction beats with
  | nil =>
    intro s _
    simp only [List.nil_append, MessageLock.loop]
    exact ⟨_, [], s, rfl, rfl, by simp, rfl⟩
  | cons sc beats ih =>
    intro s hb
    have hsc : sc = SelectCase.timeAfter := hb sc (by simp)
    subst hsc
    obtain ⟨r, hs, s1, hr, he, hh, hc⟩ :=
      ih (l.changeMessageVisibility w l.visibilityTimeout s).2
        (fun c hc => hb c (List.mem_cons_of_mem _ hc))
    rw [List.cons_append, loop_timeAfter, hr]
    refine ⟨_, ⟨SelectCase.timeAfter,
      QueueCall.ChangeMessageVisibility (l.changeMessageVisibilityInput l.visibilityTimeout),
      (l.changeMessageVisibility w l.visibilityTimeout s).1⟩ :: hs, s1, rfl, he, ?_, ?_⟩
    · intro c hcm
      simp only [List.mem_cons] at hcm
      rcases hcm with hcm | hcm
      · subst hcm; exact ⟨rfl, rfl⟩
      · exact hh c hcm
    · simp [hc]

/-- While no request is pending, the loop of a lock can only return through the
`done` case: it sends the error of the context and issues no `DeleteMessage`. -/
theorem loop_without_request (w : World σ) (l : MessageLock) :
    ∀ (sched : List SelectCase) (s : σ) (r : Released σ), l.loop w none sched s = some r →
      r.err = some w.ctxErr ∧ ∀ c ∈ r.calls, c.isDelete = false := by
  intro sched
  induction sched with
  | nil => intro s r h; simp [MessageLock.loop] at h
  | cons sc rest ih =>
    intro s r h
    cases sc with
    | release => simp [MessageLock.loop] at h
    | done =>
      simp only [MessageLock.loop, Option.some.injEq] at h
      subst h
      exact ⟨rfl, by simp [LockCall.isDelete]⟩
    | timeAfter =>
      simp only [MessageLock.loop] at h
      split at h
      · cases h
      · rename_i out hout
        simp only [Option.some.injEq] at h
        subst h
        obtain ⟨h1, h2⟩ := ih _ out hout
        refine ⟨h1, ?_⟩
        intro c hc
        simp only [List.mem_cons] at hc
        rcases hc with hc | hc
        · subst hc; rfl
        · exact h2 c hc

/-- C17 as stated fails: with the context cancelled and a request to delete
pending, the `release` case of the `select` can proceed, and when it is taken the
lock issues `DeleteMessage` and `Release` returns the result of that call, not
the error of the context. -/
theorem C17_counterexample :
    SelectCase.ready true true SelectCase.release = true ∧
    testLock.loop (Script.world cancelledAtOnce) (some ⟨none⟩) [SelectCase.release]
        ⟨[], [], [], []⟩ =
      some ⟨none, ⟨[], [], [], []⟩,
        [⟨SelectCase.release, QueueCall.DeleteMessage ⟨"foo", some "baz1"⟩, none⟩]⟩ :=
  ⟨rfl, rfl⟩

/-- C17, amended: when the loop of a lock takes the `done` case of its `select`,
after any number of heartbeats and whatever request is or is not pending, the
loop returns; its last call is a `ChangeMessageVisibility` with a timeout of zero
for the message of the lock, the error of that call is dropped, the error sent
to `Release` is the error of the context, and no `DeleteMessage` is issued; and
while no request is pending the loop cannot return in another way. -/
theorem C17_cancellation_path (w : World σ) (l : MessageLock) (req : Option releaseRequest)
    (beats rest : List SelectCase) (s : σ) (hb : ∀ c ∈ beats, c = SelectCase.timeAfter) :
    (∃ r hs s1, l.loop w req (beats ++ SelectCase.done :: rest) s = some r ∧
      r.err = some w.ctxErr ∧
      (∀ c ∈ r.calls, c.isDelete = false) ∧
      (∀ c ∈ hs, c.via = SelectCase.timeAfter) ∧
      r.calls = hs ++ [⟨SelectCase.done,
        QueueCall.ChangeMessageVisibility ⟨l.queue, l.message.ReceiptHandle, 0⟩,
        (w.ChangeMessageVisibility ⟨l.queue, l.message.ReceiptHandle, 0⟩ s1).1⟩]) ∧
    ∀ (sched : List SelectCase) (r : Released σ), l.loop w none sched s = some r →
      r.err = some w.ctxErr ∧ ∀ c ∈ r.calls, c.isDelete = false := by
  refine ⟨?_, fun sched r h => loop_without_request w l sched s r h⟩
  obtain ⟨r, hs, s1, hr, he, hh, hc⟩ := loop_done_path w l req rest beats s hb
  have hin : l.changeMessageVisibilityInput 0 = ⟨l.queue, l.message.ReceiptHandle, 0⟩ := by
    simp [MessageLock.changeMessageVisibilityInput]
  rw [hin] at hc
  refine ⟨r, hs, s1, hr, he, ?_, fun c hcm => (hh c hcm).1, hc⟩
  intro c hcm
  rw [hc] at hcm
  simp only [List.mem_append, List.mem_singleton] at hcm
  rcases hcm with hcm | hcm
  · exact (hh c hcm).2
  · subst hcm; rfl

/-- An instance of the amended C17: deletion is requested, and the `done` case
is taken after one heartbeat; the call of the `done` case fails. -/
theorem C17_witness :
    (∀ c ∈ [SelectCase.timeAfter], c = SelectCase.timeAfter) ∧
    testLock.loop (Script.world cancelledAtOnce) (some ⟨none⟩)
        ([SelectCase.timeAfter] ++ SelectCase.done :: [SelectCase.release])
        ⟨[], [], [], [none, some (GoError.plain "change failed")]⟩ =
      some ⟨some (GoError.plain "context canceled"), ⟨[], [], [], []⟩,
        [⟨SelectCase.timeAfter, QueueCall.ChangeMessageVisibility ⟨"foo", some "baz1", 150⟩,
            none⟩,
          ⟨SelectCase.done, QueueCall.ChangeMessageVisibility ⟨"foo", some "baz1", 0⟩,
            some (GoError.plain "change failed")⟩]⟩ ∧
    ((∃ r hs s1, testLock.loop (Script.world cancelledAtOnce) (some ⟨none⟩)
        ([SelectCase.timeAfter] ++ SelectCase.done :: [SelectCase.release])
        ⟨[], [], [], [none, some (GoError.plain "change failed")]⟩ = some r ∧
      r.err = some (Script.world cancelledAtOnce).ctxErr ∧
      (∀ c ∈ r.calls, c.isDelete = false) ∧
      (∀ c ∈ hs, c.via = SelectCase.timeAfter) ∧
      r.calls = hs ++ [⟨SelectCase.done,
        QueueCall.ChangeMessageVisibility ⟨testLock.queue, testLock.message.ReceiptHandle, 0⟩,
        ((Script.world cancelledAtOnce).ChangeMessageVisibility
          ⟨testLock.queue, testLock.message.ReceiptHandle, 0⟩ s1).1⟩]) ∧
    ∀ (sched : List SelectCase) (r : Released Script),
      testLock.loop (Script.world cancelledAtOnce) none sched
        ⟨[], [], [], [none, some (GoError.plain "change failed")]⟩ = some r →
      r.err = some (Script.world cancelledAtOnce).ctxErr ∧
        ∀ c ∈ r.calls, c.isDelete = false) :=
  ⟨by decide, rfl, C17_cancellation_path (Script.world cancelledAtOnce) testLock (some ⟨none⟩)
    [SelectCase.timeAfter] [SelectCase.release]
    ⟨[], [], [], [none, some (GoError.plain "change failed")]⟩ (by decide)⟩

/-- The calls of the loop of a lock that has sent its result: calls that are
heartbeats, then one last call that is not. -/
theorem loop_calls_end (w : World σ) (l : MessageLock) (req : Option releaseRequest) :
    ∀ (sched : List SelectCase) (s : σ) (r : Released σ), l.loop w req sched s = some r →
      ∃ hs last, r.calls = hs ++ [last] ∧ last.isTerminal = true ∧
        ∀ c ∈ hs, c.isTerminal = false := by
  intro sched
  induction sched with
  | nil => intro s r h; simp [MessageLock.loop] at h
  | cons sc rest ih =>
    intro s r h
    cases sc with
    | release =>
      cases req with
      | none => simp [MessageLock.loop] at h
      | some rq =>
        cases hrd : rq.retryDelay with
        | none =>
          simp only [MessageLock.loop, hrd, Option.some.injEq] at h
          subst h
          exact ⟨[], _, rfl, rfl, by simp⟩
        | some d =>
          simp only [MessageLock.loop, hrd, Option.some.injEq] at h
          subst h
          exact ⟨[], _, rfl, rfl, by simp⟩
    | done =>
      simp only [MessageLock.loop, Option.some.injEq] at h
      subst h
      exact ⟨[], _, rfl, rfl, by simp⟩
    | timeAfter =>
      rw [loop_timeAfter] at h
      split at h
      · cases h
      · rename_i out hout
        simp only [Option.some.injEq] at h
        subst h
        obtain ⟨hs, last, hc, hl, hh⟩ := ih _ out hout
        refine ⟨⟨SelectCase.timeAfter, QueueCall.ChangeMessageVisibility
          (l.changeMessageVisibilityInput l.visibilityTimeout),
          (l.changeMessageVisibility w l.visibilityTimeout s).1⟩ :: hs, last,
          by simp [hc], hl, ?_⟩
        intro c hcm
        simp only [List.mem_cons] at hcm
        rcases hcm with hcm | hcm
        · subst hcm; rfl
        · exact hh c hcm

/-- Once the loop of a lock has sent its result, the `select` cases that could
fire afterwards change nothing. -/
theorem loop_append (w : World σ) (l : MessageLock) (req : Option releaseRequest)
    (extra : List SelectCase) :
    ∀ (sched : List SelectCase) (s : σ) (r : Released σ), l.loop w req sched s = some r →
      l.loop w req (sched ++ extra) s = some r := by
  intro sched
  induction sched with
  | nil => intro s r h; simp [MessageLock.loop] at h
  | cons sc rest ih =>
    intro s r h
    cases sc with
    | release =>
      cases req with
      | none => simp [MessageLock.loop] at h
      | some rq =>
        cases hrd : rq.retryDelay with
        | none =>
          simp only [MessageLock.loop, hrd] at h
          simp only [List.cons_append, MessageLock.loop, hrd]
          exact h
        | some d =>
          simp only [MessageLock.loop, hrd] at h
          simp only [List.cons_append, MessageLock.loop, hrd]
          exact h
    | done =>
      simp only [MessageLock.loop] at h
      simp only [List.cons_append, MessageLock.loop]
      exact h
    | timeAfter =>
      rw [loop_timeAfter] at h
      rw [List.cons_append, loop_timeAfter]
      split at h
      · cases h
      · rename_i out hout
        rw [ih _ out hout]
        exact h

/-- C18: once the loop of a lock has sent the result of the release, it has
returned: the call that precedes the result, which is not a heartbeat, is the
last call of the lock, and whatever `select` cases could fire afterwards (timer,
cancellation, release) the calls issued for the message stay the same. -/
theorem C18_no_call_after_release (w : World σ) (l : MessageLock)
    (req : Option releaseRequest) (sched : List SelectCase) (s : σ) (r : Released σ)
    (h : l.loop w req sched s = some r) :
    (∀ extra, l.loop w req (sched ++ extra) s = some r) ∧
    ∃ hs last, r.calls = hs ++ [last] ∧ last.isTerminal = true ∧
      ∀ c ∈ hs, c.isTerminal = false :=
  ⟨fun extra => loop_append w l req extra sched s r h, loop_calls_end w l req sched s r h⟩

/-- An instance of C18: a lock released with `nil` after one heartbeat. -/
theorem C18_witness :
    testLock.loop (Script.world releaseAfterHeartbeat) (some ⟨none⟩)
        [SelectCase.timeAfter, SelectCase.release] ⟨[], [], [], []⟩ = some releasedOnce ∧
    ((∀ extra, testLock.loop (Script.world releaseAfterHeartbeat) (some ⟨none⟩)
        ([SelectCase.timeAfter, SelectCase.release] ++ extra) ⟨[], [], [], []⟩ =
      some releasedOnce) ∧
    ∃ hs last, releasedOnce.calls = hs ++ [last] ∧ last.isTerminal = true ∧
      ∀ c ∈ hs, c.isTerminal = false) :=
  ⟨rfl, C18_no_call_after_release (Script.world releaseAfterHeartbeat) testLock (some ⟨none⟩)
    [SelectCase.timeAfter, SelectCase.release] ⟨[], [], [], []⟩ releasedOnce rfl⟩

/-- C19: a first call of `Release` on a new lock does what `Release` does and
closes the `release` channel; a second call on the same lock, whatever it
requests, panics on the send: it returns no result, and it leaves the world as it
is, so that no call of the queue is issued. -/
theorem C19_second_release_panics (w : World σ) (l : MessageLock)
    (first second : Option Duration) (s s2 : σ) :
    (l.ReleaseOn w ReleaseChan.make first s).1 =
        (match l.Release w first s with
          | some r => Attempt.returned r
          | none => Attempt.blocked) ∧
      (l.ReleaseOn w ReleaseChan.make first s).2.closed = true ∧
      l.ReleaseOn w (l.ReleaseOn w ReleaseChan.make first s).2 second s2 =
        (Attempt.panicked s2, (l.ReleaseOn w ReleaseChan.make first s).2) := by
  have h1 : (l.ReleaseOn w ReleaseChan.make first s).2.closed = true := by
    simp only [MessageLock.ReleaseOn, ReleaseChan.make]
    cases l.Release w first s <;> rfl
  refine ⟨?_, h1, ?_⟩
  · simp only [MessageLock.ReleaseOn, ReleaseChan.make]
    cases l.Release w first s <;> rfl
  · generalize (l.ReleaseOn w ReleaseChan.make first s).2 = ch at h1 ⊢
    simp only [MessageLock.ReleaseOn, h1, if_true]

/-! ## Heartbeat failures (C21) -/

/-- The loop of a lock whose timer fires `n` times before the `release` case
takes the request: the `n` heartbeats are issued whatever their errors, then the
call requested is made in the state they leave, and its error is sent. -/
theorem loop_heartbeats (w : World σ) (l : MessageLock) (rd : Option Duration)
    (rest : List SelectCase) :
    ∀ (n : Nat) (s : σ),
      l.loop w (some ⟨rd⟩) (List.replicate n SelectCase.timeAfter ++ SelectCase.release :: rest) s =
        some ⟨(match rd with
            | none => (l.deleteMessage w (l.heartbeats w n s)).1
            | some d => (l.changeMessageVisibility w d (l.heartbeats w n s)).1),
          (match rd with
            | none => (l.deleteMessage w (l.heartbeats w n s)).2
            | some d => (l.changeMessageVisibility w d (l.heartbeats w n s)).2),
          (List.range n).map (l.heartbeatCall w s) ++
            [⟨SelectCase.release,
              (match rd with
                | none => QueueCall.DeleteMessage l.deleteMessageInput
                | some d => QueueCall.ChangeMessageVisibility (l.changeMessageVisibilityInput d)),
              (match rd with
                | none => (l.deleteMessage w (l.heartbeats w n s)).1
                | some d => (l.changeMessageVisibility w d (l.heartbeats w n s)).1)⟩]⟩ := by
  intro n
  induction n with
  | zero =>
    intro s
    cases rd <;> simp [MessageLock.loop, MessageLock.heartbeats]
  | succ n ih =>
    intro s
    rw [List.replicate_succ, List.cons_append, loop_timeAfter, ih]
    simp only [MessageLock.heartbeats, List.range_succ_eq_map, List.map_cons, List.map_map,
      List.cons_append]
    rfl

/-- C21: a heartbeat that fails is not fatal to a lock.  When the timer of a lock
fires `n` times before its `release` case takes the request and the heartbeat of
position `k` returns an error, `Release` still returns; the loop has issued all
the `n` heartbeats, the failed one and the later ones included, then the call
requested (`DeleteMessage`, or `ChangeMessageVisibility` with the delay), and the
error that `Release` returns is the error of that last call, made in the state
that the heartbeats leave. -/
theorem C21_heartbeat_failure_not_fatal (w : World σ) (l : MessageLock) (rd : Option Duration)
    (s : σ) (n k : Nat) (rest : List SelectCase) (e : GoError)
    (hs : w.schedule l s = List.replicate n SelectCase.timeAfter ++ SelectCase.release :: rest)
    (hk : k < n)
    (hfail : (l.changeMessageVisibility w l.visibilityTimeout (l.heartbeats w k s)).1 = some e) :
    ∃ r, l.Release w rd s = some r ∧
      r.calls.length = n + 1 ∧
      r.calls[k]? = some ⟨SelectCase.timeAfter, QueueCall.ChangeMessageVisibility
        (l.changeMessageVisibilityInput l.visibilityTimeout), some e⟩ ∧
      (∀ j : Nat, j < n → r.calls[j]? = some ⟨SelectCase.timeAfter,
        QueueCall.ChangeMessageVisibility (l.changeMessageVisibilityInput l.visibilityTimeout),
        (w.ChangeMessageVisibility (l.changeMessageVisibilityInput l.visibilityTimeout)
          (l.heartbeats w j s)).1⟩) ∧
      r.calls[n]? = some ⟨SelectCase.release,
        (match rd with
          | none => QueueCall.DeleteMessage l.deleteMessageInput
          | some d => QueueCall.ChangeMessageVisibility (l.changeMessageVisibilityInput d)),
        r.err⟩ ∧
      r.err = (match rd with
        | none => (w.DeleteMessage l.deleteMessageInput (l.heartbeats w n s)).1
        | some d =>
          (w.ChangeMessageVisibility (l.changeMessageVisibilityInput d) (l.heartbeats w n s)).1) := by
  have hj : ∀ j : Nat, j < n →
      ((List.range n).map (l.heartbeatCall w s) ++
        [(⟨SelectCase.release,
          (match rd with
            | none => QueueCall.DeleteMessage l.deleteMessageInput
            | some d => QueueCall.ChangeMessageVisibility (l.changeMessageVisibilityInput d)),
          (match rd with
            | none => (l.deleteMessage w (l.heartbeats w n s)).1
            | some d => (l.changeMessageVisibility w d (l.heartbeats w n s)).1)⟩ : LockCall)])[j]? =
        some (l.heartbeatCall w s j) := by
    intro j hjn
    rw [List.getElem?_append_left (by simpa using hjn)]
    simp [List.getElem?_map, List.getElem?_range hjn]
  refine ⟨_, by rw [MessageLock.Release, hs]; exact loop_heartbeats w l rd rest n s, ?_, ?_, ?_,
    ?_, ?_⟩
  · simp
  · rw [hj k hk, MessageLock.heartbeatCall, hfail]
  · intro j hjn
    rw [hj j hjn]
    rfl
  · rw [List.getElem?_append_right (by simp)]
    simp
  · cases rd <;> rfl

/-- An instance of C21: the first of the two heartbeats of the lock of a test
message fails; `Release(nil)` returns `nil` after the second heartbeat and the
`DeleteMessage` call. -/
theorem C21_witness :
    (Script.world releaseAfterTwoHeartbeats).schedule testLock
        ⟨[], [], [], [some (GoError.plain "heartbeat failed")]⟩ =
      List.replicate 2 SelectCase.timeAfter ++ SelectCase.release :: [] ∧
    0 < 2 ∧
    (testLock.changeMessageVisibility (Script.world releaseAfterTwoHeartbeats)
      testLock.visibilityTimeout (testLock.heartbeats (Script.world releaseAfterTwoHeartbeats) 0
        ⟨[], [], [], [some (GoError.plain "heartbeat failed")]⟩)).1 =
      some (GoError.plain "heartbeat failed") ∧
    testLock.Release (Script.world releaseAfterTwoHeartbeats) none
        ⟨[], [], [], [some (GoError.plain "heartbeat failed")]⟩ =
      some ⟨none, ⟨[], [], [], []⟩,
        [⟨SelectCase.timeAfter, QueueCall.ChangeMessageVisibility ⟨"foo", some "baz1", 150⟩,
            some (GoError.plain "heartbeat failed")⟩,
          ⟨SelectCase.timeAfter, QueueCall.ChangeMessageVisibility ⟨"foo", some "baz1", 150⟩,
            none⟩,
          ⟨SelectCase.release, QueueCall.DeleteMessage ⟨"foo", some "baz1"⟩, none⟩]⟩ ∧
    ∃ r, testLock.Release (Script.world releaseAfterTwoHeartbeats) none
        ⟨[], [], [], [some (GoError.plain "heartbeat failed")]⟩ = some r ∧
      r.calls.length = 2 + 1 ∧
      r.calls[0]? = some ⟨SelectCase.timeAfter, QueueCall.ChangeMessageVisibility
        (testLock.changeMessageVisibilityInput testLock.visibilityTimeout),
        some (GoError.plain "heartbeat failed")⟩ ∧
      (∀ j : Nat, j < 2 → r.calls[j]? = some ⟨SelectCase.timeAfter,
        QueueCall.ChangeMessageVisibility
          (testLock.changeMessageVisibilityInput testLock.visibilityTimeout),
        ((Script.world releaseAfterTwoHeartbeats).ChangeMessageVisibility
          (testLock.changeMessageVisibilityInput testLock.visibilityTimeout)
          (testLock.heartbeats (Script.world releaseAfterTwoHeartbeats) j
            ⟨[], [], [], [some (GoError.plain "heartbeat failed")]⟩)).1⟩) ∧
      r.calls[2]? = some ⟨SelectCase.release,
        QueueCall.DeleteMessage testLock.deleteMessageInput, r.err⟩ ∧
      r.err = ((Script.world releaseAfterTwoHeartbeats).DeleteMessage testLock.deleteMessageInput
        (testLock.heartbeats (Script.world releaseAfterTwoHeartbeats) 2
          ⟨[], [], [], [some (GoError.plain "heartbeat failed")]⟩)).1 :=
  ⟨rfl, by decide, rfl, rfl,
    C21_heartbeat_failure_not_fatal (Script.world releaseAfterTwoHeartbeats) testLock none
      ⟨[], [], [], [some (GoError.plain "heartbeat failed")]⟩ 2 0 []
      (GoError.plain "heartbeat failed") rfl (by decide) rfl⟩

/-! ## Delays shorter than one second (C27) -/

/-- The fatal cause of a step whose handler asked for a retry after a delay other
than zero is the error that the release of its lock returned. -/
theorem isStep_retry_fatalCause (w : World σ) (j : Nat) (lock : MessageLock)
    (step : List Event) (h : IsStep w j lock step) (n : Nat) (body : String) (d : Duration)
    (hm : Event.handler n body (some (NewRetriableError d)) ∈ step) (hd : d ≠ 0)
    (e : Option GoError) (hrel : Event.released j e ∈ step) : fatalCause step = e := by
  rcases h with ⟨s, r, _, hst⟩ | ⟨s, err, r, _, hst⟩
  · subst hst
    rw [mem_releaseEvents] at hm
    rcases hm with hm | ⟨c, _, hm⟩ | hm <;> cases hm
  · subst hst
    have herr : err = some (NewRetriableError d) := by
      simp only [List.cons_append, List.mem_cons, List.mem_append, mem_releaseEvents] at hm
      rcases hm with hm | (hm | ⟨c, _, hm⟩ | hm) | hm
      · cases hm; rfl
      · cases hm
      · cases hm
      · cases hm
      · split at hm
        · simp at hm
        · simp at hm
    subst herr
    have hre : r.err = e := by
      simp only [List.cons_append, List.mem_cons, List.mem_append, mem_releaseEvents] at hrel
      rcases hrel with hrel | (hrel | ⟨c, _, hrel⟩ | hrel) | hrel
      · cases hrel
      · cases hrel
      · cases hrel
      · simp only [Event.released.injEq, true_and] at hrel
        exact hrel.symm
      · simp at hrel
    have h1 : (Event.handler j (StringValue lock.message.Body) (some (NewRetriableError d)) ::
        releaseEvents j (extractDelay (some (NewRetriableError d))) r ++
        (if some (NewRetriableError d) = none ∧ r.err = none then [Event.counted j]
          else [])).findSome? Event.handlerResult = some (some (NewRetriableError d)) := by
      rw [List.cons_append, List.findSome?_cons_of_isSome _ (by rfl)]; rfl
    have h2 : (Event.handler j (StringValue lock.message.Body) (some (NewRetriableError d)) ::
        releaseEvents j (extractDelay (some (NewRetriableError d))) r ++
        (if some (NewRetriableError d) = none ∧ r.err = none then [Event.counted j]
          else [])).findSome? Event.releaseError = e := by
      rw [List.cons_append, List.findSome?_cons_of_isNone _ (by rfl), List.findSome?_append,
        findSome?_releaseError_releaseEvents, hre]
      simp
    have h3 : handlerFatal (some (NewRetriableError d)) = none := by
      simp [handlerFatal, extractDelay, asRetriableError, NewRetriableError, hd]
    simp only [fatalCause, h1, h2, h3]

/-- A delay of less than one second is sent as zero seconds. -/
theorem tdiv_second_of_lt (d : Duration) (h0 : 0 ≤ d) (h1 : d < Second) :
    Int.tdiv d Second = 0 :=
  Int.tdiv_eq_zero_of_lt h0 h1

/-- The seconds sent for a duration that is not negative are the whole seconds
that it contains. -/
theorem tdiv_second_bounds (d : Duration) (h0 : 0 ≤ d) :
    Int.tdiv d Second * Second ≤ d ∧ d < (Int.tdiv d Second + 1) * Second := by
  have hs : (0 : Int) < Second := by decide
  rw [Int.tdiv_eq_ediv h0 (Int.le_of_lt hs)]
  exact ⟨Int.ediv_mul_le d (Int.ne_of_gt hs), Int.lt_ediv_add_one_mul_self d hs⟩

/-- C27 as stated fails when the release fails: two messages are received, the
handler asks to retry the first one after half a second, and the
`ChangeMessageVisibility` call of the release, which asks for zero seconds, fails;
the batch does not continue (the handler of the second message is not called) and
the error is returned. -/
theorem C27_counterexample :
    testConsumer.ConsumeMessages (Script.world releaseAfterHeartbeat) 3
        scriptRetrySubsecondReleaseFails =
      some (Script.run testConsumer releaseAfterHeartbeat 3 scriptRetrySubsecondReleaseFails) ∧
    (0 : Duration) < 500000000 ∧ (500000000 : Duration) < Second ∧
    (firstBatch (Script.run testConsumer releaseAfterHeartbeat 3
        scriptRetrySubsecondReleaseFails).log).steps =
      [[Event.handler 0 "qux1" (some (NewRetriableError 500000000)),
        Event.release 0 (some 500000000),
        Event.queue 0 ⟨SelectCase.timeAfter,
          QueueCall.ChangeMessageVisibility ⟨"foo", some "baz1", 150⟩, none⟩,
        Event.queue 0 ⟨SelectCase.release,
          QueueCall.ChangeMessageVisibility ⟨"foo", some "baz1", 0⟩,
          some (GoError.plain "change failed")⟩,
        Event.released 0 (some (GoError.plain "change failed"))],
       [Event.release 1 (some 0),
        Event.queue 1 ⟨SelectCase.timeAfter,
          QueueCall.ChangeMessageVisibility ⟨"foo", some "baz2", 150⟩, none⟩,
        Event.queue 1 ⟨SelectCase.release,
          QueueCall.ChangeMessageVisibility ⟨"foo", some "baz2", 0⟩, none⟩,
        Event.released 1 none]] ∧
    (∀ e ∈ (firstBatch (Script.run testConsumer releaseAfterHeartbeat 3
        scriptRetrySubsecondReleaseFails).log).step 1, e.isHandler = false) ∧
    (Script.run testConsumer releaseAfterHeartbeat 3 scriptRetrySubsecondReleaseFails).err =
      some (GoError.plain "change failed") :=
  ⟨rfl, by decide, by decide, by decide, by decide, by decide⟩

/-- C27, amended: durations are sent in whole seconds, truncated: the timeout of a
`ChangeMessageVisibility` request for a duration that is not negative is the
number of whole seconds it contains.  So when a handler returns a `RetriableError`
whose delay `d` is positive and shorter than one second, the lock is released with
`d`, and its loop ends with one call that asks the queue for a visibility timeout
of zero for the queue URL of the consumer and the receipt handle of the message
(by the `release` case, whose error `Release` returns, or by the `done` case,
when `Release` returns the error of the context); the message is not counted.
The error of the handler is not fatal: the fatal cause of the step is what
`Release` returned, so when the release returns `nil` the step records no fatal
cause and the next message of the batch is handled, and when the release returns
an error that error is the fatal cause of the step. -/
theorem C27_subsecond_delay_truncated (w : World σ) (m : QueueConsumer) (fuel : Nat) (s : σ)
    (r : Outcome σ) (h : m.ConsumeMessages w fuel s = some r) (b : BatchLog) (hb : b ∈ r.log)
    (j n : Nat) (step : List Event) (body : String) (d : Duration)
    (hj : b.steps[j]? = some step)
    (hm : Event.handler n body (some (NewRetriableError d)) ∈ step)
    (h0 : 0 < d) (h1 : d < Second) :
    (∀ (l : MessageLock) (x : Duration), 0 ≤ x →
      (l.changeMessageVisibilityInput x).VisibilityTimeout * Second ≤ x ∧
      x < ((l.changeMessageVisibilityInput x).VisibilityTimeout + 1) * Second) ∧
    ∃ msg, b.messages[j]? = some msg ∧
      Event.release j (some d) ∈ step ∧
      (∃ c err, Event.queue j c ∈ step ∧
        c.call = QueueCall.ChangeMessageVisibility ⟨m.queue, msg.ReceiptHandle, 0⟩ ∧
        (∀ e, Event.released j e ∈ step ↔ e = err) ∧
        ((c.via = SelectCase.release ∧ c.err = err) ∨
          (c.via = SelectCase.done ∧ err = some w.ctxErr))) ∧
      (∀ c, Event.queue j c ∈ step → c.via = SelectCase.release →
        c.call = QueueCall.ChangeMessageVisibility ⟨m.queue, msg.ReceiptHandle, 0⟩) ∧
      (∀ e ∈ step, e.isCounted = false) ∧
      (∀ e, Event.released j e ∈ step → fatalCause step = e) ∧
      (Event.released j none ∈ step → fatalCause step = none ∧
        ∀ next, b.messages[j + 1]? = some next →
          ∃ step1 err, b.steps[j + 1]? = some step1 ∧
            Event.handler (j + 1) (StringValue next.Body) err ∈ step1) := by
  have hd : d ≠ 0 := Int.ne_of_gt h0
  have hz : Int.tdiv d Second = 0 := tdiv_second_of_lt d (Int.le_of_lt h0) h1
  obtain ⟨msg, hmsg, hstep⟩ := consumeLoop_step_message w m fuel 0 s r h b hb j step hj
  obtain ⟨_, hlocks, c0, s0, p, hp, hsteps⟩ := consumeLoop_steps w m fuel 0 s r h b hb j step hj
  obtain ⟨c, err, hc, hrel, hcase, hall⟩ := isStep_retry_last_call w j _ step hstep n body d hm
  have hin : (NewMessageLock m.queue m.visibilityTimeout m.heartbeatInterval
      msg).changeMessageVisibilityInput d = ⟨m.queue, msg.ReceiptHandle, 0⟩ := by
    simp only [MessageLock.changeMessageVisibilityInput, NewMessageLock, hz]
  rw [← hsteps] at hj
  obtain ⟨q1, _, q3, q4⟩ :=
    processLocks_retry w b.locks 0 none c0 s0 p hp j step n body d hj hm hd
  simp only [zero_add] at q1 q4
  have hfc : ∀ e, Event.released j e ∈ step → fatalCause step = e :=
    fun e he => isStep_retry_fatalCause w j _ step hstep n body d hm hd e he
  refine ⟨fun l x hx => tdiv_second_bounds x hx, msg, hmsg, q1, ?_, ?_, q3, hfc, ?_⟩
  · refine ⟨c, err, hc, ?_, hrel, ?_⟩
    · rcases hcase with ⟨_, a2, _⟩ | ⟨_, a2, _⟩
      · rw [a2, hin]
      · rw [a2]; rfl
    · rcases hcase with ⟨a1, _, a3⟩ | ⟨a1, _, a3⟩
      · exact Or.inl ⟨a1, a3⟩
      · exact Or.inr ⟨a1, a3⟩
  · intro c1 hc1 hv1
    rw [hall c1 hc1 hv1, hin]
  · intro hnone
    refine ⟨hfc none hnone, ?_⟩
    intro next hnext
    have hl2 : b.locks[j + 1]? = some
        (NewMessageLock m.queue m.visibilityTimeout m.heartbeatInterval next) := by
      rw [hlocks, List.getElem?_map, hnext]; rfl
    obtain ⟨step1, e1, hn1, hn2⟩ := q4 hnone _ hl2
    rw [hsteps] at hn1
    exact ⟨step1, e1, hn1, by simpa [NewMessageLock] using hn2⟩

/-- An instance of the amended C27: in the run of `scriptRetrySubsecond` the
handler asks to retry the first message after half a second; its lock is released
with a timeout of zero seconds and the second message is handled. -/
theorem C27_witness :
    testConsumer.ConsumeMessages (Script.world releaseAfterHeartbeat) 3 scriptRetrySubsecond =
      some (Script.run testConsumer releaseAfterHeartbeat 3 scriptRetrySubsecond) ∧
    retrySubsecondBatch ∈ (Script.run testConsumer releaseAfterHeartbeat 3
      scriptRetrySubsecond).log ∧
    retrySubsecondBatch.steps[0]? = some (retrySubsecondBatch.step 0) ∧
    Event.handler 0 "qux1" (some (NewRetriableError 500000000)) ∈ retrySubsecondBatch.step 0 ∧
    (0 : Duration) < 500000000 ∧ (500000000 : Duration) < Second ∧
    retrySubsecondBatch.step 0 =
      [Event.handler 0 "qux1" (some (NewRetriableError 500000000)),
        Event.release 0 (some 500000000),
        Event.queue 0 ⟨SelectCase.timeAfter,
          QueueCall.ChangeMessageVisibility ⟨"foo", some "baz1", 150⟩, none⟩,
        Event.queue 0 ⟨SelectCase.release,
          QueueCall.ChangeMessageVisibility ⟨"foo", some "baz1", 0⟩, none⟩,
        Event.released 0 none] ∧
    ((∀ (l : MessageLock) (x : Duration), 0 ≤ x →
      (l.changeMessageVisibilityInput x).VisibilityTimeout * Second ≤ x ∧
      x < ((l.changeMessageVisibilityInput x).VisibilityTimeout + 1) * Second) ∧
    ∃ msg, retrySubsecondBatch.messages[0]? = some msg ∧
      Event.release 0 (some 500000000) ∈ retrySubsecondBatch.step 0 ∧
      (∃ c err, Event.queue 0 c ∈ retrySubsecondBatch.step 0 ∧
        c.call = QueueCall.ChangeMessageVisibility
          ⟨testConsumer.queue, msg.ReceiptHandle, 0⟩ ∧
        (∀ e, Event.released 0 e ∈ retrySubsecondBatch.step 0 ↔ e = err) ∧
        ((c.via = SelectCase.release ∧ c.err = err) ∨
          (c.via = SelectCase.done ∧ err = some (Script.world releaseAfterHeartbeat).ctxErr))) ∧
      (∀ c, Event.queue 0 c ∈ retrySubsecondBatch.step 0 → c.via = SelectCase.release →
        c.call = QueueCall.ChangeMessageVisibility
          ⟨testConsumer.queue, msg.ReceiptHandle, 0⟩) ∧
      (∀ e ∈ retrySubsecondBatch.step 0, e.isCounted = false) ∧
      (∀ e, Event.released 0 e ∈ retrySubsecondBatch.step 0 →
        fatalCause (retrySubsecondBatch.step 0) = e) ∧
      (Event.released 0 none ∈ retrySubsecondBatch.step 0 →
        fatalCause (retrySubsecondBatch.step 0) = none ∧
        ∀ next, retrySubsecondBatch.messages[0 + 1]? = some next →
          ∃ step1 err, retrySubsecondBatch.steps[0 + 1]? = some step1 ∧
            Event.handler (0 + 1) (StringValue next.Body) err ∈ step1)) :=
  ⟨rfl, by decide, by decide, by decide, by decide, by decide, by decide,
    C27_subsecond_delay_truncated (Script.world releaseAfterHeartbeat) testConsumer 3
      scriptRetrySubsecond (Script.run testConsumer releaseAfterHeartbeat 3 scriptRetrySubsecond)
      rfl retrySubsecondBatch (by decide) 0 0 (retrySubsecondBatch.step 0) "qux1" 500000000
      (by decide) (by decide) (by decide) (by decide)⟩

/-! ## The requests sent (C26) -/

/-- A whole number of seconds is sent unchanged. -/
theorem tdiv_mul_second (k : Int) : Int.tdiv (k * Second) Second = k :=
  Int.mul_tdiv_cancel k (by decide)

/-- C26: every receive request of a run carries the queue URL and the maximum
number of messages of the consumer, and when the visibility timeout or the wait
time configured is a whole number of seconds, the seconds sent, multiplied by one
second, give the duration configured.  The request of `changeMessageVisibility`
for a whole number of seconds carries that number, for the queue and the message
of the lock, so the same round trip holds. -/
theorem C26_requests_carry_configuration (w : World σ) (m : QueueConsumer) (fuel : Nat)
    (s : σ) (r : Outcome σ) (h : m.ConsumeMessages w fuel s = some r) :
    (∀ b ∈ r.log, b.input.QueueUrl = m.queue ∧
      b.input.MaxNumberOfMessages = m.maxNumberOfMessages ∧
      (∀ k : Int, m.visibilityTimeout = k * Second →
        b.input.VisibilityTimeout * Second = m.visibilityTimeout) ∧
      (∀ k : Int, m.waitTime = k * Second →
        b.input.WaitTimeSeconds * Second = m.waitTime)) ∧
    (∀ (l : MessageLock) (k : Int) (s1 : σ),
      l.changeMessageVisibility w (k * Second) s1 =
        w.ChangeMessageVisibility ⟨l.queue, l.message.ReceiptHandle, k⟩ s1 ∧
      (l.changeMessageVisibilityInput (k * Second)).VisibilityTimeout * Second = k * Second) := by
  refine ⟨?_, ?_⟩
  · intro b hb
    obtain ⟨hin, _⟩ := consumeLoop_batch w m fuel 0 s r h b hb
    rw [hin]
    refine ⟨rfl, rfl, ?_, ?_⟩
    · intro k hk
      simp only [QueueConsumer.receiveMessageInput, hk, tdiv_mul_second]
    · intro k hk
      simp only [QueueConsumer.receiveMessageInput, hk, tdiv_mul_second]
  · intro l k s1
    simp only [MessageLock.changeMessageVisibility, MessageLock.changeMessageVisibilityInput,
      tdiv_mul_second, and_self]

/-- An instance of C26: the receive requests of the run of `scriptOneSuccess` by
the consumer of the tests, whose visibility timeout is 150 seconds and whose wait
time is 20 seconds. -/
theorem C26_witness :
    testConsumer.ConsumeMessages (Script.world releaseAfterHeartbeat) 3 scriptOneSuccess =
      some (Script.run testConsumer releaseAfterHeartbeat 3 scriptOneSuccess) ∧
    (Script.run testConsumer releaseAfterHeartbeat 3 scriptOneSuccess).log.map
      (fun b => b.input) =
      [⟨["SentTimestamp"], ["All"], "foo", 10, 150, 20⟩,
        ⟨["SentTimestamp"], ["All"], "foo", 10, 150, 20⟩] ∧
    ((∀ b ∈ (Script.run testConsumer releaseAfterHeartbeat 3 scriptOneSuccess).log,
      b.input.QueueUrl = testConsumer.queue ∧
      b.input.MaxNumberOfMessages = testConsumer.maxNumberOfMessages ∧
      (∀ k : Int, testConsumer.visibilityTimeout = k * Second →
        b.input.VisibilityTimeout * Second = testConsumer.visibilityTimeout) ∧
      (∀ k : Int, testConsumer.waitTime = k * Second →
        b.input.WaitTimeSeconds * Second = testConsumer.waitTime)) ∧
    (∀ (l : MessageLock) (k : Int) (s1 : Script),
      l.changeMessageVisibility (Script.world releaseAfterHeartbeat) (k * Second) s1 =
        (Script.world releaseAfterHeartbeat).ChangeMessageVisibility
          ⟨l.queue, l.message.ReceiptHandle, k⟩ s1 ∧
      (l.changeMessageVisibilityInput (k * Second)).VisibilityTimeout * Second =
        k * Second)) :=
  ⟨rfl, by decide,
    C26_requests_carry_configuration (Script.world releaseAfterHeartbeat) testConsumer 3
      scriptOneSuccess (Script.run testConsumer releaseAfterHeartbeat 3 scriptOneSuccess) rfl⟩

/-! ## Locks are created before the handler runs (C25) -/

/-- Splitting a list at an element that its first part does not hold. -/
theorem append_split_of_not_mem {α : Type} (A S pre post : List α) (x : α)
    (h : A ++ S = pre ++ x :: post) (hx : x ∉ A) :
    ∃ S1, pre = A ++ S1 ∧ S = S1 ++ x :: post := by
  rcases List.append_eq_append_iff.mp h with ⟨a, h1, h2⟩ | ⟨c, h1, h2⟩
  · exact ⟨a, h1, h2⟩
  · cases c with
    | nil =>
      simp only [List.append_nil, List.nil_append] at h1 h2
      exact ⟨[], by simp [h1], h2.symm⟩
    | cons y c =>
      simp only [List.cons_append, List.cons.injEq] at h2
      exfalso
      apply hx
      rw [h1, h2.1]
      simp

/-- The step of a lock whose handler is called starts with the call of the
handler for the body of its message. -/
theorem isStep_handler_head (w : World σ) (j : Nat) (lock : MessageLock) (step : List Event)
    (h : IsStep w j lock step) (n : Nat) (body : String) (err : Option GoError)
    (hm : Event.handler n body err ∈ step) :
    ∃ err1 rest, step = Event.handler j (StringValue lock.message.Body) err1 :: rest := by
  rcases h with ⟨s, r, _, hst⟩ | ⟨s, err1, r, _, hst⟩
  · subst hst
    rw [mem_releaseEvents] at hm
    rcases hm with hm | ⟨c, _, hm⟩ | hm <;> cases hm
  · exact ⟨err1, _, by rw [hst, List.cons_append]⟩

/-- The loop that locks the messages creates the lock of each message, in
order, and its trace holds one creation per lock, with its position. -/
theorem lockMessages_eq (m : QueueConsumer) :
    ∀ (messages : List Message) (index : Nat),
      (m.lockMessages index messages).1 =
        messages.map (NewMessageLock m.queue m.visibilityTimeout m.heartbeatInterval) ∧
      (m.lockMessages index messages).2 =
        ((messages.map (NewMessageLock m.queue m.visibilityTimeout
          m.heartbeatInterval)).enumFrom index).map fun p => Event.lock p.1 p.2 := by
  intro messages
  induction messages with
  | nil => intro index; exact ⟨rfl, rfl⟩
  | cons msg rest ih =>
    intro index
    obtain ⟨h1, h2⟩ := ih (index + 1)
    simp only [QueueConsumer.lockMessages, h1, h2, List.map_cons, List.enumFrom_cons, and_self]

/-- The iterations of the loop over the locks create no lock. -/
theorem processLocks_steps_no_lock (w : World σ) (locks : List MessageLock) (i : Nat)
    (fe : Option GoError) (c : Nat) (s : σ) (p : Progress σ)
    (h : processLocks w i locks fe c s = some p) :
    ∀ e ∈ p.steps.flatten, e.isLock = false := by
  obtain ⟨hlen, hall⟩ := processLocks_isStep w locks i fe c s p h
  intro e he
  simp only [List.mem_flatten] at he
  obtain ⟨step, hstep, he⟩ := he
  obtain ⟨j, hj, hget⟩ := List.getElem_of_mem hstep
  have hjl : j < locks.length := by rw [← hlen]; exact hj
  obtain ⟨step2, hs2, his⟩ := hall j locks[j] (List.getElem?_eq_getElem hjl)
  rw [List.getElem?_eq_getElem hj, hget] at hs2
  cases hs2
  have h0 := (isStep_release_once w _ _ step his).2.2.2.1
  rw [List.countP_eq_zero] at h0
  simpa using h0 e he

/-- The creations of the locks of a batch, as events. -/
theorem filter_isLock_lock_events (locks : List MessageLock) (t : List Event)
    (ht : ∀ e ∈ t, e.isLock = false) :
    ((locks.enum.map fun p => Event.lock p.1 p.2) ++ t).filter Event.isLock =
      locks.enum.map fun p => Event.lock p.1 p.2 := by
  rw [List.filter_append, List.filter_eq_self.mpr, List.filter_eq_nil_iff.mpr, List.append_nil]
  · intro e he
    simp [ht e he]
  · intro e he
    simp only [List.mem_map] at he
    obtain ⟨_, _, he⟩ := he
    subst he
    rfl

/-- The trace of the body of the loop for a batch that holds a message: the
creations of locks are those of the locks of the messages, one per message and in
receipt order; they all come before every call of the handler; and the first call
of the handler is for the first message. -/
theorem processBatch_trace (w : World σ) (m : QueueConsumer) (messages : List Message)
    (c : Nat) (s : σ) (p : Progress σ) (trace : List Event)
    (h : m.processBatch w messages c s = some (p, trace)) (hne : messages ≠ []) :
    processLocks w 0 (messages.map
      (NewMessageLock m.queue m.visibilityTimeout m.heartbeatInterval)) none c s = some p ∧
    trace = (((messages.map (NewMessageLock m.queue m.visibilityTimeout
      m.heartbeatInterval)).enum.map fun p => Event.lock p.1 p.2) ++ p.steps.flatten) ∧
    trace.filter Event.isLock = ((messages.map (NewMessageLock m.queue m.visibilityTimeout
      m.heartbeatInterval)).enum.map fun p => Event.lock p.1 p.2) ∧
    (∀ (pre post : List Event) (j : Nat) (body : String) (err : Option GoError),
      trace = pre ++ Event.handler j body err :: post →
      pre.filter Event.isLock = ((messages.map (NewMessageLock m.queue m.visibilityTimeout
        m.heartbeatInterval)).enum.map fun p => Event.lock p.1 p.2)) ∧
    ∃ msg err pre post, messages.head? = some msg ∧
      trace = pre ++ Event.handler 0 (StringValue msg.Body) err :: post ∧
      ∀ e ∈ pre, e.isHandler = false := by
  obtain ⟨hl1, hl2⟩ := lockMessages_eq m messages 0
  simp only [QueueConsumer.processBatch, hl1, hl2] at h
  cases hp : processLocks w 0 (messages.map
      (NewMessageLock m.queue m.visibilityTimeout m.heartbeatInterval)) none c s with
  | none => rw [hp] at h; cases h
  | some p1 =>
    rw [hp] at h
    simp only [Option.some.injEq, Prod.mk.injEq] at h
    obtain ⟨h1, h2⟩ := h
    subst h1
    have htr : trace = (((messages.map (NewMessageLock m.queue m.visibilityTimeout
        m.heartbeatInterval)).enum.map fun p => Event.lock p.1 p.2) ++ p1.steps.flatten) := by
      rw [← h2]; rfl
    have hnl := processLocks_steps_no_lock w _ 0 none c s p1 hp
    refine ⟨rfl, htr, ?_, ?_, ?_⟩
    · rw [htr]
      exact filter_isLock_lock_events _ _ hnl
    · intro pre post j body err hev
      rw [htr] at hev
      obtain ⟨S1, hpre, hS⟩ := append_split_of_not_mem _ _ pre post _ hev (by
        intro hmem
        simp only [List.mem_map] at hmem
        obtain ⟨_, _, hmem⟩ := hmem
        cases hmem)
      rw [hpre]
      apply filter_isLock_lock_events
      intro e he
      exact hnl e (by rw [hS]; exact List.mem_append_left _ he)
    · cases hmsgs : messages with
      | nil => exact absurd hmsgs hne
      | cons msg msgs =>
        rw [hmsgs, List.map_cons] at hp
        obtain ⟨step, err, hs0, hmem⟩ := processLocks_head_handled w 0 _ _ c s p1 hp
        obtain ⟨_, hall⟩ := processLocks_isStep w _ 0 none c s p1 hp
        obtain ⟨st, hst1, hst2⟩ := hall 0
          (NewMessageLock m.queue m.visibilityTimeout m.heartbeatInterval msg) (by simp)
        rw [hs0] at hst1
        cases hst1
        obtain ⟨err1, rest, hstep⟩ := isStep_handler_head w _ _ step hst2 _ _ _ hmem
        obtain ⟨tl, htl⟩ : ∃ tl, p1.steps = step :: tl := by
          cases hbs : p1.steps with
          | nil => rw [hbs] at hs0; simp at hs0
          | cons x tl =>
            rw [hbs] at hs0
            simp only [List.getElem?_cons_zero, Option.some.injEq] at hs0
            exact ⟨tl, by rw [hs0]⟩
        refine ⟨msg, err1, ((msg :: msgs).map (NewMessageLock m.queue m.visibilityTimeout
          m.heartbeatInterval)).enum.map fun p => Event.lock p.1 p.2, rest ++ tl.flatten,
          rfl, ?_, ?_⟩
        · rw [htr, hmsgs, htl, List.flatten_cons, hstep]
          simp [NewMessageLock]
        · intro e he
          simp only [List.mem_map] at he
          obtain ⟨_, _, he⟩ := he
          subst he
          rfl

/-- C25: every batch of a run that is received without error and holds a message
is one execution of the body of the loop: the loop that locks the messages, then
the loop that processes the locks, whose steps are the steps of the batch and
whose trace, after the receive call, is the sequence of the events of the batch.
The locks created are the locks of the messages received, one per message and in
receipt order; the creations of locks in the trace are exactly these, in that
order; they all come before every call of the handler; and the first call of
the handler is for the first message of the batch. -/
theorem C25_locks_created_before_handler (w : World σ) (m : QueueConsumer) (fuel : Nat)
    (s : σ) (r : Outcome σ) (h : m.ConsumeMessages w fuel s = some r) (b : BatchLog)
    (hb : b ∈ r.log) (hok : b.err = none) (hne : b.messages ≠ []) :
    ∃ c0 s0 p trace, m.processBatch w b.messages c0 s0 = some (p, trace) ∧
      p.steps = b.steps ∧
      b.events = Event.receive b.input b.messages b.err :: trace ∧
      b.locks = (m.lockMessages 0 b.messages).1 ∧
      b.locks = b.messages.map
        (NewMessageLock m.queue m.visibilityTimeout m.heartbeatInterval) ∧
      trace.filter Event.isLock = (b.locks.enum.map fun p => Event.lock p.1 p.2) ∧
      (∀ (pre post : List Event) (j : Nat) (body : String) (err : Option GoError),
        trace = pre ++ Event.handler j body err :: post →
        pre.filter Event.isLock = (b.locks.enum.map fun p => Event.lock p.1 p.2)) ∧
      ∃ msg err pre post, b.messages.head? = some msg ∧
        trace = pre ++ Event.handler 0 (StringValue msg.Body) err :: post ∧
        ∀ e ∈ pre, e.isHandler = false := by
  obtain ⟨_, hcase⟩ := consumeLoop_batch w m fuel 0 s r h b hb
  rcases hcase with ⟨hbad, _, _⟩ | ⟨_, _, hlocks, c0, s0, p, hp, hsteps⟩
  · rcases hbad with hbad | hbad
    · exact absurd hok hbad
    · exact absurd hbad hne
  obtain ⟨hl1, hl2⟩ := lockMessages_eq m b.messages 0
  have hrun : m.processBatch w b.messages c0 s0 =
      some (p, (m.lockMessages 0 b.messages).2 ++ p.steps.flatten) := by
    simp only [QueueConsumer.processBatch, hl1, ← hlocks, hp]
  obtain ⟨_, htr, t1, t2, t3⟩ := processBatch_trace w m b.messages c0 s0 p _ hrun hne
  rw [← hlocks] at htr t1 t2
  refine ⟨c0, s0, p, _, hrun, hsteps, ?_, by rw [hl1, hlocks], hlocks, t1, t2, t3⟩
  rw [htr, hsteps]
  rfl

/-- An instance of C25: in the batch of the run of `scriptRetry` two messages are
received; the body of the loop creates the two locks, then calls the handler for
the first message. -/
theorem C25_witness :
    testConsumer.ConsumeMessages (Script.world releaseAfterHeartbeat) 3 scriptRetry =
      some (Script.run testConsumer releaseAfterHeartbeat 3 scriptRetry) ∧
    retryBatch ∈ (Script.run testConsumer releaseAfterHeartbeat 3 scriptRetry).log ∧
    retryBatch.err = none ∧ retryBatch.messages ≠ [] ∧
    (testConsumer.processBatch (Script.world releaseAfterHeartbeat)
        [testMessage 1, testMessage 2] 0
        ⟨[], [none, some (NewRetriableError (2520 * Second))], [], []⟩).map
          (fun x => x.2.take 3) =
      some [Event.lock 0 ⟨"foo", 150 * Second, 60 * Second, testMessage 1⟩,
        Event.lock 1 ⟨"foo", 150 * Second, 60 * Second, testMessage 2⟩,
        Event.handler 0 "qux1" none] ∧
    ∃ c0 s0 p trace, testConsumer.processBatch (Script.world releaseAfterHeartbeat)
        retryBatch.messages c0 s0 = some (p, trace) ∧
      p.steps = retryBatch.steps ∧
      retryBatch.events =
        Event.receive retryBatch.input retryBatch.messages retryBatch.err :: trace ∧
      retryBatch.locks = (testConsumer.lockMessages 0 retryBatch.messages).1 ∧
      retryBatch.locks = retryBatch.messages.map (NewMessageLock testConsumer.queue
        testConsumer.visibilityTimeout testConsumer.heartbeatInterval) ∧
      trace.filter Event.isLock = (retryBatch.locks.enum.map fun p => Event.lock p.1 p.2) ∧
      (∀ (pre post : List Event) (j : Nat) (body : String) (err : Option GoError),
        trace = pre ++ Event.handler j body err :: post →
        pre.filter Event.isLock = (retryBatch.locks.enum.map fun p => Event.lock p.1 p.2)) ∧
      ∃ msg err pre post, retryBatch.messages.head? = some msg ∧
        trace = pre ++ Event.handler 0 (StringValue msg.Body) err :: post ∧
        ∀ e ∈ pre, e.isHandler = false :=
  ⟨rfl, by decide, by decide, by decide, by decide,
    C25_locks_created_before_handler (Script.world releaseAfterHeartbeat) testConsumer 3
      scriptRetry (Script.run testConsumer releaseAfterHeartbeat 3 scriptRetry) rfl
      retryBatch (by decide) (by decide) (by decide)⟩

/-! ## Wrapped retriable errors (C28) -/

/-- The delay that `xerrors.As` finds is the delay of the `RetriableError` of the
unwrap chain. -/
theorem asRetriableError_of_mem_chain (d : Duration) :
    ∀ err : GoError, GoError.retriable d ∈ err.chain → asRetriableError err = some d := by
  intro err
  induction err with
  | retriable d1 =>
    intro h
    simp only [GoError.chain, List.mem_singleton, GoError.retriable.injEq] at h
    rw [asRetriableError, h]
  | wrapped t c ih =>
    intro h
    simp only [GoError.chain, List.mem_cons] at h
    rcases h with h | h
    · cases h
    · rw [asRetriableError, ih h]
  | plain t =>
    intro h
    simp [GoError.chain] at h

/-- No delay is found when the unwrap chain holds no `RetriableError`. -/
theorem asRetriableError_of_not_mem_chain :
    ∀ err : GoError, (∀ d, GoError.retriable d ∉ err.chain) → asRetriableError err = none := by
  intro err
  induction err with
  | retriable d1 =>
    intro h
    exact absurd (by simp [GoError.chain]) (h d1)
  | wrapped t c ih =>
    intro h
    rw [asRetriableError]
    apply ih
    intro d hd
    exact h d (by simp [GoError.chain, hd])
  | plain t => intro _; rfl

/-- The unwrap chain starts with the error and follows `Unwrap`. -/
theorem chain_eq_unwrap (err : GoError) :
    err.chain = err :: (match err.Unwrap with
      | none => []
      | some c => c.chain) := by
  cases err <;> rfl

/-- The loop of a lock does not call the handler. -/
theorem loop_withHandlerError (w : World σ) (e : GoError) (l : MessageLock)
    (req : Option releaseRequest) :
    ∀ (sched : List SelectCase) (s : σ),
      l.loop (w.withHandlerError e) req sched s = l.loop w req sched s := by
  intro sched
  induction sched with
  | nil => intro s; rfl
  | cons sc rest ih =>
    intro s
    cases sc with
    | release => rfl
    | done => rfl
    | timeAfter =>
      rw [loop_timeAfter, loop_timeAfter, ih]
      rfl

/-- One iteration over a lock whose handler returns an error from which a delay is
extracted: the lock is released with the delay; the error is fatal when the delay
is zero, and otherwise the outcome is the error of the release. -/
theorem processLock_delay (w : World σ) (i : Nat) (lock : MessageLock) (c : Nat) (s : σ)
    (err : GoError) (d : Duration)
    (herr : (w.handler (StringValue lock.message.Body) s).1 = some err)
    (hd : extractDelay (some err) = some d) :
    processLock w i lock none c s =
      match lock.Release w (some d) (w.handler (StringValue lock.message.Body) s).2 with
      | none => none
      | some r => some ⟨if d ≠ 0 then r.err else some err, c, r.world,
          [Event.handler i (StringValue lock.message.Body) (some err) ::
            releaseEvents i (some d) r]⟩ := by
  simp only [processLock, herr, hd]
  cases hr : lock.Release w (some d) (w.handler (StringValue lock.message.Body) s).2 with
  | none => rfl
  | some r =>
    by_cases h0 : d = 0
    · simp [h0]
    · cases hre : r.err <;> simp [h0, hre]

/-- C28: for an error whose unwrap chain holds a `RetriableError` of delay `d`,
`extractDelay` returns `d`, as it does for the bare `RetriableError`; so the
iteration over a lock whose handler returns the error does what it does when the
handler returns the bare `RetriableError` instead: it returns in the same cases,
with the same count, the same world and the same events after the call of the
handler (the same release, the same calls to the queue), and the same outcome,
except that a fatal outcome (a delay of zero) is the error that the handler
returned.  For `nil`, `extractDelay` returns `nil`, and for an error whose chain
holds no `RetriableError` it returns a delay of zero. -/
theorem C28_extractDelay_unwraps (err : GoError) (d : Duration)
    (hd : GoError.retriable d ∈ err.chain) :
    extractDelay (some err) = some d ∧
    extractDelay (some (NewRetriableError d)) = some d ∧
    (∀ (w : World σ) (i : Nat) (lock : MessageLock) (c : Nat) (s : σ),
      (w.handler (StringValue lock.message.Body) s).1 = some err →
      (processLock w i lock none c s = none ↔
        processLock (w.withHandlerError (NewRetriableError d)) i lock none c s = none) ∧
      ∀ q1 q2, processLock w i lock none c s = some q1 →
        processLock (w.withHandlerError (NewRetriableError d)) i lock none c s = some q2 →
        q1.consumed = q2.consumed ∧ q1.world = q2.world ∧
        q1.steps.map List.tail = q2.steps.map List.tail ∧
        (q1.firstErr = none ↔ q2.firstErr = none) ∧
        (d ≠ 0 → q1.firstErr = q2.firstErr) ∧
        (d = 0 → q1.firstErr = some err ∧ q2.firstErr = some (NewRetriableError d))) ∧
    extractDelay none = none ∧
    ∀ other : GoError, (∀ d2, GoError.retriable d2 ∉ other.chain) →
      extractDelay (some other) = some 0 := by
  have h1 : extractDelay (some err) = some d := by
    simp only [extractDelay, asRetriableError_of_mem_chain d err hd]
  have h2 : extractDelay (some (NewRetriableError d)) = some d := rfl
  refine ⟨h1, h2, ?_, rfl, ?_⟩
  · intro w i lock c s herr
    have e1 := processLock_delay w i lock c s err d herr h1
    have e2 := processLock_delay (w.withHandlerError (NewRetriableError d)) i lock c s
      (NewRetriableError d) d rfl h2
    have hrel : lock.Release (w.withHandlerError (NewRetriableError d)) (some d)
        ((w.withHandlerError (NewRetriableError d)).handler (StringValue lock.message.Body) s).2 =
        lock.Release w (some d) (w.handler (StringValue lock.message.Body) s).2 :=
      loop_withHandlerError w _ lock _ _ _
    rw [hrel] at e2
    rw [e1, e2]
    cases lock.Release w (some d) (w.handler (StringValue lock.message.Body) s).2 with
    | none => simp
    | some r =>
      refine ⟨by simp, ?_⟩
      intro q1 q2 hq1 hq2
      simp only [Option.some.injEq] at hq1 hq2
      subst hq1 hq2
      by_cases h0 : d = 0
      · simp [h0]
      · simp [h0]
  · intro other hno
    simp only [extractDelay, asRetriableError_of_not_mem_chain other hno, noDelay]

/-- An instance of C28: an error that wraps a `RetriableError` of 2520 seconds. -/
theorem C28_witness :
    GoError.retriable (2520 * Second) ∈
      (GoError.wrapped "handler failed" (NewRetriableError (2520 * Second))).chain ∧
    extractDelay (some (GoError.wrapped "handler failed" (NewRetriableError (2520 * Second)))) =
      some (2520 * Second) ∧
    extractDelay (some (NewRetriableError (2520 * Second))) = some (2520 * Second) ∧
    (∀ (w : World Script) (i : Nat) (lock : MessageLock) (c : Nat) (s : Script),
      (w.handler (StringValue lock.message.Body) s).1 =
        some (GoError.wrapped "handler failed" (NewRetriableError (2520 * Second))) →
      (processLock w i lock none c s = none ↔
        processLock (w.withHandlerError (NewRetriableError (2520 * Second))) i lock none c s =
          none) ∧
      ∀ q1 q2, processLock w i lock none c s = some q1 →
        processLock (w.withHandlerError (NewRetriableError (2520 * Second))) i lock none c s =
          some q2 →
        q1.consumed = q2.consumed ∧ q1.world = q2.world ∧
        q1.steps.map List.tail = q2.steps.map List.tail ∧
        (q1.firstErr = none ↔ q2.firstErr = none) ∧
        ((2520 * Second : Duration) ≠ 0 → q1.firstErr = q2.firstErr) ∧
        ((2520 * Second : Duration) = 0 →
          q1.firstErr =
            some (GoError.wrapped "handler failed" (NewRetriableError (2520 * Second))) ∧
          q2.firstErr = some (NewRetriableError (2520 * Second)))) ∧
    extractDelay none = none ∧
    ∀ other : GoError, (∀ d2, GoError.retriable d2 ∉ other.chain) →
      extractDelay (some other) = some 0 :=
  ⟨by decide,
    C28_extractDelay_unwraps (GoError.wrapped "handler failed"
      (NewRetriableError (2520 * Second))) (2520 * Second) (by decide)⟩

end Sqs

/-! ## Sort parameters (C30) -/

namespace Db

/-- One iteration of the loop of `SortConverter` appends the conversion of the
entry. -/
theorem iteration_eq (params : SortParameters) (cond : String) :
    SortConverter.iteration params cond = params ++ (sortParameterOfEntry cond).toList := by
  unfold SortConverter.iteration sortParameterOfEntry
  cases h : (TrimSpace cond).data with
  | nil => simp
  | cons c rest =>
    by_cases h1 : c = '-'
    · subst h1; simp
    · by_cases h2 : c = '+'
      · subst h2; simp
      · simp [h1, h2]

/-- The loop of `SortConverter` appends the conversions of the entries in order. -/
theorem foldl_iteration (sorts : List String) :
    ∀ params : SortParameters, sorts.foldl SortConverter.iteration params =
      params ++ sorts.filterMap sortParameterOfEntry := by
  induction sorts with
  | nil => intro params; simp
  | cons cond rest ih =>
    intro params
    rw [List.foldl_cons, ih, iteration_eq]
    cases h : sortParameterOfEntry cond <;> simp [List.filterMap_cons, h]

/-- The direction of the conversion of an entry. -/
theorem sortParameterOfEntry_direction (entry : String) (p : SortParameter)
    (h : sortParameterOfEntry entry = some p) :
    p.Direction = Ascending ∨ p.Direction = Descending := by
  unfold sortParameterOfEntry at h
  split at h
  · cases h
  · cases h; exact Or.inr rfl
  · cases h; exact Or.inl rfl
  · cases h; exact Or.inl rfl

/-- C30: `SortConverter` returns the conversions of the entries that are not
blank, in input order: one parameter per entry that is not empty once trimmed,
which is `Descending` with the rest of the entry after a leading `-`, `Ascending`
with the rest after a leading `+`, and `Ascending` with the whole trimmed entry
otherwise; blank entries give nothing, and every direction returned is
`Ascending` or `Descending`, for which `String` gives `asc` or `desc`. -/
theorem C30_SortConverter_entries (sorts : List String) :
    SortConverter sorts = sorts.filterMap sortParameterOfEntry ∧
    (SortConverter sorts).length = sorts.countP (fun entry => (TrimSpace entry).data ≠ []) ∧
    (∀ entry, (TrimSpace entry).data = [] → sortParameterOfEntry entry = none) ∧
    (∀ entry rest, (TrimSpace entry).data = '-' :: rest →
      sortParameterOfEntry entry = some ⟨⟨rest⟩, Descending⟩) ∧
    (∀ entry rest, (TrimSpace entry).data = '+' :: rest →
      sortParameterOfEntry entry = some ⟨⟨rest⟩, Ascending⟩) ∧
    (∀ entry c rest, (TrimSpace entry).data = c :: rest → c ≠ '-' → c ≠ '+' →
      sortParameterOfEntry entry = some ⟨TrimSpace entry, Ascending⟩) ∧
    ∀ p ∈ SortConverter sorts, (p.Direction = Ascending ∨ p.Direction = Descending) ∧
      (SortDirection.String p.Direction = some "asc" ∨
        SortDirection.String p.Direction = some "desc") := by
  have h1 : SortConverter sorts = sorts.filterMap sortParameterOfEntry := by
    rw [SortConverter, foldl_iteration]; rfl
  refine ⟨h1, ?_, ?_, ?_, ?_, ?_, ?_⟩
  · rw [h1]
    induction sorts with
    | nil => rfl
    | cons e rest ih =>
      have ih2 := ih (by rw [SortConverter, foldl_iteration]; rfl)
      cases hd : (TrimSpace e).data with
      | nil =>
        have : sortParameterOfEntry e = none := by simp [sortParameterOfEntry, hd]
        simp [List.filterMap_cons, this, hd, ih2]
      | cons c t =>
        have : ∃ p, sortParameterOfEntry e = some p := by
          unfold sortParameterOfEntry
          rw [hd]
          split
          · rename_i heq; cases heq
          · exact ⟨_, rfl⟩
          · exact ⟨_, rfl⟩
          · exact ⟨_, rfl⟩
        obtain ⟨p, hp⟩ := this
        simp [List.filterMap_cons, hp, hd, ih2]
  · intro entry h
    simp [sortParameterOfEntry, h]
  · intro entry rest h
    simp [sortParameterOfEntry, h]
  · intro entry rest h
    simp [sortParameterOfEntry, h]
  · intro entry c rest h hm hp
    unfold sortParameterOfEntry
    rw [h]
    split
    · rename_i heq; cases heq
    · rename_i heq; cases heq; exact absurd rfl hm
    · rename_i heq; cases heq; exact absurd rfl hp
    · rfl
  · intro p hp
    rw [h1, List.mem_filterMap] at hp
    obtain ⟨entry, _, he⟩ := hp
    rcases sortParameterOfEntry_direction entry p he with h | h
    · exact ⟨Or.inl h, Or.inl (by rw [h]; rfl)⟩
    · exact ⟨Or.inr h, Or.inr (by rw [h]; rfl)⟩

/-- An example of C30: signs, blanks and surrounding white space. -/
theorem C30_witness :
    SortConverter [" -name ", "  ", "+age", "id", "-", "", "- x"] =
      [⟨"name", Descending⟩, ⟨"age", Ascending⟩, ⟨"id", Ascending⟩, ⟨"", Descending⟩,
        ⟨" x", Descending⟩] ∧
    SortConverter [" -name ", "  ", "+age", "id", "-", "", "- x"] =
      [" -name ", "  ", "+age", "id", "-", "", "- x"].filterMap sortParameterOfEntry :=
  ⟨by decide, (C30_SortConverter_entries [" -name ", "  ", "+age", "id", "-", "", "- x"]).1⟩

end Db

namespace Sqly

/-! ## ORDER BY lists (C22, C29) -/

/-- The test of a column set is membership. -/
theorem has_iff (set : columnSet) (name : String) : set.has name = true ↔ name ∈ set := by
  simp [columnSet.has]

/-- The allowed columns of a new builder are the columns given. -/
theorem mem_foldl_add (columns : List String) :
    ∀ (set : columnSet) (name : String),
      name ∈ columns.foldl columnSet.add set ↔ name ∈ columns ∨ name ∈ set := by
  induction columns with
  | nil => intro set name; simp
  | cons c rest ih =>
    intro set name
    rw [List.foldl_cons, ih]
    simp only [columnSet.add, List.mem_cons]
    constructor
    · rintro (h | h | h)
      · exact Or.inl (Or.inr h)
      · exact Or.inl (Or.inl h)
      · exact Or.inr h
    · rintro ((h | h) | h)
      · exact Or.inr (Or.inl h)
      · exact Or.inl h
      · exact Or.inr (Or.inr h)

/-- The errors of `toOrderBy`: the column is not allowed, or the direction is
neither `Ascending` nor `Descending`. -/
theorem toOrderBy_error (b : OrderByBuilder) (param : Db.SortParameter) (err : OrderByError)
    (h : b.toOrderBy param = Except.error err) :
    (err = OrderByError.invalidSortColumn param.FieldName ∧
      param.FieldName ∉ b.allowedColumns) ∨
    (err = OrderByError.invalidSortDirection param.Direction ∧
      param.Direction ≠ Db.Ascending ∧ param.Direction ≠ Db.Descending) := by
  unfold OrderByBuilder.toOrderBy at h
  split at h
  · rename_i hc
    cases h
    exact Or.inl ⟨rfl, fun hm => hc ((has_iff _ _).mpr hm)⟩
  · split at h
    · cases h
    · split at h
      · cases h
      · rename_i h1 h2
        cases h
        exact Or.inr ⟨rfl, h1, h2⟩

/-- A successful `toOrderBy`: the column is allowed and the text is the ORDER BY
of the parameter. -/
theorem toOrderBy_ok (b : OrderByBuilder) (param : Db.SortParameter) (text : String)
    (h : b.toOrderBy param = Except.ok text) :
    param.FieldName ∈ b.allowedColumns ∧ IsOrderByOf param text := by
  unfold OrderByBuilder.toOrderBy at h
  split at h
  · cases h
  · rename_i hc
    have hmem : param.FieldName ∈ b.allowedColumns := by
      rw [← has_iff]
      simpa using hc
    split at h
    · rename_i h1
      cases h
      exact ⟨hmem, Or.inl ⟨h1, rfl⟩⟩
    · split at h
      · rename_i h2
        cases h
        exact ⟨hmem, Or.inr ⟨h2, rfl⟩⟩
      · cases h

/-- A parameter whose column is not allowed makes `appendOrderBys` fail, when the
columns sorted so far are allowed. -/
theorem appendOrderBys_rejects (b : OrderByBuilder) :
    ∀ (params : Db.SortParameters) (orderBys : List String) (sortedColumns : columnSet),
      (∀ name ∈ sortedColumns, name ∈ b.allowedColumns) →
      (∃ param ∈ params, param.FieldName ∉ b.allowedColumns) →
      ∃ err, b.appendOrderBys orderBys sortedColumns params = Except.error err ∧
        ((∃ q ∈ params, err = OrderByError.invalidSortColumn q.FieldName ∧
            q.FieldName ∉ b.allowedColumns) ∨
          (∃ q ∈ params, err = OrderByError.invalidSortDirection q.Direction ∧
            q.Direction ≠ Db.Ascending ∧ q.Direction ≠ Db.Descending)) := by
  intro params
  induction params with
  | nil => intro _ _ _ h; simp at h
  | cons p rest ih =>
    intro orderBys sortedColumns hs hbad
    have lift : ∀ (x : Except OrderByError (List String × columnSet)),
        (∃ err, x = Except.error err ∧
          ((∃ q ∈ rest, err = OrderByError.invalidSortColumn q.FieldName ∧
              q.FieldName ∉ b.allowedColumns) ∨
            (∃ q ∈ rest, err = OrderByError.invalidSortDirection q.Direction ∧
              q.Direction ≠ Db.Ascending ∧ q.Direction ≠ Db.Descending))) →
        ∃ err, x = Except.error err ∧
          ((∃ q ∈ p :: rest, err = OrderByError.invalidSortColumn q.FieldName ∧
              q.FieldName ∉ b.allowedColumns) ∨
            (∃ q ∈ p :: rest, err = OrderByError.invalidSortDirection q.Direction ∧
              q.Direction ≠ Db.Ascending ∧ q.Direction ≠ Db.Descending)) := by
      rintro x ⟨err, hx, h | h⟩
      · obtain ⟨q, hq, h⟩ := h
        exact ⟨err, hx, Or.inl ⟨q, List.mem_cons_of_mem _ hq, h⟩⟩
      · obtain ⟨q, hq, h⟩ := h
        exact ⟨err, hx, Or.inr ⟨q, List.mem_cons_of_mem _ hq, h⟩⟩
    rw [OrderByBuilder.appendOrderBys]
    by_cases hsorted : sortedColumns.has p.FieldName = true
    · rw [if_pos hsorted]
      apply lift
      apply ih orderBys sortedColumns hs
      obtain ⟨q, hq, hqb⟩ := hbad
      rcases List.mem_cons.mp hq with hq | hq
      · subst hq
        exact absurd (hs _ ((has_iff _ _).mp hsorted)) hqb
      · exact ⟨q, hq, hqb⟩
    · rw [if_neg hsorted]
      cases hto : b.toOrderBy p with
      | error err =>
        refine ⟨err, rfl, ?_⟩
        rcases toOrderBy_error b p err hto with h | h
        · exact Or.inl ⟨p, List.mem_cons_self _ _, h⟩
        · exact Or.inr ⟨p, List.mem_cons_self _ _, h⟩
      | ok text =>
        apply lift
        apply ih
        · intro name hname
          simp only [columnSet.add, List.mem_cons] at hname
          rcases hname with hname | hname
          · rw [hname]; exact (toOrderBy_ok b p text hto).1
          · exact hs name hname
        · obtain ⟨q, hq, hqb⟩ := hbad
          rcases List.mem_cons.mp hq with hq | hq
          · subst hq
            exact absurd (toOrderBy_ok b q text hto).1 hqb
          · exact ⟨q, hq, hqb⟩

/-- C22: when a sort parameter of the list names a column that is not among the
allowed columns of the builder, `Build` returns an error and no list of ORDER
BYs: the error of a column of the list that is not allowed, or of a direction of
the list that is neither `Ascending` nor `Descending`.  The allowed columns of a
builder made by `NewOrderByBuilder` are the columns given. -/
theorem C22_Build_rejects_unknown_column (b : OrderByBuilder) (params : Db.SortParameters)
    (param : Db.SortParameter) (hp : param ∈ params)
    (hbad : param.FieldName ∉ b.allowedColumns) :
    (∃ err, b.Build params = Except.error err ∧
      ((∃ q ∈ params, err = OrderByError.invalidSortColumn q.FieldName ∧
          q.FieldName ∉ b.allowedColumns) ∨
        (∃ q ∈ params, err = OrderByError.invalidSortDirection q.Direction ∧
          q.Direction ≠ Db.Ascending ∧ q.Direction ≠ Db.Descending))) ∧
    ∀ (defaultSort : Db.SortParameters) (columns : List String) (name : String),
      name ∈ (NewOrderByBuilder defaultSort columns).allowedColumns ↔ name ∈ columns := by
  refine ⟨?_, ?_⟩
  · obtain ⟨err, herr, hwhich⟩ := appendOrderBys_rejects b params [] []
      (by intro name h; simp at h) ⟨param, hp, hbad⟩
    exact ⟨err, by rw [OrderByBuilder.Build, herr], hwhich⟩
  · intro defaultSort columns name
    simp [NewOrderByBuilder, mem_foldl_add]

/-- An instance of C22: the column `foo` is not allowed. -/
theorem C22_witness :
    (⟨"foo", Db.Descending⟩ : Db.SortParameter) ∈
      [(⟨"name", Db.Descending⟩ : Db.SortParameter), ⟨"foo", Db.Descending⟩] ∧
    (⟨"foo", Db.Descending⟩ : Db.SortParameter).FieldName ∉
      (NewOrderByBuilder [⟨"id", Db.Ascending⟩] ["id", "name", "age"]).allowedColumns ∧
    (NewOrderByBuilder [⟨"id", Db.Ascending⟩] ["id", "name", "age"]).Build
      [⟨"name", Db.Descending⟩, ⟨"foo", Db.Descending⟩] =
      Except.error (OrderByError.invalidSortColumn "foo") ∧
    ((∃ err, (NewOrderByBuilder [⟨"id", Db.Ascending⟩] ["id", "name", "age"]).Build
        [⟨"name", Db.Descending⟩, ⟨"foo", Db.Descending⟩] = Except.error err ∧
      ((∃ q ∈ [(⟨"name", Db.Descending⟩ : Db.SortParameter), ⟨"foo", Db.Descending⟩],
          err = OrderByError.invalidSortColumn q.FieldName ∧
          q.FieldName ∉
            (NewOrderByBuilder [⟨"id", Db.Ascending⟩] ["id", "name", "age"]).allowedColumns) ∨
        (∃ q ∈ [(⟨"name", Db.Descending⟩ : Db.SortParameter), ⟨"foo", Db.Descending⟩],
          err = OrderByError.invalidSortDirection q.Direction ∧
          q.Direction ≠ Db.Ascending ∧ q.Direction ≠ Db.Descending))) ∧
    ∀ (defaultSort : Db.SortParameters) (columns : List String) (name : String),
      name ∈ (NewOrderByBuilder defaultSort columns).allowedColumns ↔ name ∈ columns) :=
  ⟨by decide, by decide, rfl,
    C22_Build_rejects_unknown_column (NewOrderByBuilder [⟨"id", Db.Ascending⟩]
      ["id", "name", "age"]) [⟨"name", Db.Descending⟩, ⟨"foo", Db.Descending⟩]
      ⟨"foo", Db.Descending⟩ (by decide) (by decide)⟩

/-- A successful `appendOrderBys` appends the ORDER BYs of the parameters that are
the first of their column and whose column was not sorted before, in order, and
adds their columns to the sorted columns. -/
theorem appendOrderBys_ok (b : OrderByBuilder) :
    ∀ (params : Db.SortParameters) (orderBys : List String) (sortedColumns : columnSet)
      (r : List String × columnSet),
      b.appendOrderBys orderBys sortedColumns params = Except.ok r →
      ∃ (kept : List Db.SortParameter) (texts : List String),
        r.1 = orderBys ++ texts ∧ List.Forall₂ IsOrderByOf kept texts ∧
        kept.Sublist params ∧
        (∀ name, name ∈ r.2 ↔ name ∈ sortedColumns ∨ name ∈ kept.map Db.SortParameter.FieldName) ∧
        (kept.map Db.SortParameter.FieldName).Nodup ∧
        (∀ p ∈ kept, p.FieldName ∉ sortedColumns) ∧
        (∀ p ∈ params, p.FieldName ∈ r.2) ∧
        (∀ p ∈ kept, params.find? (fun q => q.FieldName == p.FieldName) = some p) := by
  intro params
  induction params with
  | nil =>
    intro orderBys sortedColumns r h
    simp only [OrderByBuilder.appendOrderBys, Except.ok.injEq] at h
    subst h
    exact ⟨[], [], by simp, List.Forall₂.nil, List.Sublist.slnil, by simp, by simp, by simp,
      by simp, by simp⟩
  | cons p rest ih =>
    intro orderBys sortedColumns r h
    rw [OrderByBuilder.appendOrderBys] at h
    by_cases hsorted : sortedColumns.has p.FieldName = true
    · rw [if_pos hsorted] at h
      obtain ⟨kept, texts, h1, h2, h3, h4, h5, h6, h7, h8⟩ := ih orderBys sortedColumns r h
      have hpm : p.FieldName ∈ sortedColumns := (has_iff _ _).mp hsorted
      refine ⟨kept, texts, h1, h2, h3.cons p, h4, h5, h6, ?_, ?_⟩
      · intro q hq
        rcases List.mem_cons.mp hq with hq | hq
        · subst hq
          exact (h4 _).mpr (Or.inl hpm)
        · exact h7 q hq
      · intro k hk
        have hne : (p.FieldName == k.FieldName) = false := by
          rw [beq_eq_false_iff_ne]
          intro heq
          exact h6 k hk (heq ▸ hpm)
        rw [List.find?_cons, hne]
        exact h8 k hk
    · rw [if_neg hsorted] at h
      have hpn : p.FieldName ∉ sortedColumns := fun hm => hsorted ((has_iff _ _).mpr hm)
      cases hto : b.toOrderBy p with
      | error err => rw [hto] at h; cases h
      | ok text =>
        rw [hto] at h
        obtain ⟨kept, texts, h1, h2, h3, h4, h5, h6, h7, h8⟩ := ih _ _ r h
        have hkp : ∀ k ∈ kept, k.FieldName ≠ p.FieldName := by
          intro k hk heq
          exact h6 k hk (by simp [columnSet.add, heq])
        refine ⟨p :: kept, text :: texts, ?_, ?_, ?_, ?_, ?_, ?_, ?_, ?_⟩
        · rw [h1]; simp
        · exact List.Forall₂.cons (toOrderBy_ok b p text hto).2 h2
        · exact h3.cons₂ p
        · intro name
          rw [h4]
          simp only [columnSet.add, List.mem_cons, List.map_cons]
          constructor
          · rintro ((h | h) | h)
            · exact Or.inr (Or.inl h)
            · exact Or.inl h
            · exact Or.inr (Or.inr h)
          · rintro (h | h | h)
            · exact Or.inl (Or.inr h)
            · exact Or.inl (Or.inl h)
            · exact Or.inr h
        · rw [List.map_cons, List.nodup_cons]
          refine ⟨?_, h5⟩
          intro hm
          obtain ⟨k, hk, hkf⟩ := List.mem_map.mp hm
          exact hkp k hk hkf
        · intro k hk
          rcases List.mem_cons.mp hk with hk | hk
          · subst hk; exact hpn
          · intro hm
            exact h6 k hk (by simp [columnSet.add, hm])
        · intro q hq
          rcases List.mem_cons.mp hq with hq | hq
          · subst hq
            exact (h4 _).mpr (Or.inl (by simp [columnSet.add]))
          · exact h7 q hq
        · intro k hk
          rcases List.mem_cons.mp hk with hk | hk
          · subst hk
            simp [List.find?_cons]
          · have hne : (p.FieldName == k.FieldName) = false := by
              rw [beq_eq_false_iff_ne]
              exact fun heq => hkp k hk heq.symm
            rw [List.find?_cons, hne]
            exact h8 k hk

/-- C29: when `Build` succeeds, its result is the list of the ORDER BYs (the
column, then `asc` or `desc`) of some entries of the given parameters followed by
some entries of the default sort, each list in its order; these entries have
distinct columns, they cover every column named by the parameters or by the
default sort, each one is the first entry of its column in the parameters followed
by the default sort, the columns of the parameters come from the parameters, and
no entry of the default sort is kept for a column that the parameters name. -/
theorem C29_Build_one_per_column (b : OrderByBuilder) (params : Db.SortParameters)
    (orderBys : List String) (h : b.Build params = Except.ok orderBys) :
    ∃ fromParams fromDefault : List Db.SortParameter,
      List.Forall₂ IsOrderByOf (fromParams ++ fromDefault) orderBys ∧
      fromParams.Sublist params ∧ fromDefault.Sublist b.defaultSort ∧
      ((fromParams ++ fromDefault).map Db.SortParameter.FieldName).Nodup ∧
      (∀ p ∈ params ++ b.defaultSort,
        p.FieldName ∈ (fromParams ++ fromDefault).map Db.SortParameter.FieldName) ∧
      (∀ p ∈ fromParams ++ fromDefault,
        (params ++ b.defaultSort).find? (fun q => q.FieldName == p.FieldName) = some p) ∧
      (∀ p ∈ params, p.FieldName ∈ fromParams.map Db.SortParameter.FieldName) ∧
      (∀ p ∈ fromDefault, p.FieldName ∉ params.map Db.SortParameter.FieldName) := by
  rw [OrderByBuilder.Build] at h
  cases h1 : b.appendOrderBys [] [] params with
  | error err => rw [h1] at h; cases h
  | ok r1 =>
    rw [h1] at h
    simp only at h
    cases h2 : b.appendOrderBys r1.1 r1.2 b.defaultSort with
    | error err => rw [h2] at h; cases h
    | ok r2 =>
      rw [h2] at h
      simp only [Except.ok.injEq] at h
      obtain ⟨k1, t1, a1, a2, a3, a4, a5, _, a7, a8⟩ := appendOrderBys_ok b params [] [] r1 h1
      obtain ⟨k2, t2, b1, b2, b3, b4, b5, b6, b7, b8⟩ :=
        appendOrderBys_ok b b.defaultSort r1.1 r1.2 r2 h2
      have hr1 : ∀ name, name ∈ r1.2 ↔ name ∈ k1.map Db.SortParameter.FieldName := by
        intro name
        rw [a4]
        simp
      have hcaller : ∀ p ∈ params, p.FieldName ∈ k1.map Db.SortParameter.FieldName :=
        fun p hp => (hr1 _).mp (a7 p hp)
      have hdefault : ∀ p ∈ k2, p.FieldName ∉ params.map Db.SortParameter.FieldName := by
        intro p hp hm
        obtain ⟨q, hq, hqf⟩ := List.mem_map.mp hm
        exact b6 p hp (hqf ▸ a7 q hq)
      refine ⟨k1, k2, ?_, a3, b3, ?_, ?_, ?_, hcaller, hdefault⟩
      · rw [← h, b1, a1, List.nil_append]
        exact List.rel_append a2 b2
      · rw [List.map_append, List.nodup_append]
        refine ⟨a5, b5, ?_⟩
        intro name hn1 hn2
        obtain ⟨p, hp, hpf⟩ := List.mem_map.mp hn2
        exact b6 p hp (hpf ▸ (hr1 _).mpr hn1)
      · intro p hp
        rw [List.map_append, List.mem_append]
        rcases List.mem_append.mp hp with hp | hp
        · exact Or.inl (hcaller p hp)
        · rcases (b4 _).mp (b7 p hp) with hm | hm
          · exact Or.inl ((hr1 _).mp hm)
          · exact Or.inr hm
      · intro p hp
        rw [List.find?_append]
        rcases List.mem_append.mp hp with hp | hp
        · rw [a8 p hp]; rfl
        · have hnone : params.find? (fun q => q.FieldName == p.FieldName) = none := by
            rw [List.find?_eq_none]
            intro q hq hqp
            exact hdefault p hp (List.mem_map.mpr ⟨q, hq, by simpa using hqp⟩)
          rw [hnone, b8 p hp]; rfl

/-- An instance of C29: the caller names `name` twice and the default sort names
`name` and `id`. -/
theorem C29_witness :
    (NewOrderByBuilder [⟨"name", Db.Ascending⟩, ⟨"id", Db.Ascending⟩]
      ["id", "name", "age"]).Build
        [⟨"name", Db.Descending⟩, ⟨"age", Db.Ascending⟩, ⟨"name", Db.Ascending⟩] =
      Except.ok ["name desc", "age asc", "id asc"] ∧
    ∃ fromParams fromDefault : List Db.SortParameter,
      List.Forall₂ IsOrderByOf (fromParams ++ fromDefault) ["name desc", "age asc", "id asc"] ∧
      fromParams.Sublist
        [⟨"name", Db.Descending⟩, ⟨"age", Db.Ascending⟩, ⟨"name", Db.Ascending⟩] ∧
      fromDefault.Sublist (NewOrderByBuilder [⟨"name", Db.Ascending⟩, ⟨"id", Db.Ascending⟩]
        ["id", "name", "age"]).defaultSort ∧
      ((fromParams ++ fromDefault).map Db.SortParameter.FieldName).Nodup ∧
      (∀ p ∈ [(⟨"name", Db.Descending⟩ : Db.SortParameter), ⟨"age", Db.Ascending⟩,
          ⟨"name", Db.Ascending⟩] ++
          (NewOrderByBuilder [⟨"name", Db.Ascending⟩, ⟨"id", Db.Ascending⟩]
            ["id", "name", "age"]).defaultSort,
        p.FieldName ∈ (fromParams ++ fromDefault).map Db.SortParameter.FieldName) ∧
      (∀ p ∈ fromParams ++ fromDefault,
        ([(⟨"name", Db.Descending⟩ : Db.SortParameter), ⟨"age", Db.Ascending⟩,
          ⟨"name", Db.Ascending⟩] ++
          (NewOrderByBuilder [⟨"name", Db.Ascending⟩, ⟨"id", Db.Ascending⟩]
            ["id", "name", "age"]).defaultSort).find?
              (fun q => q.FieldName == p.FieldName) = some p) ∧
      (∀ p ∈ [(⟨"name", Db.Descending⟩ : Db.SortParameter), ⟨"age", Db.Ascending⟩,
          ⟨"name", Db.Ascending⟩],
        p.FieldName ∈ fromParams.map Db.SortParameter.FieldName) ∧
      (∀ p ∈ fromDefault, p.FieldName ∉
        [(⟨"name", Db.Descending⟩ : Db.SortParameter), ⟨"age", Db.Ascending⟩,
          ⟨"name", Db.Ascending⟩].map Db.SortParameter.FieldName) :=
  ⟨rfl, C29_Build_one_per_column (NewOrderByBuilder [⟨"name", Db.Ascending⟩,
      ⟨"id", Db.Ascending⟩] ["id", "name", "age"])
      [⟨"name", Db.Descending⟩, ⟨"age", Db.Ascending⟩, ⟨"name", Db.Ascending⟩]
      ["name desc", "age asc", "id asc"] rfl⟩

/-! ## Mutations (C23) -/

/-- The result of `Mutate` in every case: an error that wraps the failure when
the query cannot be built, when its execution fails, or when the number of
affected rows cannot be read; when all three succeed, `ErrNoModification` for a
count of zero and `nil` for any other count.  So `nil` is returned only when all
three succeed with a count other than zero. -/
theorem Mutate_result (ErrNoModification : Sqs.GoError) (db : ExecerContext)
    (sqlizer : Sqlizer) (query : String) (args : List Value) (buildErr : Option Sqs.GoError)
    (hsql : sqlizer.ToSql = (query, args, buildErr)) :
    (∀ e, buildErr = some e → Mutate ErrNoModification db sqlizer =
      some (Sqs.GoError.wrapped "sqly: unable to build query" e)) ∧
    (buildErr = none → ∀ e, (db.ExecContext query args).2 = some e →
      Mutate ErrNoModification db sqlizer =
        some (Sqs.GoError.wrapped "sqly: unable to execute query" e)) ∧
    (buildErr = none → (db.ExecContext query args).2 = none →
      ∀ e, (db.ExecContext query args).1.RowsAffected.2 = some e →
      Mutate ErrNoModification db sqlizer =
        some (Sqs.GoError.wrapped "sqly: unable to retrieve query result" e)) ∧
    (buildErr = none → (db.ExecContext query args).2 = none →
      (db.ExecContext query args).1.RowsAffected.2 = none →
      ((db.ExecContext query args).1.RowsAffected.1 = 0 →
        Mutate ErrNoModification db sqlizer = some ErrNoModification) ∧
      ((db.ExecContext query args).1.RowsAffected.1 ≠ 0 →
        Mutate ErrNoModification db sqlizer = none)) ∧
    (Mutate ErrNoModification db sqlizer = none →
      buildErr = none ∧ (db.ExecContext query args).2 = none ∧
      (db.ExecContext query args).1.RowsAffected.2 = none ∧
      (db.ExecContext query args).1.RowsAffected.1 ≠ 0 ∧
      (0 ≤ (db.ExecContext query args).1.RowsAffected.1 →
        1 ≤ (db.ExecContext query args).1.RowsAffected.1)) := by
  unfold Mutate
  rw [hsql]
  cases buildErr with
  | some e0 => simp
  | none =>
    cases he : (db.ExecContext query args).2 with
    | some e1 => simp [he]
    | none =>
      cases hr : (db.ExecContext query args).1.RowsAffected.2 with
      | some e2 => simp [he, hr]
      | none =>
        by_cases hc : (db.ExecContext query args).1.RowsAffected.1 = 0
        · simp [he, hr, hc]
        · simp only [he, hr, hc, if_false, ne_eq, not_false_eq_true, true_and, implies_true,
            and_true, reduceCtorEq, false_implies, forall_const]
          intro h0
          omega

/-- Two examples: an update that affects one row, and one that affects none. -/
theorem Mutate_result_example :
    licenseUpdate.ToSql = ("UPDATE licenses SET owner = $1", [Value.string "bob"], none) ∧
    Mutate (Sqs.GoError.plain "no modification") (affecting 1) licenseUpdate = none ∧
    Mutate (Sqs.GoError.plain "no modification") (affecting 0) licenseUpdate =
      some (Sqs.GoError.plain "no modification") ∧
    (Mutate (Sqs.GoError.plain "no modification") (affecting 1) licenseUpdate = none →
      (none : Option Sqs.GoError) = none ∧
      ((affecting 1).ExecContext "UPDATE licenses SET owner = $1" [Value.string "bob"]).2 =
        none ∧
      ((affecting 1).ExecContext "UPDATE licenses SET owner = $1"
        [Value.string "bob"]).1.RowsAffected.2 = none ∧
      ((affecting 1).ExecContext "UPDATE licenses SET owner = $1"
        [Value.string "bob"]).1.RowsAffected.1 ≠ 0 ∧
      (0 ≤ ((affecting 1).ExecContext "UPDATE licenses SET owner = $1"
          [Value.string "bob"]).1.RowsAffected.1 →
        1 ≤ ((affecting 1).ExecContext "UPDATE licenses SET owner = $1"
          [Value.string "bob"]).1.RowsAffected.1)) :=
  ⟨rfl, rfl, rfl,
    (Mutate_result (Sqs.GoError.plain "no modification") (affecting 1) licenseUpdate
      "UPDATE licenses SET owner = $1" [Value.string "bob"] none rfl).2.2.2.2⟩

/-- C23: with a result whose `RowsAffected` returns -1 and no error, for a query
that is built and executed without error, `Mutate` returns `nil`, although the
count reported is not at least one row: `Mutate` only tests `count == 0`. -/
theorem C23_negative_count_returns_nil :
    licenseUpdate.ToSql = ("UPDATE licenses SET owner = $1", [Value.string "bob"], none) ∧
    ((affecting (-1)).ExecContext "UPDATE licenses SET owner = $1"
      [Value.string "bob"]).2 = none ∧
    ((affecting (-1)).ExecContext "UPDATE licenses SET owner = $1"
      [Value.string "bob"]).1.RowsAffected = (-1, none) ∧
    ¬ (1 : Int) ≤ -1 ∧
    Mutate (Sqs.GoError.plain "no modification") (affecting (-1)) licenseUpdate = none :=
  ⟨rfl, rfl, rfl, by decide, rfl⟩

/-! ## Named statements (C24) -/

/-- The name of the parameter of an argument that is a colon followed by a
name. -/
theorem paramName_colon (param : String) :
    paramName (Value.string (":" ++ param)) = Except.ok param := by
  cases param with
  | mk data => rfl

/-- An argument that is not a colon followed by a name is refused. -/
theorem paramName_refused (arg : Value) (h : ∀ param, arg ≠ Value.string (":" ++ param)) :
    ∃ err, paramName arg = Except.error err := by
  cases arg with
  | string name =>
    cases hd : name.data with
    | nil =>
      refine ⟨Sqs.GoError.plain
        ("sqly: invalid param name: should start with a colon but got " ++ name), ?_⟩
      simp only [paramName, hd]
    | cons c rest =>
      by_cases hc : c = ':'
      · exfalso
        apply h ⟨rest⟩
        congr 1
        cases name with
        | mk data =>
          simp only at hd
          rw [hd, hc]
          rfl
      · refine ⟨Sqs.GoError.plain
          ("sqly: invalid param name: should start with a colon but got " ++ name), ?_⟩
        simp only [paramName, hd]
        split
        · rename_i heq
          cases heq
          exact absurd rfl hc
        · rfl
  | int n => exact ⟨_, rfl⟩
  | bool b => exact ⟨_, rfl⟩
  | null => exact ⟨_, rfl⟩

/-- The loop over arguments that are all a colon followed by a name returns the
names in order. -/
theorem paramNames_ok :
    ∀ args : List Value, (∀ arg ∈ args, ∃ param, arg = Value.string (":" ++ param)) →
      ∃ params, paramNames args = Except.ok params ∧
        List.Forall₂ (fun arg param => arg = Value.string (":" ++ param)) args params := by
  intro args
  induction args with
  | nil => intro _; exact ⟨[], rfl, List.Forall₂.nil⟩
  | cons arg rest ih =>
    intro h
    obtain ⟨param, hparam⟩ := h arg (List.mem_cons_self _ _)
    obtain ⟨params, hps, hall⟩ := ih (fun a ha => h a (List.mem_cons_of_mem _ ha))
    refine ⟨param :: params, ?_, List.Forall₂.cons hparam hall⟩
    rw [paramNames, hparam, paramName_colon, hps]

/-- The loop over arguments fails when one of them is refused. -/
theorem paramNames_refused :
    ∀ args : List Value, (∃ arg ∈ args, ∀ param, arg ≠ Value.string (":" ++ param)) →
      ∃ err, paramNames args = Except.error err := by
  intro args
  induction args with
  | nil => intro h; simp at h
  | cons arg rest ih =>
    intro h
    rw [paramNames]
    cases hn : paramName arg with
    | error err => exact ⟨err, rfl⟩
    | ok name =>
      obtain ⟨bad, hbad, hno⟩ := h
      rcases List.mem_cons.mp hbad with hb | hb
      · subst hb
        obtain ⟨err, herr⟩ := paramName_refused bad hno
        rw [herr] at hn
        cases hn
      · obtain ⟨err, herr⟩ := ih ⟨bad, hb, hno⟩
        exact ⟨err, by simp only [herr]⟩

/-- C24: when the query is generated without error and each of its arguments is
a string made of a colon followed by a name, and the statement prepares,
`PrepareNamed` returns, with no error, a named statement whose `Params` are these
names in the order of the arguments, whose `QueryString` is the SQL generated and
whose statement is the one prepared for that SQL.  When an argument is not a
string that starts with a colon, `PrepareNamed` returns an error and no
statement, and nothing is prepared. -/
theorem C24_PrepareNamed_params {σ : Type} (db : Preparer σ) (sqlizer : Sqlizer) (s : σ)
    (queryString : String) (args : List Value) (buildErr : Option Sqs.GoError)
    (hsql : sqlizer.ToSql = (queryString, args, buildErr)) :
    (buildErr = none → (∀ arg ∈ args, ∃ param, arg = Value.string (":" ++ param)) →
      (db.Preparex queryString s).1.2 = none →
      ∃ params, PrepareNamed db sqlizer s =
          ⟨some ⟨params, queryString, (db.Preparex queryString s).1.1⟩, none,
            (db.Preparex queryString s).2, [queryString]⟩ ∧
        List.Forall₂ (fun arg param => arg = Value.string (":" ++ param)) args params) ∧
    ((∃ arg ∈ args, ∀ param, arg ≠ Value.string (":" ++ param)) →
      (PrepareNamed db sqlizer s).err ≠ none ∧ (PrepareNamed db sqlizer s).stmt = none ∧
      (PrepareNamed db sqlizer s).prepared = [] ∧ (PrepareNamed db sqlizer s).world = s) := by
  unfold PrepareNamed
  rw [hsql]
  refine ⟨?_, ?_⟩
  · intro hb hargs hprep
    obtain ⟨params, hps, hall⟩ := paramNames_ok args hargs
    refine ⟨params, ?_, hall⟩
    subst hb
    simp only [hps, hprep]
  · intro hbad
    obtain ⟨err, herr⟩ := paramNames_refused args hbad
    cases buildErr with
    | some e => simp
    | none => simp [herr]

/-- An instance of C24: the query of the example, whose argument is `:id`. -/
theorem C24_witness :
    licenseQuery.ToSql =
      ("SELECT * FROM licenses WHERE license_id = $1", [Value.string ":id"], none) ∧
    PrepareNamed countingPreparer licenseQuery 0 =
      ⟨some ⟨["id"], "SELECT * FROM licenses WHERE license_id = $1", ⟨0⟩⟩, none, 1,
        ["SELECT * FROM licenses WHERE license_id = $1"]⟩ ∧
    (((none : Option Sqs.GoError) = none →
      (∀ arg ∈ [Value.string ":id"], ∃ param, arg = Value.string (":" ++ param)) →
      (countingPreparer.Preparex "SELECT * FROM licenses WHERE license_id = $1" 0).1.2 = none →
      ∃ params, PrepareNamed countingPreparer licenseQuery 0 =
          ⟨some ⟨params, "SELECT * FROM licenses WHERE license_id = $1",
            (countingPreparer.Preparex "SELECT * FROM licenses WHERE license_id = $1" 0).1.1⟩,
            none,
            (countingPreparer.Preparex "SELECT * FROM licenses WHERE license_id = $1" 0).2,
            ["SELECT * FROM licenses WHERE license_id = $1"]⟩ ∧
        List.Forall₂ (fun arg param => arg = Value.string (":" ++ param))
          [Value.string ":id"] params) ∧
    ((∃ arg ∈ [Value.string ":id"], ∀ param, arg ≠ Value.string (":" ++ param)) →
      (PrepareNamed countingPreparer licenseQuery 0).err ≠ none ∧
      (PrepareNamed countingPreparer licenseQuery 0).stmt = none ∧
      (PrepareNamed countingPreparer licenseQuery 0).prepared = [] ∧
      (PrepareNamed countingPreparer licenseQuery 0).world = 0)) :=
  ⟨rfl, rfl,
    C24_PrepareNamed_params countingPreparer licenseQuery 0
      "SELECT * FROM licenses WHERE license_id = $1" [Value.string ":id"] none rfl⟩

end Sqly
